import Mathlib

/-!
Felina numerical core.

A shallow embedding of the numerical core of `Felina.cpp`: the stability classifier
`CheckStability`, the quality scorer `CalculateQuality`, the closed-form homography solver
`ComputeTransformMatrix` and the general Gaussian-elimination solver `CalculateHomography`
(from the earlier revision of the file).

The numerical functions are embedded twice.

* Over an arbitrary linearly ordered field `K` (exact arithmetic): every definition is
  computable and can be run at `K = ℚ`, and every theorem holds in particular at `K = ℝ`.
  Decimal literals of the source (`1e-5f`, `0.016f`, ...) denote the exact decimal value.
  This embedding carries the statements about the algorithms in exact arithmetic.
* In namespace `Float32`, over the type `F32` of IEEE 754 binary32 values: every operation is
  rounded to nearest, ties to even, with signed zeros, infinities and NaN, and a literal is the
  float nearest to the decimal.  This embedding carries the statements whose truth depends on
  rounding, overflow, NaN or the value of a float constant.

The libm functions `acosf` and `sqrtf` are not part of the repository and are taken as
parameters.
-/

set_option linter.unusedSectionVars false

namespace Felina

/-! ## Data model -/

/-- Two-component vector, `struct Float2`. -/
@[ext]
structure Float2 (K : Type) where
  x : K
  y : K

/-- Three-component vector, `struct Float3`. -/
structure Float3 (K : Type) where
  x : K
  y : K
  z : K

/-- Four-component vector used as a quaternion, `struct Float4`. -/
structure Float4 (K : Type) where
  x : K
  y : K
  z : K
  w : K

/-- Column-major 4x4 matrix, `struct Float4x4`. -/
@[ext]
structure Float4x4 (K : Type) where
  c0x : K
  c0y : K
  c0z : K
  c0w : K
  c1x : K
  c1y : K
  c1z : K
  c1w : K
  c2x : K
  c2y : K
  c2z : K
  c2w : K
  c3x : K
  c3y : K
  c3z : K
  c3w : K
  deriving DecidableEq

variable {K : Type} [LinearOrderedField K]

/-- The identity matrix written by every fallback branch. -/
def identity4x4 : Float4x4 K :=
  { c0x := 1, c0y := 0, c0z := 0, c0w := 0,
    c1x := 0, c1y := 1, c1z := 0, c1w := 0,
    c2x := 0, c2y := 0, c2z := 1, c2w := 0,
    c3x := 0, c3y := 0, c3z := 0, c3w := 1 }

/-! ## Helper math -/

/-- Dot product of two 3-vectors, `Dot`. -/
def Dot (a b : Float3 K) : K := a.x * b.x + a.y * b.y + a.z * b.z

/-- Squared distance in the plane, `DistSq2`. -/
def DistSq2 (a b : Float2 K) : K :=
  let dx := a.x - b.x
  let dy := a.y - b.y
  dx * dx + dy * dy

/-- Squared distance in space, `DistSq3`. -/
def DistSq3 (a b : Float3 K) : K :=
  let dx := a.x - b.x
  let dy := a.y - b.y
  let dz := a.z - b.z
  dx * dx + dy * dy + dz * dz

/-- Clamp to the unit interval, `Clamp01`. -/
def Clamp01 (v : K) : K := if v < 0 then 0 else (if v > 1 then 1 else v)

/-! ## Stability classifier -/

/-- The constant `RAD_TO_DEG = 57.29577951308232f` of `CheckStability`. -/
def RAD_TO_DEG : K := 57.29577951308232

/-- The time step used after the floor `if (dt <= 1e-5f) dt = 0.016f`. -/
def flooredDt (dt : K) : K := if dt ≤ 1e-5 then 0.016 else dt

/-- The angle in degrees between two orientations, as computed by `CheckStability`. -/
def angleDeg (acos : K → K) (curRot lastRot : Float4 K) : K :=
  let dot := (curRot.x * lastRot.x) + (curRot.y * lastRot.y) + (curRot.z * lastRot.z)
    + (curRot.w * lastRot.w)
  let absDot := if dot < 0 then -dot else dot
  let absDot := if absDot > 1 then 1 else absDot
  2 * acos absDot * RAD_TO_DEG

/-- The stability test `CheckStability` of `Felina.cpp`. -/
def CheckStability (acos : K → K) (curPos : Float3 K) (curRot : Float4 K)
    (lastPos : Float3 K) (lastRot : Float4 K) (dt maxMoveSpeed maxRotSpeed : K) : Bool :=
  let dx := curPos.x - lastPos.x
  let dy := curPos.y - lastPos.y
  let dz := curPos.z - lastPos.z
  let distSq := dx * dx + dy * dy + dz * dz
  let angle := angleDeg acos curRot lastRot
  let dt := flooredDt dt
  let invDt := 1 / dt
  let moveSpeedSq := distSq * (invDt * invDt)
  let maxMoveSpeedSq := maxMoveSpeed * maxMoveSpeed
  let maxAngleAllowed := maxRotSpeed * dt
  decide (moveSpeedSq ≤ maxMoveSpeedSq) && decide (angle ≤ maxAngleAllowed)

/-! ## Quality scorer -/

/-- The quality score `CalculateQuality` of `Felina.cpp`. -/
def CalculateQuality (camPos camFwd imgPos imgUp : Float3 K) (imgScreenPos : Float2 K)
    (screenWidth screenHeight : K) : K :=
  let negFwd : Float3 K := { x := -camFwd.x, y := -camFwd.y, z := -camFwd.z }
  let dotVal := Dot imgUp negFwd
  let angleScore := Clamp01 dotVal
  let screenCenter : Float2 K := { x := screenWidth * 0.5, y := screenHeight * 0.5 }
  if imgScreenPos.x < 0 ∨ imgScreenPos.y < 0 then 0
  else
    let sqrDistCenter := DistSq2 imgScreenPos screenCenter
    let halfH := screenHeight * 0.5
    let sqrMaxDist := halfH * halfH
    let centerScore := Clamp01 (1 - (sqrDistCenter / sqrMaxDist))
    let sqrDistCam := DistSq3 camPos imgPos
    let distScore : K := if sqrDistCam < 0.04 ∨ sqrDistCam > 1 then 0.5 else 1
    (angleScore * 0.6) + (centerScore * 0.4 * distScore)

/-! ## Closed-form homography solver -/

/-- The threshold `EPS = 1e-9f` used by both homography solvers. -/
def EPS : K := 1e-9

/-- The source rectangle written by `ComputeUVs`. -/
def ComputeUVs : Fin 4 → Float2 K :=
  let uMin : K := 0
  let uMax : K := uMin + 1
  let vMin : K := 0
  let vMax : K := 1
  ![{ x := uMin, y := vMin }, { x := uMax, y := vMin }, { x := uMax, y := vMax },
    { x := uMin, y := vMax }]

/-- The screen points normalised by `ComputeTransformMatrix`:
`dst[i] = (raw[i].x * invW, raw[i].y * invH)`. -/
def normalizePoints (screenW screenH : K) (rawScreenPoints : Fin 4 → Float2 K) :
    Fin 4 → Float2 K :=
  let invW := 1 / screenW
  let invH := 1 / screenH
  fun i => { x := (rawScreenPoints i).x * invW, y := (rawScreenPoints i).y * invH }

/-- The denominator `den = dx1 * dy2 - dy1 * dx2` of the closed-form solver. -/
def quadDen (dst : Fin 4 → Float2 K) : K :=
  let dx1 := (dst 1).x - (dst 2).x
  let dx2 := (dst 3).x - (dst 2).x
  let dy1 := (dst 1).y - (dst 2).y
  let dy2 := (dst 3).y - (dst 2).y
  dx1 * dy2 - dy1 * dx2

/-- The perspective coefficients `(h20, h21)` of the closed-form solver. -/
def perspectiveTerms (dst : Fin 4 → Float2 K) : K × K :=
  let x0 := (dst 0).x
  let y0 := (dst 0).y
  let x1 := (dst 1).x
  let y1 := (dst 1).y
  let x2 := (dst 2).x
  let y2 := (dst 2).y
  let x3 := (dst 3).x
  let y3 := (dst 3).y
  let dx1 := x1 - x2
  let dx2 := x3 - x2
  let dx3 := x0 - x1 + x2 - x3
  let dy1 := y1 - y2
  let dy2 := y3 - y2
  let dy3 := y0 - y1 + y2 - y3
  let den := dx1 * dy2 - dy1 * dx2
  if |den| < EPS then (0, 0)
  else ((dx3 * dy2 - dy3 * dx2) / den, (dx1 * dy3 - dy1 * dx3) / den)

/-- The closed-form solver `ComputeTransformMatrix` of `Felina.cpp` (the `allowed` flag is the
constant `true`, so its branch is dead code). -/
def ComputeTransformMatrix (screenW screenH : K) (rawScreenPoints : Fin 4 → Float2 K) :
    Float4x4 K :=
  let src : Fin 4 → Float2 K := ComputeUVs
  let dst := normalizePoints screenW screenH rawScreenPoints
  let uMin := (src 0).x
  let vMin := (src 0).y
  let uMax := (src 1).x
  let vMax := (src 3).y
  let uScale := uMax - uMin
  let vScale := vMax - vMin
  if uScale = 0 ∨ vScale = 0 then identity4x4
  else
    let x0 := (dst 0).x
    let y0 := (dst 0).y
    let x1 := (dst 1).x
    let y1 := (dst 1).y
    let x3 := (dst 3).x
    let y3 := (dst 3).y
    let h20 := (perspectiveTerms dst).1
    let h21 := (perspectiveTerms dst).2
    let h00 := x1 - x0 + h20 * x1
    let h01 := x3 - x0 + h21 * x3
    let h02 := x0
    let h10 := y1 - y0 + h20 * y1
    let h11 := y3 - y0 + h21 * y3
    let h12 := y0
    let h22 : K := 1
    let invU := 1 / uScale
    let invV := 1 / vScale
    let c00 := h00 * invU
    let c10 := h10 * invU
    let c20 := h20 * invU
    let c01 := h01 * invV
    let c11 := h11 * invV
    let c21 := h21 * invV
    let c02 := -h00 * (uMin * invU) - h01 * (vMin * invV) + h02
    let c12 := -h10 * (uMin * invU) - h11 * (vMin * invV) + h12
    let c22 := -h20 * (uMin * invU) - h21 * (vMin * invV) + h22
    { c0x := c00, c0y := c10, c0z := c20, c0w := 0,
      c1x := c01, c1y := c11, c1z := c21, c1w := 0,
      c2x := c02, c2y := c12, c2z := c22, c2w := 0,
      c3x := 0, c3y := 0, c3z := 0, c3w := 1 }

/-! ## General homography solver (Gaussian elimination) -/

/-- The 8x9 augmented system `M` built by `CalculateHomography`, one inner list per row:
rows `2 * i` and `2 * i + 1` come from correspondence `i`. -/
def buildSystem (src dst : Fin 4 → Float2 K) : List (List K) :=
  (List.finRange 4).flatMap fun i =>
    let u := (src i).x
    let v := (src i).y
    let x := (dst i).x
    let y := (dst i).y
    [[u, v, 1, 0, 0, 0, -u * x, -v * x, x], [0, 0, 0, u, v, 1, -u * y, -v * y, y]]

/-- The entry `row[i][j]`. -/
def entry (rows : List (List K)) (i j : ℕ) : K := (rows.getD i []).getD j 0

/-- The pivot search of step `k`: scans rows `k + 1 .. 7` for a strictly larger magnitude in
column `k`, returning `(maxRow, maxVal)`. -/
def findPivot (rows : List (List K)) (k : ℕ) : ℕ × K :=
  (List.range' (k + 1) (8 - (k + 1))).foldl
    (fun (best : ℕ × K) i =>
      let v := |entry rows i k|
      if v > best.2 then (i, v) else best)
    (k, |entry rows k k|)

/-- The row-pointer swap `tmp = row[k]; row[k] = row[maxRow]; row[maxRow] = tmp`. -/
def swapRows (rows : List (List K)) (k maxRow : ℕ) : List (List K) :=
  if maxRow ≠ k then (rows.set k (rows.getD maxRow [])).set maxRow (rows.getD k []) else rows

/-- The normalisation `pivotRow[j] *= invPivot` for `j = k .. cols - 1`. -/
def normalizeRow (k : ℕ) (invPivot : K) (pivotRow : List K) : List K :=
  pivotRow.mapIdx fun j a => if k ≤ j then a * invPivot else a

/-- The elimination of one row `ri` below the pivot row: `ri[j] -= factor * pivotRow[j]` for
`j = k .. cols - 1`, skipped when `factor == 0`. -/
def eliminateRow (k : ℕ) (pivotRow ri : List K) : List K :=
  let factor := ri.getD k 0
  if factor = 0 then ri
  else ri.mapIdx fun j a => if k ≤ j then a - factor * pivotRow.getD j 0 else a

/-- One iteration `k` of the elimination loop; `none` is the identity fallback
`maxVal < EPS`. -/
def eliminateStep (rows : List (List K)) (k : ℕ) : Option (List (List K)) :=
  let maxRow := (findPivot rows k).1
  let maxVal := (findPivot rows k).2
  if maxVal < EPS then none
  else
    let rows := swapRows rows k maxRow
    let pivot := entry rows k k
    let invPivot := 1 / pivot
    let pivotRow := normalizeRow k invPivot (rows.getD k [])
    let rows := rows.set k pivotRow
    some (rows.mapIdx fun i ri => if k < i then eliminateRow k pivotRow ri else ri)

/-- The elimination loop `for (k = 0; k < n; ++k)`. -/
def eliminate (rows : List (List K)) : Option (List (List K)) :=
  (List.range 8).foldlM eliminateStep rows

/-- One iteration `i` of back substitution; `none` is the identity fallback
`fabsf(diag) < EPS`. -/
def backStep (rows : List (List K)) (xsol : List K) (i : ℕ) : Option (List K) :=
  let ri := rows.getD i []
  let sum := (List.range' (i + 1) (8 - (i + 1))).foldl
    (fun s j => s + ri.getD j 0 * xsol.getD j 0) 0
  let rhs := ri.getD 8 0 - sum
  let diag := ri.getD i 0
  if |diag| < EPS then none else some (xsol.set i (rhs / diag))

/-- The back-substitution loop `for (i = n - 1; i >= 0; --i)`; the array `xsol` starts
uninitialised in the source and every entry is written before it is read. -/
def backSubstitute (rows : List (List K)) : Option (List K) :=
  [7, 6, 5, 4, 3, 2, 1, 0].foldlM (backStep rows) (List.replicate 8 0)

/-- The solution vector `xsol` of `CalculateHomography`, or `none` when one of the two
identity-fallback branches is taken. -/
def solveSystem (src dst : Fin 4 → Float2 K) : Option (List K) :=
  (eliminate (buildSystem src dst)).bind backSubstitute

/-- The packing of `xsol` into the column-major result of `CalculateHomography`. -/
def packResult (xsol : List K) : Float4x4 K :=
  { c0x := xsol.getD 0 0, c0y := xsol.getD 3 0, c0z := xsol.getD 6 0, c0w := 0,
    c1x := xsol.getD 1 0, c1y := xsol.getD 4 0, c1z := xsol.getD 7 0, c1w := 0,
    c2x := xsol.getD 2 0, c2y := xsol.getD 5 0, c2z := 1, c2w := 0,
    c3x := 0, c3y := 0, c3z := 0, c3w := 1 }

/-- The general solver `CalculateHomography` of the earlier revision of `Felina.cpp`. -/
def CalculateHomography (src dst : Fin 4 → Float2 K) : Float4x4 K :=
  match solveSystem src dst with
  | none => identity4x4
  | some xsol => packResult xsol

/-! ## Embeddings with guarded division -/

/-- Division that reports a zero divisor: `none` when `b = 0`. -/
def safeDiv (a b : K) : Option K := if b = 0 then none else some (a / b)

/-- The uniform scaling of four raw points by `k`. -/
def scalePoints (k : K) (raw : Fin 4 → Float2 K) : Fin 4 → Float2 K :=
  fun i => { x := k * (raw i).x, y := k * (raw i).y }

/-- The value that `CheckStability` passes to `acosf`: `|dot|` capped at 1. -/
def acosArgument (curRot lastRot : Float4 K) : K :=
  let dot := (curRot.x * lastRot.x) + (curRot.y * lastRot.y) + (curRot.z * lastRot.z)
    + (curRot.w * lastRot.w)
  let absDot := if dot < 0 then -dot else dot
  if absDot > 1 then 1 else absDot

/-- The stability test `CheckStability` with its division `1.0f / dt` guarded. -/
def CheckStabilityChecked (acos : K → K) (curPos : Float3 K) (curRot : Float4 K)
    (lastPos : Float3 K) (lastRot : Float4 K) (dt maxMoveSpeed maxRotSpeed : K) :
    Option Bool := do
  let dx := curPos.x - lastPos.x
  let dy := curPos.y - lastPos.y
  let dz := curPos.z - lastPos.z
  let distSq := dx * dx + dy * dy + dz * dz
  let angle := angleDeg acos curRot lastRot
  let dt := flooredDt dt
  let invDt ← safeDiv 1 dt
  let moveSpeedSq := distSq * (invDt * invDt)
  let maxMoveSpeedSq := maxMoveSpeed * maxMoveSpeed
  let maxAngleAllowed := maxRotSpeed * dt
  pure (decide (moveSpeedSq ≤ maxMoveSpeedSq) && decide (angle ≤ maxAngleAllowed))

/-- The orientation `-q`: all four components negated. -/
def negQuat (q : Float4 K) : Float4 K := { x := -q.x, y := -q.y, z := -q.z, w := -q.w }

/-! ## Obfuscated strings and the invoice hash

Bytes are natural numbers below 256 and `unsigned long long` is arithmetic modulo `2 ^ 64`.
-/

/-- The array `encUrl` of `GetDBRoot` (60 bytes). -/
def encUrl : List ℕ :=
  [0xF1, 0xED, 0xED, 0xE9, 0xEA, 0xA3, 0xB6, 0xB6,
   0xF8, 0xEB, 0xFA, 0xE6, 0xE5, 0xE6, 0xEB, 0xFB,
   0xE6, 0xE6, 0xE2, 0xB4, 0xEF, 0xF8, 0xE5, 0xE0,
   0xDD, 0xF8, 0xED, 0xE0, 0xE6, 0xE7, 0xB4, 0xDD,
   0xFC, 0xFF, 0xF8, 0xEC, 0xE5, 0xED, 0xB4, 0xEB,
   0xED, 0xDD, 0xFB, 0xB7, 0xFF, 0xE0, 0xEB, 0xFC,
   0xFB, 0xF8, 0xEA, 0xFC, 0xE0, 0xE6, 0xB7, 0xFA,
   0xE6, 0xE4, 0xB6, 0x00]

/-- The function `GetDBRoot`, as a map on the contents of the global `_dbRootBuffer`: a
buffer whose first byte is not zero is returned as it is, otherwise bytes `0 .. len - 1`
are overwritten with `encUrl[i] ^ 0x99`. -/
def GetDBRoot (dbRootBuffer : List ℕ) : List ℕ :=
  if dbRootBuffer.getD 0 0 ≠ 0 then dbRootBuffer
  else
    let len := encUrl.length
    (List.range len).foldl
      (fun buf i => buf.set i ((encUrl.getD i 0 ^^^ 0x99) % 256)) dbRootBuffer

/-- The initial contents of `_dbRootBuffer`: `char _dbRootBuffer[256] = { 0 }`. -/
def initialDbRootBuffer : List ℕ := List.replicate 256 0

/-- The C string held in a memory region: the bytes before the first NUL. -/
def cString (mem : List ℕ) : List ℕ := mem.takeWhile (fun b => b ≠ 0)

/-- The array `encSalt` of `HashInvoice` and `GenerateHashInternal` (19 bytes). -/
def encSalt : List ℕ :=
  [0xDF, 0xDC, 0xD5, 0xD0, 0xD7, 0xD8, 0xC6, 0xAB, 0xA9, 0xAB, 0xAC,
   0xC6, 0xCA, 0xDC, 0xDA, 0xCC, 0xCB, 0xDC, 0x99]

/-- The value of `c = *p` for a `char` holding the byte `b`: sign-extended where `char` is a
signed type (`signedChar = true`), the byte itself where it is unsigned. -/
def charToInt (signedChar : Bool) (b : ℕ) : ℤ :=
  if signedChar = true ∧ 128 ≤ b then (b : ℤ) - 256 else (b : ℤ)

/-- One hash update `hash = ((hash << 5) + hash) + c` on `unsigned long long`, `c` being
converted from `int`. -/
def hashStep (signedChar : Bool) (hash b : ℕ) : ℕ :=
  (((hash <<< 5) % 2 ^ 64 + hash) % 2 ^ 64 + (charToInt signedChar b % 2 ^ 64).toNat) % 2 ^ 64

/-- The loop `while ((c = *p++)) hash = ((hash << 5) + hash) + c` over the memory `mem` that
`p` points to. -/
def hashLoop (signedChar : Bool) : ℕ → List ℕ → ℕ
  | hash, [] => hash
  | hash, b :: rest => if b = 0 then hash else hashLoop signedChar (hashStep signedChar hash b) rest

/-- The function `HashInvoice`. Its decryption loop runs `i = 0 .. 19` over the 19-byte
`encSalt`; `stray` is the byte read one past the end of the array. -/
def HashInvoice (signedChar : Bool) (stray : ℕ) (invoice : List ℕ) : ℕ :=
  let salt := (List.range 20).map fun i => (encSalt.getD i stray ^^^ 0x99) % 256
  let hash := 5381
  let hash := hashLoop signedChar hash invoice
  hashLoop signedChar hash salt

/-- The function `GenerateHashInternal`. Its decryption loop writes `salt[0 .. 18]`; `junk`
is the uninitialised byte `salt[19]`. -/
def GenerateHashInternal (signedChar : Bool) (junk : ℕ) (invoice : List ℕ) : ℕ :=
  let salt := ((List.range encSalt.length).map fun i => (encSalt.getD i 0 ^^^ 0x99) % 256)
    ++ [junk]
  let hash := 5381
  let hash := hashLoop signedChar hash invoice
  hashLoop signedChar hash salt

/-- The bytes of the documented database root. -/
def documentedUrl : List ℕ :=
  "https://arcolorbook-validation-default-rtdb.firebaseio.com/".toList.map Char.toNat

/-- The 18 bytes of the salt `FELINA_2025_SECURE`. -/
def saltBytes : List ℕ := "FELINA_2025_SECURE".toList.map Char.toNat

/-- The DJB2 hash modulo `2 ^ 64`: seed 5381 and `h <- 33 * h + c` for each byte `c`. -/
def djb2 (bytes : List ℕ) : ℕ := bytes.foldl (fun h c => (33 * h + c) % 2 ^ 64) 5381

/-- A sample invoice number, `INV-2025-001`, as bytes. -/
def sampleInvoice : List ℕ := "INV-2025-001".toList.map Char.toNat

/-! ## Binary32 arithmetic

The program computes in `float`.  `F32` is the value set of IEEE 754 binary32: a finite
value is a sign and a magnitude (so both zeros are present), and every arithmetic
operation returns the exact result rounded to the nearest representable value, ties to
the even significand, with overflow to an infinity. -/

/-- Values of a `float`. -/
inductive F32 where
  | fin (neg : Bool) (mag : ℚ)
  | inf (neg : Bool)
  | nan
deriving DecidableEq

namespace F32

/-- Position of the leading binary digit of `n`, for `0 < n ≤ fuel`. -/
def log2Fuel : ℕ → ℕ → ℕ
  | 0, _ => 0
  | fuel + 1, n => if n < 2 then 0 else log2Fuel fuel (n / 2) + 1

/-- Binary exponent `e` of a positive magnitude, `2 ^ e ≤ m < 2 ^ (e + 1)`, held at the
exponent `-126` of the subnormal range. -/
def exponent (m : ℚ) : ℤ :=
  let a := m.num.natAbs
  let e0 : ℤ := (log2Fuel a a : ℤ) - (log2Fuel m.den m.den : ℤ)
  max (if (2 : ℚ) ^ e0 ≤ m then e0 else e0 - 1) (-126)

/-- Nearest natural number, ties to even. -/
def roundHalfEven (x : ℚ) : ℕ :=
  let n := ⌊x⌋₊
  let r := x - n
  if r < 1 / 2 then n else if 1 / 2 < r then n + 1 else if n % 2 = 0 then n else n + 1

/-- Round a magnitude to 24 significant binary digits; `none` is overflow. -/
def roundMag (m : ℚ) : Option ℚ :=
  let ulp := (2 : ℚ) ^ (exponent m - 23)
  let v := (roundHalfEven (m / ulp) : ℚ) * ulp
  if v < (2 : ℚ) ^ (128 : ℤ) then some v else none

/-- The float of sign `neg` nearest to the magnitude `m`. -/
def round (neg : Bool) (m : ℚ) : F32 :=
  match roundMag m with
  | some v => fin neg v
  | none => inf neg

/-- The float nearest to a rational: the value of a decimal literal with suffix `f`. -/
def ofRat (q : ℚ) : F32 := round (decide (q < 0)) |q|

/-- Signed value of a sign and magnitude. -/
def signed (neg : Bool) (m : ℚ) : ℚ := if neg then -m else m

/-- Unary minus. -/
def neg : F32 → F32
  | fin s m => fin (!s) m
  | inf s => inf (!s)
  | nan => nan

/-- Addition. An exact zero sum is `+0` unless both operands are `-0`. -/
def add : F32 → F32 → F32
  | nan, _ => nan
  | _, nan => nan
  | inf s, inf t => if s = t then inf s else nan
  | inf s, fin _ _ => inf s
  | fin _ _, inf t => inf t
  | fin s a, fin t b =>
    let x := signed s a + signed t b
    if x = 0 then fin (s && t) 0 else round (decide (x < 0)) |x|

/-- Subtraction. -/
def sub (x y : F32) : F32 := add x (neg y)

/-- Multiplication. -/
def mul : F32 → F32 → F32
  | nan, _ => nan
  | _, nan => nan
  | inf s, inf t => inf (xor s t)
  | inf s, fin t b => if b = 0 then nan else inf (xor s t)
  | fin s a, inf t => if a = 0 then nan else inf (xor s t)
  | fin s a, fin t b => round (xor s t) (a * b)

/-- Division. -/
def div : F32 → F32 → F32
  | nan, _ => nan
  | _, nan => nan
  | inf _, inf _ => nan
  | inf s, fin t _ => inf (xor s t)
  | fin s _, inf t => fin (xor s t) 0
  | fin s a, fin t b =>
    if b = 0 then (if a = 0 then nan else inf (xor s t)) else round (xor s t) (a / b)

/-- Absolute value, `fabsf`. -/
def abs : F32 → F32
  | fin _ m => fin false m
  | inf _ => inf false
  | nan => nan

/-- The comparison `x < y`; false when an operand is NaN. -/
def lt : F32 → F32 → Bool
  | nan, _ => false
  | _, nan => false
  | inf s, inf t => s && !t
  | inf s, fin _ _ => s
  | fin _ _, inf t => !t
  | fin s a, fin t b => decide (signed s a < signed t b)

/-- The comparison `x <= y`; false when an operand is NaN. -/
def le : F32 → F32 → Bool
  | nan, _ => false
  | _, nan => false
  | inf s, inf t => s || !t
  | inf s, fin _ _ => s
  | fin _ _, inf t => !t
  | fin s a, fin t b => decide (signed s a ≤ signed t b)

/-- The comparison `x == y`; false when an operand is NaN, true for `+0 == -0`. -/
def beq : F32 → F32 → Bool
  | nan, _ => false
  | _, nan => false
  | inf s, inf t => s == t
  | inf _, fin _ _ => false
  | fin _ _, inf _ => false
  | fin s a, fin t b => decide (signed s a = signed t b)

instance : Add F32 := ⟨add⟩
instance : Sub F32 := ⟨sub⟩
instance : Mul F32 := ⟨mul⟩
instance : Div F32 := ⟨div⟩
instance : Neg F32 := ⟨neg⟩
instance : OfNat F32 0 := ⟨fin false 0⟩
instance : OfNat F32 1 := ⟨fin false 1⟩
instance : OfNat F32 2 := ⟨fin false 2⟩

end F32
/-! ## The program in binary32 arithmetic

The same functions with every `float` operation rounded: the definitions follow the source
line by line, `+ - * /` are the operations of `F32`, comparisons are those of IEEE 754, and
a literal such as `1e-9f` is the float nearest to the decimal.  The libm functions `acosf`
and `sqrtf` are parameters. -/

namespace Float32

/-- The identity matrix written by every fallback branch. -/
def identity4x4 : Float4x4 F32 :=
  { c0x := 1, c0y := 0, c0z := 0, c0w := 0,
    c1x := 0, c1y := 1, c1z := 0, c1w := 0,
    c2x := 0, c2y := 0, c2z := 1, c2w := 0,
    c3x := 0, c3y := 0, c3z := 0, c3w := 1 }

/-- Dot product of two 3-vectors, `Dot`. -/
def Dot (a b : Float3 F32) : F32 := a.x * b.x + a.y * b.y + a.z * b.z

/-- Squared distance in the plane, `DistSq2`. -/
def DistSq2 (a b : Float2 F32) : F32 :=
  let dx := a.x - b.x
  let dy := a.y - b.y
  dx * dx + dy * dy

/-- Squared distance in space, `DistSq3`. -/
def DistSq3 (a b : Float3 F32) : F32 :=
  let dx := a.x - b.x
  let dy := a.y - b.y
  let dz := a.z - b.z
  dx * dx + dy * dy + dz * dz

/-- Clamp to the unit interval, `Clamp01`. -/
def Clamp01 (v : F32) : F32 := if F32.lt v 0 then 0 else (if F32.lt 1 v then 1 else v)

/-- The constant `RAD_TO_DEG = 57.29577951308232f` of `CheckStability`. -/
def RAD_TO_DEG : F32 := F32.ofRat 57.29577951308232

/-- The time step after the floor `if (dt <= 1e-5f) dt = 0.016f`. -/
def flooredDt (dt : F32) : F32 := if F32.le dt (F32.ofRat 1e-5) then F32.ofRat 0.016 else dt

/-- The quaternion dot product of `CheckStability`. -/
def quatDot (curRot lastRot : Float4 F32) : F32 :=
  (curRot.x * lastRot.x) + (curRot.y * lastRot.y) + (curRot.z * lastRot.z)
    + (curRot.w * lastRot.w)

/-- The angle in degrees between two orientations, as computed by `CheckStability`. -/
def angleDeg (acos : F32 → F32) (curRot lastRot : Float4 F32) : F32 :=
  let dot := quatDot curRot lastRot
  let absDot := if F32.lt dot 0 then -dot else dot
  let absDot := if F32.lt 1 absDot then 1 else absDot
  2 * acos absDot * RAD_TO_DEG

/-- The value that `CheckStability` passes to `acosf`: `|dot|` capped at 1. -/
def acosArgument (curRot lastRot : Float4 F32) : F32 :=
  let dot := quatDot curRot lastRot
  let absDot := if F32.lt dot 0 then -dot else dot
  if F32.lt 1 absDot then 1 else absDot

/-- The squared speed `moveSpeedSq` that `CheckStability` compares with the squared limit. -/
def moveSpeedSq (curPos lastPos : Float3 F32) (dt : F32) : F32 :=
  let distSq := DistSq3 curPos lastPos
  let invDt := 1 / flooredDt dt
  distSq * (invDt * invDt)

/-- The stability test `CheckStability` of `Felina.cpp`. -/
def CheckStability (acos : F32 → F32) (curPos : Float3 F32) (curRot : Float4 F32)
    (lastPos : Float3 F32) (lastRot : Float4 F32) (dt maxMoveSpeed maxRotSpeed : F32) : Bool :=
  let dx := curPos.x - lastPos.x
  let dy := curPos.y - lastPos.y
  let dz := curPos.z - lastPos.z
  let distSq := dx * dx + dy * dy + dz * dz
  let angle := angleDeg acos curRot lastRot
  let dt := flooredDt dt
  let invDt := 1 / dt
  let moveSpeedSq := distSq * (invDt * invDt)
  let maxMoveSpeedSq := maxMoveSpeed * maxMoveSpeed
  let maxAngleAllowed := maxRotSpeed * dt
  F32.le moveSpeedSq maxMoveSpeedSq && F32.le angle maxAngleAllowed

namespace Earlier

/-- The stability test `CheckStability` of the earlier revision of `Felina.cpp`. -/
def CheckStability (acos sqrt : F32 → F32) (curPos : Float3 F32) (curRot : Float4 F32)
    (lastPos : Float3 F32) (lastRot : Float4 F32) (dt maxMoveSpeed maxRotSpeed : F32) : Bool :=
  let dx := curPos.x - lastPos.x
  let dy := curPos.y - lastPos.y
  let dz := curPos.z - lastPos.z
  let distSq := dx * dx + dy * dy + dz * dz
  let angle := angleDeg acos curRot lastRot
  let dt := flooredDt dt
  let moveSpeed := sqrt distSq / dt
  let rotSpeed := angle / dt
  F32.le moveSpeed maxMoveSpeed && F32.le rotSpeed maxRotSpeed

end Earlier

/-- The distance penalty `distScore` of `CalculateQuality`. -/
def distScore (sqrDistCam : F32) : F32 :=
  if F32.lt sqrDistCam (F32.ofRat 0.04) || F32.lt 1 sqrDistCam then F32.ofRat 0.5 else 1

/-- The quality score `CalculateQuality` of `Felina.cpp`. -/
def CalculateQuality (camPos camFwd imgPos imgUp : Float3 F32) (imgScreenPos : Float2 F32)
    (screenWidth screenHeight : F32) : F32 :=
  let negFwd : Float3 F32 := { x := -camFwd.x, y := -camFwd.y, z := -camFwd.z }
  let dotVal := Dot imgUp negFwd
  let angleScore := Clamp01 dotVal
  let screenCenter : Float2 F32 :=
    { x := screenWidth * F32.ofRat 0.5, y := screenHeight * F32.ofRat 0.5 }
  if F32.lt imgScreenPos.x 0 || F32.lt imgScreenPos.y 0 then 0
  else
    let sqrDistCenter := DistSq2 imgScreenPos screenCenter
    let halfH := screenHeight * F32.ofRat 0.5
    let sqrMaxDist := halfH * halfH
    let centerScore := Clamp01 (1 - (sqrDistCenter / sqrMaxDist))
    let sqrDistCam := DistSq3 camPos imgPos
    (angleScore * F32.ofRat 0.6) + (centerScore * F32.ofRat 0.4 * distScore sqrDistCam)

/-- The threshold `EPS = 1e-9f` used by both homography solvers. -/
def EPS : F32 := F32.ofRat 1e-9

/-- The source rectangle written by `ComputeUVs`. -/
def ComputeUVs : Fin 4 → Float2 F32 :=
  let uMin : F32 := 0
  let uMax : F32 := uMin + 1
  let vMin : F32 := 0
  let vMax : F32 := 1
  ![{ x := uMin, y := vMin }, { x := uMax, y := vMin }, { x := uMax, y := vMax },
    { x := uMin, y := vMax }]

/-- The screen points normalised by `ComputeTransformMatrix`:
`dst[i] = (raw[i].x * invW, raw[i].y * invH)`. -/
def normalizePoints (screenW screenH : F32) (rawScreenPoints : Fin 4 → Float2 F32) :
    Fin 4 → Float2 F32 :=
  let invW := 1 / screenW
  let invH := 1 / screenH
  fun i => { x := (rawScreenPoints i).x * invW, y := (rawScreenPoints i).y * invH }

/-- The denominator `den = dx1 * dy2 - dy1 * dx2` of the closed-form solver. -/
def quadDen (dst : Fin 4 → Float2 F32) : F32 :=
  let dx1 := (dst 1).x - (dst 2).x
  let dx2 := (dst 3).x - (dst 2).x
  let dy1 := (dst 1).y - (dst 2).y
  let dy2 := (dst 3).y - (dst 2).y
  dx1 * dy2 - dy1 * dx2

/-- The perspective coefficients `(h20, h21)` of the closed-form solver. -/
def perspectiveTerms (dst : Fin 4 → Float2 F32) : F32 × F32 :=
  let x0 := (dst 0).x
  let y0 := (dst 0).y
  let x1 := (dst 1).x
  let y1 := (dst 1).y
  let x2 := (dst 2).x
  let y2 := (dst 2).y
  let x3 := (dst 3).x
  let y3 := (dst 3).y
  let dx1 := x1 - x2
  let dx2 := x3 - x2
  let dx3 := x0 - x1 + x2 - x3
  let dy1 := y1 - y2
  let dy2 := y3 - y2
  let dy3 := y0 - y1 + y2 - y3
  let den := dx1 * dy2 - dy1 * dx2
  if F32.lt (F32.abs den) EPS then (0, 0)
  else ((dx3 * dy2 - dy3 * dx2) / den, (dx1 * dy3 - dy1 * dx3) / den)

/-- The coefficient `h00 = x1 - x0 + h20 * x1` of the closed-form solver. -/
def coeffH00 (dst : Fin 4 → Float2 F32) : F32 :=
  (dst 1).x - (dst 0).x + (perspectiveTerms dst).1 * (dst 1).x

/-- The coefficient `h01 = x3 - x0 + h21 * x3` of the closed-form solver. -/
def coeffH01 (dst : Fin 4 → Float2 F32) : F32 :=
  (dst 3).x - (dst 0).x + (perspectiveTerms dst).2 * (dst 3).x

/-- The coefficient `h10 = y1 - y0 + h20 * y1` of the closed-form solver. -/
def coeffH10 (dst : Fin 4 → Float2 F32) : F32 :=
  (dst 1).y - (dst 0).y + (perspectiveTerms dst).1 * (dst 1).y

/-- The coefficient `h11 = y3 - y0 + h21 * y3` of the closed-form solver. -/
def coeffH11 (dst : Fin 4 → Float2 F32) : F32 :=
  (dst 3).y - (dst 0).y + (perspectiveTerms dst).2 * (dst 3).y

/-- The closed-form solver `ComputeTransformMatrix` of `Felina.cpp` (the `allowed` flag is the
constant `true`, so its branch is dead code). -/
def ComputeTransformMatrix (screenW screenH : F32) (rawScreenPoints : Fin 4 → Float2 F32) :
    Float4x4 F32 :=
  let src : Fin 4 → Float2 F32 := ComputeUVs
  let dst := normalizePoints screenW screenH rawScreenPoints
  let uMin := (src 0).x
  let vMin := (src 0).y
  let uMax := (src 1).x
  let vMax := (src 3).y
  let uScale := uMax - uMin
  let vScale := vMax - vMin
  if F32.beq uScale 0 || F32.beq vScale 0 then identity4x4
  else
    let x0 := (dst 0).x
    let y0 := (dst 0).y
    let x1 := (dst 1).x
    let y1 := (dst 1).y
    let x3 := (dst 3).x
    let y3 := (dst 3).y
    let h20 := (perspectiveTerms dst).1
    let h21 := (perspectiveTerms dst).2
    let h00 := x1 - x0 + h20 * x1
    let h01 := x3 - x0 + h21 * x3
    let h02 := x0
    let h10 := y1 - y0 + h20 * y1
    let h11 := y3 - y0 + h21 * y3
    let h12 := y0
    let h22 : F32 := 1
    let invU := 1 / uScale
    let invV := 1 / vScale
    let c00 := h00 * invU
    let c10 := h10 * invU
    let c20 := h20 * invU
    let c01 := h01 * invV
    let c11 := h11 * invV
    let c21 := h21 * invV
    let c02 := -h00 * (uMin * invU) - h01 * (vMin * invV) + h02
    let c12 := -h10 * (uMin * invU) - h11 * (vMin * invV) + h12
    let c22 := -h20 * (uMin * invU) - h21 * (vMin * invV) + h22
    { c0x := c00, c0y := c10, c0z := c20, c0w := 0,
      c1x := c01, c1y := c11, c1z := c21, c1w := 0,
      c2x := c02, c2y := c12, c2z := c22, c2w := 0,
      c3x := 0, c3y := 0, c3z := 0, c3w := 1 }

/-- The 8x9 augmented system `M` built by `CalculateHomography`, one inner list per row. -/
def buildSystem (src dst : Fin 4 → Float2 F32) : List (List F32) :=
  (List.finRange 4).flatMap fun i =>
    let u := (src i).x
    let v := (src i).y
    let x := (dst i).x
    let y := (dst i).y
    [[u, v, 1, 0, 0, 0, -u * x, -v * x, x], [0, 0, 0, u, v, 1, -u * y, -v * y, y]]

/-- The entry `row[i][j]`. -/
def entry (rows : List (List F32)) (i j : ℕ) : F32 := (rows.getD i []).getD j 0

/-- The pivot search of step `k`: scans rows `k + 1 .. 7` for a strictly larger magnitude in
column `k`, returning `(maxRow, maxVal)`. -/
def findPivot (rows : List (List F32)) (k : ℕ) : ℕ × F32 :=
  (List.range' (k + 1) (8 - (k + 1))).foldl
    (fun (best : ℕ × F32) i =>
      let v := F32.abs (entry rows i k)
      if F32.lt best.2 v then (i, v) else best)
    (k, F32.abs (entry rows k k))

/-- The row-pointer swap `tmp = row[k]; row[k] = row[maxRow]; row[maxRow] = tmp`. -/
def swapRows (rows : List (List F32)) (k maxRow : ℕ) : List (List F32) :=
  if maxRow ≠ k then (rows.set k (rows.getD maxRow [])).set maxRow (rows.getD k []) else rows

/-- The normalisation `pivotRow[j] *= invPivot` for `j = k .. cols - 1`. -/
def normalizeRow (k : ℕ) (invPivot : F32) (pivotRow : List F32) : List F32 :=
  pivotRow.mapIdx fun j a => if k ≤ j then a * invPivot else a

/-- The elimination of one row `ri` below the pivot row: `ri[j] -= factor * pivotRow[j]` for
`j = k .. cols - 1`, skipped when `factor == 0.0f`. -/
def eliminateRow (k : ℕ) (pivotRow ri : List F32) : List F32 :=
  let factor := ri.getD k 0
  if F32.beq factor 0 then ri
  else ri.mapIdx fun j a => if k ≤ j then a - factor * pivotRow.getD j 0 else a

/-- The pivot that iteration `k` inverts: `pivotRow[k]` after the row-pointer swap. -/
def pivotOf (rows : List (List F32)) (k : ℕ) : F32 :=
  entry (swapRows rows k (findPivot rows k).1) k k

/-- One iteration `k` of the elimination loop; `none` is the identity fallback
`maxVal < EPS`. -/
def eliminateStep (rows : List (List F32)) (k : ℕ) : Option (List (List F32)) :=
  let maxRow := (findPivot rows k).1
  let maxVal := (findPivot rows k).2
  if F32.lt maxVal EPS then none
  else
    let rows := swapRows rows k maxRow
    let pivot := entry rows k k
    let invPivot := 1 / pivot
    let pivotRow := normalizeRow k invPivot (rows.getD k [])
    let rows := rows.set k pivotRow
    some (rows.mapIdx fun i ri => if k < i then eliminateRow k pivotRow ri else ri)

/-- The elimination loop `for (k = 0; k < n; ++k)`. -/
def eliminate (rows : List (List F32)) : Option (List (List F32)) :=
  (List.range 8).foldlM eliminateStep rows

/-- One iteration `i` of back substitution; `none` is the identity fallback
`fabsf(diag) < EPS`. -/
def backStep (rows : List (List F32)) (xsol : List F32) (i : ℕ) : Option (List F32) :=
  let ri := rows.getD i []
  let sum := (List.range' (i + 1) (8 - (i + 1))).foldl
    (fun s j => s + ri.getD j 0 * xsol.getD j 0) 0
  let rhs := ri.getD 8 0 - sum
  let diag := ri.getD i 0
  if F32.lt (F32.abs diag) EPS then none else some (xsol.set i (rhs / diag))

/-- The back-substitution loop `for (i = n - 1; i >= 0; --i)`; the array `xsol` starts
uninitialised in the source and every entry is written before it is read. -/
def backSubstitute (rows : List (List F32)) : Option (List F32) :=
  [7, 6, 5, 4, 3, 2, 1, 0].foldlM (backStep rows) (List.replicate 8 0)

/-- The solution vector `xsol` of `CalculateHomography`, or `none` when one of the two
identity-fallback branches is taken. -/
def solveSystem (src dst : Fin 4 → Float2 F32) : Option (List F32) :=
  (eliminate (buildSystem src dst)).bind backSubstitute

/-- The packing of `xsol` into the column-major result of `CalculateHomography`. -/
def packResult (xsol : List F32) : Float4x4 F32 :=
  { c0x := xsol.getD 0 0, c0y := xsol.getD 3 0, c0z := xsol.getD 6 0, c0w := 0,
    c1x := xsol.getD 1 0, c1y := xsol.getD 4 0, c1z := xsol.getD 7 0, c1w := 0,
    c2x := xsol.getD 2 0, c2y := xsol.getD 5 0, c2z := 1, c2w := 0,
    c3x := 0, c3y := 0, c3z := 0, c3w := 1 }

/-- The general solver `CalculateHomography` of the earlier revision of `Felina.cpp`. -/
def CalculateHomography (src dst : Fin 4 → Float2 F32) : Float4x4 F32 :=
  match solveSystem src dst with
  | none => identity4x4
  | some xsol => packResult xsol

end Float32
/-! ## Sample inputs in binary32 -/

namespace F32

/-- The rational value of a finite float (`0` for an infinity or NaN). -/
def toRat : F32 → ℚ
  | fin s m => signed s m
  | _ => 0

/-- A float is finite. -/
def isFinite : F32 → Bool
  | fin _ _ => true
  | _ => false

/-- A value of the type is a float: a finite magnitude is non-negative and has at most 24
significant binary digits within the exponent range. -/
def isFloat : F32 → Bool
  | fin _ m => decide (0 ≤ m) && decide (roundMag m = some m)
  | _ => true

end F32

/-- The exact values of a point with float coordinates. -/
def exact2 (p : Float2 F32) : Float2 ℚ := { x := p.x.toRat, y := p.y.toRat }

/-- The exact values of a vector with float coordinates. -/
def exact3 (p : Float3 F32) : Float3 ℚ := { x := p.x.toRat, y := p.y.toRat, z := p.z.toRat }

/-- The unit orientation `(0, 0, 0, 1)`. -/
def unitQuat : Float4 F32 := { x := 0, y := 0, z := 0, w := 1 }

/-- The origin. -/
def origin3 : Float3 F32 := { x := 0, y := 0, z := 0 }

/-- Four destination points on the diagonal `y = x`, at `0.3f, 0.6f, 0.9f, 1.2f`. -/
def diagonalDst : Fin 4 → Float2 F32 :=
  ![{ x := F32.ofRat 0.3, y := F32.ofRat 0.3 }, { x := F32.ofRat 0.6, y := F32.ofRat 0.6 },
    { x := F32.ofRat 0.9, y := F32.ofRat 0.9 }, { x := F32.ofRat 1.2, y := F32.ofRat 1.2 }]

/-- A camera at `(0.16f, 0.12f, 0)`, a nominal 0.2 m from a target at the origin. -/
def nearCam : Float3 F32 := { x := F32.ofRat 0.16, y := F32.ofRat 0.12, z := 0 }

/-- The direction `(0, 0, 1)`. -/
def axisZ : Float3 F32 := { x := 0, y := 0, z := 1 }

/-- The direction `(0, 0, -1)`. -/
def negAxisZ : Float3 F32 := { x := 0, y := 0, z := -1 }

/-- The centre `(960, 540)` of a 1920x1080 screen. -/
def centre1080 : Float2 F32 := { x := F32.ofRat 960, y := F32.ofRat 540 }

/-- The position `(16, 0.005f, 0)`. -/
def offset16 : Float3 F32 := { x := F32.ofRat 16, y := F32.ofRat 0.005, z := 0 }

/-- The position `(2e20f, 0, 0)`. -/
def farPoint : Float3 F32 := { x := F32.ofRat 2e20, y := 0, z := 0 }

/-- The example input of the specification in floats: `(480,270), (1440,270), (1440,810),
(480,810)`. -/
def centredRect32 : Fin 4 → Float2 F32 :=
  ![{ x := F32.ofRat 480, y := F32.ofRat 270 }, { x := F32.ofRat 1440, y := F32.ofRat 270 },
    { x := F32.ofRat 1440, y := F32.ofRat 810 }, { x := F32.ofRat 480, y := F32.ofRat 810 }]

/-- Raw points on a 1x1 screen whose denominator is `den = 1e-9f * 1 - 0 * 0`, the float
constant `1e-9f` itself, every operation being exact: `p0 = (2e-9f, 2)`, `p1 = (1e-9f, 0)`,
`p2 = (0, 0)`, `p3 = (0, 1)`. -/
def sliverQuad : Fin 4 → Float2 F32 :=
  ![{ x := F32.ofRat 2e-9, y := 2 }, { x := F32.ofRat 1e-9, y := 0 }, { x := 0, y := 0 },
    { x := 0, y := 1 }]

/-- A source rectangle of width 41 and height 1. -/
def wideSrc : Fin 4 → Float2 F32 :=
  ![{ x := 0, y := 0 }, { x := F32.ofRat 41, y := 0 }, { x := F32.ofRat 41, y := 1 },
    { x := 0, y := 1 }]

/-- A source rectangle of width `1e-9f` and height 1. -/
def narrowSrc : Fin 4 → Float2 F32 :=
  ![{ x := 0, y := 0 }, { x := F32.ofRat 1e-9, y := 0 }, { x := F32.ofRat 1e-9, y := 1 },
    { x := 0, y := 1 }]

/-- The exact values of the entries of a float matrix (`0` for an infinity or NaN). -/
def exactMatrix (M : Float4x4 F32) : Float4x4 ℚ :=
  { c0x := M.c0x.toRat, c0y := M.c0y.toRat, c0z := M.c0z.toRat, c0w := M.c0w.toRat,
    c1x := M.c1x.toRat, c1y := M.c1y.toRat, c1z := M.c1z.toRat, c1w := M.c1w.toRat,
    c2x := M.c2x.toRat, c2y := M.c2y.toRat, c2z := M.c2z.toRat, c2w := M.c2w.toRat,
    c3x := M.c3x.toRat, c3y := M.c3y.toRat, c3z := M.c3z.toRat, c3w := M.c3w.toRat }

/-- A degenerate sample input of the closed-form solver in floats: corners 1 and 2 coincide,
so `den = 0`. -/
def foldedQuad32 : Fin 4 → Float2 F32 :=
  ![{ x := 0, y := 0 }, { x := F32.ofRat 1920, y := 0 }, { x := F32.ofRat 1920, y := 0 },
    { x := 0, y := F32.ofRat 1080 }]

namespace Float32

/-- The canonical unit-square corners `(0,0), (1,0), (1,1), (0,1)` of the specification. -/
def unitSquare : Fin 4 → Float2 F32 :=
  ![{ x := 0, y := 0 }, { x := 1, y := 0 }, { x := 1, y := 1 }, { x := 0, y := 1 }]

/-- The quality score as the specification words it, every operation in binary32:
`0.6f * angleScore + 0.4f * centerScore * distancePenalty` with both scores clamped to
`[0,1]`, the screen centre `(screenWidth / 2, screenHeight / 2)` and the penalty `1` when the
computed squared distance `d` satisfies `0.04f <= d <= 1` and `0.5` otherwise. -/
def qualitySpec (camPos camFwd imgPos imgUp : Float3 F32) (imgScreenPos : Float2 F32)
    (screenWidth screenHeight : F32) : F32 :=
  let negFwd : Float3 F32 := { x := -camFwd.x, y := -camFwd.y, z := -camFwd.z }
  let centre : Float2 F32 := { x := screenWidth / 2, y := screenHeight / 2 }
  let half := screenHeight / 2
  let dCam := DistSq3 camPos imgPos
  let p : F32 := if F32.le (F32.ofRat 0.04) dCam && F32.le dCam 1 then 1 else F32.ofRat 0.5
  F32.ofRat 0.6 * Clamp01 (Dot imgUp negFwd)
    + F32.ofRat 0.4 * Clamp01 (1 - DistSq2 imgScreenPos centre / (half * half)) * p

/-- Every entry of the row is a float. -/
def rowFloat (r : List F32) : Prop := ∀ j, (r.getD j 0).isFloat = true

/-- Every entry of the system is a float. -/
def AllFloat (rows : List (List F32)) : Prop := ∀ i, rowFloat (rows.getD i [])

/-- The first `k` diagonal entries pass the guard of back substitution: none is below
`1e-9f` in magnitude. -/
def DiagGuarded (k : ℕ) (rows : List (List F32)) : Prop :=
  ∀ j, j < k → F32.lt (F32.abs (entry rows j j)) EPS = false

/-- The coordinates of the four points are floats. -/
def pointsFloat (pts : Fin 4 → Float2 F32) : Prop :=
  ∀ i, (pts i).x.isFloat = true ∧ (pts i).y.isFloat = true

/-- The identity-completion pattern of the 4x4 container: `c0w = c1w = c2w = 0` and
`c3 = (0, 0, 0, 1)`. -/
def identityCompletion (M : Float4x4 F32) : Prop :=
  M.c0w = 0 ∧ M.c1w = 0 ∧ M.c2w = 0 ∧ M.c3x = 0 ∧ M.c3y = 0 ∧ M.c3z = 0 ∧ M.c3w = 1

/-- The column-major packing `c0 = (h00, h10, h20, 0)`, `c1 = (h01, h11, h21, 0)`,
`c2 = (h02, h12, 1, 0)`, `c3 = (0, 0, 0, 1)` of the eight coefficients. -/
def packColumnMajor (h00 h01 h02 h10 h11 h12 h20 h21 : F32) : Float4x4 F32 :=
  { c0x := h00, c0y := h10, c0z := h20, c0w := 0,
    c1x := h01, c1y := h11, c1z := h21, c1w := 0,
    c2x := h02, c2y := h12, c2z := 1, c2w := 0,
    c3x := 0, c3y := 0, c3z := 0, c3w := 1 }

end Float32

/-! ## Definitions that follow the specification -/

/-- The canonical unit-square corners `(0,0), (1,0), (1,1), (0,1)` of the specification. -/
def unitSquare : Fin 4 → Float2 K :=
  ![{ x := 0, y := 0 }, { x := 1, y := 0 }, { x := 1, y := 1 }, { x := 0, y := 1 }]

/-- The product `M * (u, v, 1)` of the 3x3 projective transform carried by a column-major
`Float4x4` (columns `c0`, `c1`, `c2`, rows `x`, `y`, `z`), as the specification reads it. -/
def applyH (M : Float4x4 K) (u v : K) : K × K × K :=
  (M.c0x * u + M.c1x * v + M.c2x, M.c0y * u + M.c1y * v + M.c2y,
    M.c0z * u + M.c1z * v + M.c2z)

/-- The normalised destination points `p_i = (raw_i.x / screenW, raw_i.y / screenH)` as the
specification writes them. -/
def normalizedSpec (screenW screenH : K) (raw : Fin 4 → Float2 K) : Fin 4 → Float2 K :=
  fun i => { x := (raw i).x / screenW, y := (raw i).y / screenH }

/-- The matrix with columns `c0 = (h00, h10, h20, 0)`, `c1 = (h01, h11, h21, 0)`,
`c2 = (h02, h12, 1, 0)`, `c3 = (0, 0, 0, 1)` for the unit-square coefficients
`h00 = x1 - x0 + h20 * x1`, `h01 = x3 - x0 + h21 * x3`, `h02 = x0` (and the `y` analogues)
of the destination points `dst` and the perspective terms `h20`, `h21`. -/
def closedFormMatrix (dst : Fin 4 → Float2 K) (h20 h21 : K) : Float4x4 K :=
  { c0x := (dst 1).x - (dst 0).x + h20 * (dst 1).x,
    c0y := (dst 1).y - (dst 0).y + h20 * (dst 1).y,
    c0z := h20, c0w := 0,
    c1x := (dst 3).x - (dst 0).x + h21 * (dst 3).x,
    c1y := (dst 3).y - (dst 0).y + h21 * (dst 3).y,
    c1z := h21, c1w := 0,
    c2x := (dst 0).x, c2y := (dst 0).y, c2z := 1, c2w := 0,
    c3x := 0, c3y := 0, c3z := 0, c3w := 1 }

/-- A sample input of the closed-form solver: raw pixel corners of a perspective-distorted
quadrilateral on a 1920x1080 screen. -/
def perspectiveQuad : Fin 4 → Float2 ℚ :=
  ![{ x := 0, y := 0 }, { x := 1920, y := 0 }, { x := 1440, y := 810 }, { x := 0, y := 1080 }]

/-- The example input of the specification: the centred half-size rectangle on a 1920x1080
screen, `(480,270), (1440,270), (1440,810), (480,810)`. -/
def centredRect : Fin 4 → Float2 ℚ :=
  ![{ x := 480, y := 270 }, { x := 1440, y := 270 }, { x := 1440, y := 810 },
    { x := 480, y := 810 }]

/-- The quality score as the specification words it:
`0.6 * angleScore + 0.4 * centerScore * distancePenalty` with both scores clamped to `[0,1]`
and the penalty `1` inside `[0.04, 1.0]` and `0.5` outside. -/
def qualitySpec (camPos camFwd imgPos imgUp : Float3 K) (imgScreenPos : Float2 K)
    (screenWidth screenHeight : K) : K :=
  let clamp : K → K := fun v => max 0 (min 1 v)
  let dotUp := imgUp.x * (-camFwd.x) + imgUp.y * (-camFwd.y) + imgUp.z * (-camFwd.z)
  let dCenter := (imgScreenPos.x - screenWidth / 2) ^ 2 + (imgScreenPos.y - screenHeight / 2) ^ 2
  let dCam := (camPos.x - imgPos.x) ^ 2 + (camPos.y - imgPos.y) ^ 2 + (camPos.z - imgPos.z) ^ 2
  let p : K := if 0.04 ≤ dCam ∧ dCam ≤ 1 then 1 else 0.5
  0.6 * clamp dotUp + 0.4 * clamp (1 - dCenter / (screenHeight / 2) ^ 2) * p

/-- Twice the signed area of the triangle `p q r`; it vanishes exactly when the three points
are collinear. -/
def triangleArea2 (p q r : Float2 K) : K :=
  (q.x - p.x) * (r.y - p.y) - (q.y - p.y) * (r.x - p.x)

/-- No three of the four points are collinear. -/
def NoThreeCollinear (dst : Fin 4 → Float2 K) : Prop :=
  ∀ i j k : Fin 4, i < j → j < k → triangleArea2 (dst i) (dst j) (dst k) ≠ 0

/-- The raw pixel points `raw_i = (dst_i.x * screenW, dst_i.y * screenH)` of normalised
destination points. -/
def scaleToScreen (screenW screenH : K) (dst : Fin 4 → Float2 K) : Fin 4 → Float2 K :=
  fun i => { x := (dst i).x * screenW, y := (dst i).y * screenH }

/-- Every one of the 16 entries of `A` and `B` differs by at most `tol`. -/
def entriesWithin (tol : K) (A B : Float4x4 K) : Prop :=
  |A.c0x - B.c0x| ≤ tol ∧ |A.c0y - B.c0y| ≤ tol ∧ |A.c0z - B.c0z| ≤ tol ∧
  |A.c0w - B.c0w| ≤ tol ∧ |A.c1x - B.c1x| ≤ tol ∧ |A.c1y - B.c1y| ≤ tol ∧
  |A.c1z - B.c1z| ≤ tol ∧ |A.c1w - B.c1w| ≤ tol ∧ |A.c2x - B.c2x| ≤ tol ∧
  |A.c2y - B.c2y| ≤ tol ∧ |A.c2z - B.c2z| ≤ tol ∧ |A.c2w - B.c2w| ≤ tol ∧
  |A.c3x - B.c3x| ≤ tol ∧ |A.c3y - B.c3y| ≤ tol ∧ |A.c3z - B.c3z| ≤ tol ∧
  |A.c3w - B.c3w| ≤ tol

/-- A sample source rectangle of width 2 and height 1. -/
def rectSrc : Fin 4 → Float2 ℚ :=
  ![{ x := 0, y := 0 }, { x := 2, y := 0 }, { x := 2, y := 1 }, { x := 0, y := 1 }]

/-- A sample destination quadrilateral that is not a parallelogram. -/
def skewQuad : Fin 4 → Float2 ℚ :=
  ![{ x := 0, y := 0 }, { x := 2, y := 0 }, { x := 3, y := 3 }, { x := 0, y := 1 }]

/-- Four destination points on the diagonal `y = x`. -/
def diagonalPoints : Fin 4 → Float2 ℚ :=
  ![{ x := 0, y := 0 }, { x := 1, y := 1 }, { x := 2, y := 2 }, { x := 3, y := 3 }]

/-- A square of side `1e-10` in normalised screen coordinates: no three corners are
collinear, but its area is far below `EPS`. -/
def tinySquare : Fin 4 → Float2 ℚ :=
  ![{ x := 0, y := 0 }, { x := 1e-10, y := 0 }, { x := 1e-10, y := 1e-10 },
    { x := 0, y := 1e-10 }]

/-- The normalised corners of `perspectiveQuad`. -/
def perspectiveDst : Fin 4 → Float2 ℚ :=
  ![{ x := 0, y := 0 }, { x := 1, y := 0 }, { x := 3 / 4, y := 3 / 4 }, { x := 0, y := 1 }]

/-- The four points lie on one line `a * x + b * y = c` with `(a, b) ≠ (0, 0)` (four equal
points included). -/
def Collinear4 (dst : Fin 4 → Float2 K) : Prop :=
  ∃ a b c : K, (a ≠ 0 ∨ b ≠ 0) ∧ ∀ i, a * (dst i).x + b * (dst i).y = c

/-! ## Predicates on the augmented system -/

/-- Well-formed systems: 8 rows of 9 entries. -/
def WellFormed (rows : List (List K)) : Prop :=
  rows.length = 8 ∧ ∀ i, i < 8 → (rows.getD i []).length = 9

/-- After `k` elimination steps: columns `j < k` have a unit diagonal entry and zeros below
the diagonal. -/
def Reduced (k : ℕ) (rows : List (List K)) : Prop :=
  (∀ j, j < k → j < 8 → entry rows j j = 1) ∧
  ∀ i j, i < 8 → j < k → j < i → entry rows i j = 0

/-- The vector `h` solves every row equation `∑ j < 8, row[i][j] * h j = c * row[i][8]`
(`c = 1`: the system itself; `c = 0`: the homogeneous system). -/
def Solves (rows : List (List K)) (h : ℕ → K) (c : K) : Prop :=
  ∀ i, i < 8 → ∑ j in Finset.range 8, entry rows i j * h j = c * entry rows i 8

/-- The residual of row `i` at the vector `h`. -/
def rowResidual (rows : List (List K)) (h : ℕ → K) (c : K) (i : ℕ) : K :=
  ∑ j in Finset.range 8, entry rows i j * h j - c * entry rows i 8

/-! ## Helper lemmas: scalar functions -/

theorem Clamp01_eq_max_min (v : K) : Clamp01 v = max 0 (min 1 v) := by
  unfold Clamp01
  split_ifs with h1 h2
  · rw [min_eq_right (by linarith), max_eq_left h1.le]
  · rw [min_eq_left h2.le, max_eq_right zero_le_one]
  · push_neg at h1 h2
    rw [min_eq_right h2, max_eq_right h1]

theorem Clamp01_nonneg (v : K) : 0 ≤ Clamp01 v := by
  rw [Clamp01_eq_max_min]; exact le_max_left _ _

theorem Clamp01_le_one (v : K) : Clamp01 v ≤ 1 := by
  rw [Clamp01_eq_max_min]; exact max_le zero_le_one (min_le_left _ _)

theorem flooredDt_pos (dt : K) : 0 < flooredDt dt := by
  unfold flooredDt
  split_ifs with h
  · norm_num
  · push_neg at h
    exact lt_trans (by norm_num) h

theorem normalizePoints_eq_spec (screenW screenH : K) (raw : Fin 4 → Float2 K) :
    normalizePoints screenW screenH raw = normalizedSpec screenW screenH raw := by
  funext i
  simp [normalizePoints, normalizedSpec, div_eq_mul_inv]

/-- The closed-form solver with the constant unit-square source folded in. -/
theorem ComputeTransformMatrix_unfold (screenW screenH : K) (raw : Fin 4 → Float2 K) :
    ComputeTransformMatrix screenW screenH raw =
      let dst := normalizePoints screenW screenH raw
      let h20 := (perspectiveTerms dst).1
      let h21 := (perspectiveTerms dst).2
      { c0x := (dst 1).x - (dst 0).x + h20 * (dst 1).x,
        c0y := (dst 1).y - (dst 0).y + h20 * (dst 1).y,
        c0z := h20, c0w := 0,
        c1x := (dst 3).x - (dst 0).x + h21 * (dst 3).x,
        c1y := (dst 3).y - (dst 0).y + h21 * (dst 3).y,
        c1z := h21, c1w := 0,
        c2x := (dst 0).x, c2y := (dst 0).y, c2z := 1, c2w := 0,
        c3x := 0, c3y := 0, c3z := 0, c3w := 1 } := by
  simp [ComputeTransformMatrix, ComputeUVs]

theorem perspectiveTerms_of_den {dst : Fin 4 → Float2 K} (h : EPS ≤ |quadDen dst|) :
    perspectiveTerms dst =
      ((((dst 0).x - (dst 1).x + (dst 2).x - (dst 3).x) * ((dst 3).y - (dst 2).y) -
          ((dst 0).y - (dst 1).y + (dst 2).y - (dst 3).y) * ((dst 3).x - (dst 2).x)) /
          quadDen dst,
        (((dst 1).x - (dst 2).x) * ((dst 0).y - (dst 1).y + (dst 2).y - (dst 3).y) -
          ((dst 1).y - (dst 2).y) * ((dst 0).x - (dst 1).x + (dst 2).x - (dst 3).x)) /
          quadDen dst) := by
  have h2 : ¬ |((dst 1).x - (dst 2).x) * ((dst 3).y - (dst 2).y) -
      ((dst 1).y - (dst 2).y) * ((dst 3).x - (dst 2).x)| < EPS := not_lt.mpr h
  unfold perspectiveTerms
  simp only
  rw [if_neg h2]
  rfl

theorem perspectiveTerms_of_parallelogram {dst : Fin 4 → Float2 K}
    (hx : (dst 0).x - (dst 1).x + (dst 2).x - (dst 3).x = 0)
    (hy : (dst 0).y - (dst 1).y + (dst 2).y - (dst 3).y = 0) :
    perspectiveTerms dst = (0, 0) := by
  unfold perspectiveTerms
  simp only [hx, hy]
  split_ifs <;> simp

theorem EPS_pos : (0 : K) < EPS := by
  unfold EPS; norm_num

/-! ## Quality scorer: claims C6, C7 -/

/-- C6: whenever the projected screen position has a negative `x` or a negative `y`,
`CalculateQuality` returns exactly `0`, whatever the other inputs are. -/
theorem C6_visibility_gate (camPos camFwd imgPos imgUp : Float3 K) (imgScreenPos : Float2 K)
    (screenWidth screenHeight : K) (h : imgScreenPos.x < 0 ∨ imgScreenPos.y < 0) :
    CalculateQuality camPos camFwd imgPos imgUp imgScreenPos screenWidth screenHeight = 0 := by
  simp [CalculateQuality, h]

/-- Witness of C6 at a screen position with `y = -1` and a perfect angle score. -/
theorem C6_visibility_gate_witness :
    ((5 : ℚ) < 0 ∨ (-1 : ℚ) < 0) ∧
    CalculateQuality (K := ℚ) ⟨0, 0, 0⟩ ⟨0, 0, -1⟩ ⟨0, 0, 1 / 2⟩ ⟨0, 0, 1⟩ ⟨5, -1⟩ 1920 1080 = 0 :=
  ⟨by norm_num, C6_visibility_gate _ _ _ _ ⟨5, -1⟩ _ _ (by norm_num)⟩

theorem angleDeg_of_one_le_dot (acos : K → K) (hacos : acos 1 = 0) (curRot lastRot : Float4 K)
    (h : 1 ≤ curRot.x * lastRot.x + curRot.y * lastRot.y + curRot.z * lastRot.z +
      curRot.w * lastRot.w) : angleDeg acos curRot lastRot = 0 := by
  unfold angleDeg
  simp only
  have h0 : ¬ (curRot.x * lastRot.x + curRot.y * lastRot.y + curRot.z * lastRot.z +
      curRot.w * lastRot.w < 0) := not_lt.mpr (le_trans zero_le_one h)
  rw [if_neg h0]
  by_cases h1 : curRot.x * lastRot.x + curRot.y * lastRot.y + curRot.z * lastRot.z +
      curRot.w * lastRot.w > 1
  · rw [if_pos h1, hacos]; ring
  · have e : curRot.x * lastRot.x + curRot.y * lastRot.y + curRot.z * lastRot.z +
        curRot.w * lastRot.w = 1 := le_antisymm (not_lt.mp h1) h
    rw [if_neg h1, e, hacos]; ring

/-- C9 fails as stated: the all-zero orientation (length 0, so not a unit quaternion) compared
with itself gives `acos 0`, an angle of about 180 degrees, above a limit of 179 degrees per
second over one second, so identical poses are reported unstable. -/
theorem C9_counterexample :
    ((0 : ℝ) < 1 ∧ (0 : ℝ) ≤ 1 ∧ (0 : ℝ) ≤ 179) ∧
    CheckStability (K := ℝ) Real.arccos ⟨1, 2, 3⟩ ⟨0, 0, 0, 0⟩ ⟨1, 2, 3⟩ ⟨0, 0, 0, 0⟩ 1 1 179
      = false := by
  refine ⟨by norm_num, ?_⟩
  have hpi := Real.pi_gt_d6
  have hfl : flooredDt (1 : ℝ) = 1 := by
    unfold flooredDt; norm_num
  simp only [CheckStability, angleDeg, hfl, RAD_TO_DEG]
  norm_num
  nlinarith

/-! ## Closed-form solver: claims C2, C5 -/

theorem quadDen_ne_zero {dst : Fin 4 → Float2 K} (h : EPS ≤ |quadDen dst|) :
    quadDen dst ≠ 0 := by
  intro h0
  rw [h0, abs_zero] at h
  exact absurd h (not_le.mpr EPS_pos)

/-- The two linear relations that determine the perspective terms of the closed-form solver:
`h20 * dx1 + h21 * dx2 = dx3` and `h20 * dy1 + h21 * dy2 = dy3`. -/
theorem perspectiveTerms_relations {dst : Fin 4 → Float2 K} (h : EPS ≤ |quadDen dst|) :
    (perspectiveTerms dst).1 * ((dst 1).x - (dst 2).x) +
        (perspectiveTerms dst).2 * ((dst 3).x - (dst 2).x) =
      (dst 0).x - (dst 1).x + (dst 2).x - (dst 3).x ∧
    (perspectiveTerms dst).1 * ((dst 1).y - (dst 2).y) +
        (perspectiveTerms dst).2 * ((dst 3).y - (dst 2).y) =
      (dst 0).y - (dst 1).y + (dst 2).y - (dst 3).y := by
  have hD := quadDen_ne_zero h
  rw [perspectiveTerms_of_den h]
  simp only
  have hq : quadDen dst = ((dst 1).x - (dst 2).x) * ((dst 3).y - (dst 2).y) -
      ((dst 1).y - (dst 2).y) * ((dst 3).x - (dst 2).x) := rfl
  constructor
  · field_simp
    rw [hq]; ring
  · field_simp
    rw [hq]; ring

/-- The matrix packed by the closed-form solver from the destination points and the two
perspective terms. -/
theorem ComputeTransformMatrix_eq_closedForm (screenW screenH : K) (raw : Fin 4 → Float2 K) :
    ComputeTransformMatrix screenW screenH raw =
      closedFormMatrix (normalizePoints screenW screenH raw)
        (perspectiveTerms (normalizePoints screenW screenH raw)).1
        (perspectiveTerms (normalizePoints screenW screenH raw)).2 := by
  rw [ComputeTransformMatrix_unfold]
  rfl

theorem closedFormMatrix_corners (dst : Fin 4 → Float2 K) (a b : K)
    (hrx : a * ((dst 1).x - (dst 2).x) + b * ((dst 3).x - (dst 2).x) =
      (dst 0).x - (dst 1).x + (dst 2).x - (dst 3).x)
    (hry : a * ((dst 1).y - (dst 2).y) + b * ((dst 3).y - (dst 2).y) =
      (dst 0).y - (dst 1).y + (dst 2).y - (dst 3).y) (i : Fin 4) :
    applyH (closedFormMatrix dst a b) (unitSquare i).x (unitSquare i).y =
      ((![1, 1 + a, 1 + a + b, 1 + b] : Fin 4 → K) i * (dst i).x,
        (![1, 1 + a, 1 + a + b, 1 + b] : Fin 4 → K) i * (dst i).y,
        (![1, 1 + a, 1 + a + b, 1 + b] : Fin 4 → K) i) := by
  fin_cases i <;> refine Prod.ext ?_ (Prod.ext ?_ ?_) <;>
    simp [applyH, unitSquare, closedFormMatrix] <;>
    first
      | ring1
      | linear_combination hrx
      | linear_combination hry

/-- C2: when the normalised points give `|den| ≥ 1e-9`, the matrix `M` written by
`ComputeTransformMatrix` satisfies `M * (u_i, v_i, 1) = w_i * (p_i.x, p_i.y, 1)` at the four
unit-square corners, with `w = (1, 1 + h20, 1 + h20 + h21, 1 + h21)` and `h20`, `h21` the
closed-form quotients; hence the perspective divide reproduces `p_i` whenever `w_i ≠ 0`. -/
theorem C2_closed_form_round_trip (screenW screenH : K) (raw : Fin 4 → Float2 K)
    (_hW : screenW ≠ 0) (_hH : screenH ≠ 0)
    (hden : EPS ≤ |quadDen (normalizedSpec screenW screenH raw)|) :
    let p := normalizedSpec screenW screenH raw
    let M := ComputeTransformMatrix screenW screenH raw
    let h20 := (((p 0).x - (p 1).x + (p 2).x - (p 3).x) * ((p 3).y - (p 2).y) -
      ((p 0).y - (p 1).y + (p 2).y - (p 3).y) * ((p 3).x - (p 2).x)) / quadDen p
    let h21 := (((p 1).x - (p 2).x) * ((p 0).y - (p 1).y + (p 2).y - (p 3).y) -
      ((p 1).y - (p 2).y) * ((p 0).x - (p 1).x + (p 2).x - (p 3).x)) / quadDen p
    let w : Fin 4 → K := ![1, 1 + h20, 1 + h20 + h21, 1 + h21]
    M.c0z = h20 ∧ M.c1z = h21 ∧
    ∀ i : Fin 4,
      applyH M (unitSquare i).x (unitSquare i).y = (w i * (p i).x, w i * (p i).y, w i) ∧
      (w i ≠ 0 →
        (applyH M (unitSquare i).x (unitSquare i).y).1 /
            (applyH M (unitSquare i).x (unitSquare i).y).2.2 = (p i).x ∧
        (applyH M (unitSquare i).x (unitSquare i).y).2.1 /
            (applyH M (unitSquare i).x (unitSquare i).y).2.2 = (p i).y) := by
  intro p M h20 h21 w
  have hrel := perspectiveTerms_relations hden
  have hpt := perspectiveTerms_of_den hden
  have hM : M = closedFormMatrix p (perspectiveTerms p).1 (perspectiveTerms p).2 := by
    show ComputeTransformMatrix screenW screenH raw = _
    rw [ComputeTransformMatrix_unfold, normalizePoints_eq_spec]
    rfl
  have h1 : (perspectiveTerms p).1 = h20 := by rw [hpt]
  have h2 : (perspectiveTerms p).2 = h21 := by rw [hpt]
  rw [h1, h2] at hrel hM
  have key : ∀ i : Fin 4,
      applyH M (unitSquare i).x (unitSquare i).y = (w i * (p i).x, w i * (p i).y, w i) := by
    intro i
    rw [hM]
    exact closedFormMatrix_corners p h20 h21 hrel.1 hrel.2 i
  refine ⟨by rw [hM]; rfl, by rw [hM]; rfl, fun i => ⟨key i, fun hw => ?_⟩⟩
  rw [key i]
  exact ⟨mul_div_cancel_left₀ _ hw, mul_div_cancel_left₀ _ hw⟩

/-- Witness of C2 on a 1920x1080 screen with a perspective-distorted quadrilateral: the
normalised points are `(0,0), (1,0), (3/4,3/4), (0,1)`, `h20 = h21 = 1/2`, and corner `(1,1)`
is sent to `2 * (3/4, 3/4, 1)`. -/
theorem C2_closed_form_round_trip_witness :
    EPS ≤ |quadDen (normalizedSpec (1920 : ℚ) 1080 perspectiveQuad)| ∧
    (ComputeTransformMatrix (1920 : ℚ) 1080 perspectiveQuad).c0z = 1 / 2 ∧
    applyH (ComputeTransformMatrix (1920 : ℚ) 1080 perspectiveQuad) (unitSquare 2).x
      (unitSquare 2).y = (3 / 2, 3 / 2, 2) :=
  have hden : EPS ≤ |quadDen (normalizedSpec (1920 : ℚ) 1080 perspectiveQuad)| := by
    with_unfolding_all decide
  have h := C2_closed_form_round_trip (1920 : ℚ) 1080 perspectiveQuad (by norm_num)
    (by norm_num) hden
  ⟨hden, h.1.trans (by with_unfolding_all decide),
    (h.2.2 2).1.trans (by with_unfolding_all decide)⟩

/-- C5: when the normalised points form a parallelogram (`p0 - p1 + p2 - p3 = 0`),
`ComputeTransformMatrix` writes zero perspective terms and the affine columns
`c0 = (p1 - p0, 0, 0)`, `c1 = (p3 - p0, 0, 0)`, `c2 = (p0, 1, 0)`, on either `den` branch. -/
theorem C5_parallelogram_affine (screenW screenH : K) (raw : Fin 4 → Float2 K)
    (_hW : screenW ≠ 0) (_hH : screenH ≠ 0)
    (hx : (normalizedSpec screenW screenH raw 0).x - (normalizedSpec screenW screenH raw 1).x +
      (normalizedSpec screenW screenH raw 2).x - (normalizedSpec screenW screenH raw 3).x = 0)
    (hy : (normalizedSpec screenW screenH raw 0).y - (normalizedSpec screenW screenH raw 1).y +
      (normalizedSpec screenW screenH raw 2).y - (normalizedSpec screenW screenH raw 3).y = 0) :
    ComputeTransformMatrix screenW screenH raw =
      { c0x := (normalizedSpec screenW screenH raw 1).x - (normalizedSpec screenW screenH raw 0).x,
        c0y := (normalizedSpec screenW screenH raw 1).y - (normalizedSpec screenW screenH raw 0).y,
        c0z := 0, c0w := 0,
        c1x := (normalizedSpec screenW screenH raw 3).x - (normalizedSpec screenW screenH raw 0).x,
        c1y := (normalizedSpec screenW screenH raw 3).y - (normalizedSpec screenW screenH raw 0).y,
        c1z := 0, c1w := 0,
        c2x := (normalizedSpec screenW screenH raw 0).x,
        c2y := (normalizedSpec screenW screenH raw 0).y,
        c2z := 1, c2w := 0,
        c3x := 0, c3y := 0, c3z := 0, c3w := 1 } := by
  rw [ComputeTransformMatrix_eq_closedForm, normalizePoints_eq_spec,
    perspectiveTerms_of_parallelogram hx hy]
  simp [closedFormMatrix]

/-- Witness of C5, the example of the specification: on a 1920x1080 screen the centred
half-size rectangle gives `c0 = (1/2, 0, 0, 0)`, `c1 = (0, 1/2, 0, 0)`,
`c2 = (1/4, 1/4, 1, 0)`, which maps `(0,0)` to `(1/4, 1/4)` and `(1,1)` to `(3/4, 3/4)`. -/
theorem C5_parallelogram_affine_witness :
    ComputeTransformMatrix (1920 : ℚ) 1080 centredRect =
      { c0x := 1 / 2, c0y := 0, c0z := 0, c0w := 0,
        c1x := 0, c1y := 1 / 2, c1z := 0, c1w := 0,
        c2x := 1 / 4, c2y := 1 / 4, c2z := 1, c2w := 0,
        c3x := 0, c3y := 0, c3z := 0, c3w := 1 } ∧
    applyH (ComputeTransformMatrix (1920 : ℚ) 1080 centredRect) 0 0 = (1 / 4, 1 / 4, 1) ∧
    applyH (ComputeTransformMatrix (1920 : ℚ) 1080 centredRect) 1 1 = (3 / 4, 3 / 4, 1) :=
  have h := C5_parallelogram_affine (1920 : ℚ) 1080 centredRect (by norm_num) (by norm_num)
    (by with_unfolding_all decide) (by with_unfolding_all decide)
  ⟨h.trans (by with_unfolding_all decide),
    (congrArg (fun M => applyH M 0 0) h).trans (by with_unfolding_all decide),
    (congrArg (fun M => applyH M 1 1) h).trans (by with_unfolding_all decide)⟩

/-! ## Gaussian elimination: list lemmas -/

theorem getD_mapIdx_zero (f : ℕ → K → K) (l : List K) (j : ℕ) :
    (l.mapIdx f).getD j 0 = if j < l.length then f j (l.getD j 0) else 0 := by
  simp only [List.getD_eq_getElem?_getD, List.getElem?_mapIdx]
  by_cases h : j < l.length
  · simp [h, List.getElem?_eq_getElem h]
  · simp [h, List.getElem?_eq_none (not_lt.mp h)]

theorem getD_mapIdx_rows {α : Type} (f : ℕ → List α → List α) (rows : List (List α)) (i : ℕ) :
    (rows.mapIdx f).getD i [] = if i < rows.length then f i (rows.getD i []) else [] := by
  simp only [List.getD_eq_getElem?_getD, List.getElem?_mapIdx]
  by_cases h : i < rows.length
  · simp [h, List.getElem?_eq_getElem h]
  · simp [h, List.getElem?_eq_none (not_lt.mp h)]

theorem getD_set_rows {α : Type} (rows : List (List α)) (i j : ℕ) (r : List α) :
    (rows.set i r).getD j [] = if i = j ∧ i < rows.length then r else rows.getD j [] := by
  simp only [List.getD_eq_getElem?_getD, List.getElem?_set]
  by_cases h : i = j
  · subst h
    by_cases h2 : i < rows.length
    · simp [h2]
    · simp [h2, List.getElem?_eq_none (not_lt.mp h2)]
  · simp [h]

theorem findPivot_spec (rows : List (List K)) (k : ℕ) (hk : k < 8) :
    k ≤ (findPivot rows k).1 ∧ (findPivot rows k).1 < 8 ∧
      (findPivot rows k).2 = |entry rows (findPivot rows k).1 k| := by
  unfold findPivot
  have key : ∀ (l : List ℕ) (best : ℕ × K), (∀ i ∈ l, k ≤ i ∧ i < 8) →
      (k ≤ best.1 ∧ best.1 < 8 ∧ best.2 = |entry rows best.1 k|) →
      k ≤ (l.foldl (fun (best : ℕ × K) i =>
          let v := |entry rows i k|
          if v > best.2 then (i, v) else best) best).1 ∧
      (l.foldl (fun (best : ℕ × K) i =>
          let v := |entry rows i k|
          if v > best.2 then (i, v) else best) best).1 < 8 ∧
      (l.foldl (fun (best : ℕ × K) i =>
          let v := |entry rows i k|
          if v > best.2 then (i, v) else best) best).2 =
        |entry rows (l.foldl (fun (best : ℕ × K) i =>
          let v := |entry rows i k|
          if v > best.2 then (i, v) else best) best).1 k| := by
    intro l
    induction l with
    | nil => intro best _ h; exact h
    | cons a t ih =>
      intro best hl hb
      rw [List.foldl_cons]
      apply ih
      · intro i hi; exact hl i (List.mem_cons_of_mem _ hi)
      · have ha := hl a (List.mem_cons_self _ _)
        simp only
        split_ifs
        · exact ⟨ha.1, ha.2, rfl⟩
        · exact hb
  apply key
  · intro i hi
    rw [List.mem_range'_1] at hi
    omega
  · exact ⟨le_refl k, hk, rfl⟩

theorem WellFormed.swapRows {rows : List (List K)} (hw : WellFormed rows) {k m : ℕ}
    (hk : k < 8) (hm : m < 8) : WellFormed (swapRows rows k m) := by
  unfold Felina.swapRows
  split_ifs with h
  · refine ⟨by simp [hw.1], fun i hi => ?_⟩
    rw [getD_set_rows, getD_set_rows]
    split_ifs
    · exact hw.2 k hk
    · exact hw.2 m hm
    · exact hw.2 i hi
  · exact hw

theorem entry_swapRows {rows : List (List K)} (hw : WellFormed rows) {k m : ℕ}
    (hk : k < 8) (hm : m < 8) (i j : ℕ) :
    entry (swapRows rows k m) i j =
      entry rows (if i = k then m else if i = m then k else i) j := by
  unfold Felina.swapRows entry
  by_cases h : m = k
  · subst h
    simp only [ne_eq, not_true_eq_false, if_false]
    split_ifs with h1
    · rw [h1]
    · rfl
  · simp only [ne_eq, h, not_false_eq_true, if_true]
    rw [getD_set_rows, getD_set_rows]
    simp only [List.length_set, hw.1, hk, hm, and_true]
    by_cases h1 : i = k
    · subst h1
      have : ¬ m = i := h
      simp [this]
    · by_cases h2 : i = m
      · subst h2
        simp [h1]
      · have e1 : ¬ m = i := fun e => h2 e.symm
        have e2 : ¬ k = i := fun e => h1 e.symm
        simp [h1, h2, e1, e2]

theorem getD_normalizeRow (k : ℕ) (c : K) (r : List K) (j : ℕ) :
    (normalizeRow k c r).getD j 0 = if k ≤ j then r.getD j 0 * c else r.getD j 0 := by
  unfold normalizeRow
  rw [getD_mapIdx_zero]
  by_cases h : j < r.length
  · simp [h]
  · rw [if_neg h, List.getD_eq_default _ _ (not_lt.mp h)]
    split_ifs <;> simp

theorem length_normalizeRow (k : ℕ) (c : K) (r : List K) :
    (normalizeRow k c r).length = r.length := by
  simp [normalizeRow]

theorem length_eliminateRow (k : ℕ) (p r : List K) :
    (eliminateRow k p r).length = r.length := by
  unfold eliminateRow
  simp only
  split_ifs <;> simp

theorem getD_eliminateRow (k : ℕ) (p r : List K) (j : ℕ) (hj : j < r.length) :
    (eliminateRow k p r).getD j 0 =
      if k ≤ j then r.getD j 0 - r.getD k 0 * p.getD j 0 else r.getD j 0 := by
  unfold eliminateRow
  simp only
  by_cases h : r.getD k 0 = 0
  · rw [if_pos h, h]
    split_ifs <;> simp
  · rw [if_neg h, getD_mapIdx_zero, if_pos hj]

theorem eliminateStep_spec {rows rows' : List (List K)} {k : ℕ} (hw : WellFormed rows)
    (hk : k < 8) (h : eliminateStep rows k = some rows') :
    ∃ m, k ≤ m ∧ m < 8 ∧ EPS ≤ |entry rows m k| ∧ WellFormed rows' ∧
      ∀ i j, i < 8 → j < 9 →
        entry rows' i j =
          if i = k then
            (if k ≤ j then entry rows m j * (1 / entry rows m k) else entry rows m j)
          else if k < i then
            (if k ≤ j then entry rows (if i = m then k else i) j -
                entry rows (if i = m then k else i) k *
                  (entry rows m j * (1 / entry rows m k))
              else entry rows (if i = m then k else i) j)
          else entry rows i j := by
  obtain ⟨hm1, hm2, hm3⟩ := findPivot_spec rows k hk
  unfold eliminateStep at h
  simp only at h
  split_ifs at h with hlt
  rw [hm3] at hlt
  generalize (findPivot rows k).1 = m at *
  have hS : WellFormed (swapRows rows k m) := hw.swapRows hk hm2
  have hSe : ∀ i j, entry (swapRows rows k m) i j =
      entry rows (if i = k then m else if i = m then k else i) j :=
    fun i j => entry_swapRows hw hk hm2 i j
  simp only [Option.some.injEq] at h
  refine ⟨m, hm1, hm2, not_lt.mp hlt, ?_, ?_⟩
  · subst h
    refine ⟨by simp [hS.1], fun i hi => ?_⟩
    rw [getD_mapIdx_rows, getD_set_rows]
    simp only [List.length_set, hS.1, hi, hk, and_true, if_true]
    by_cases hik : k = i
    · subst hik
      simp only [if_true, lt_irrefl, if_false, length_normalizeRow]
      exact hS.2 k hk
    · simp only [hik, if_false]
      split_ifs
      · rw [length_eliminateRow]; exact hS.2 i hi
      · exact hS.2 i hi
  · intro i j hi hj
    subst h
    have hkk : entry (swapRows rows k m) k k = entry rows m k := by
      rw [hSe]; simp
    have hP : ∀ j, (normalizeRow k (1 / entry (swapRows rows k m) k k)
        ((swapRows rows k m).getD k [])).getD j 0 =
        if k ≤ j then entry rows m j * (1 / entry rows m k) else entry rows m j := by
      intro j
      rw [getD_normalizeRow, hkk]
      have : ((swapRows rows k m).getD k []).getD j 0 = entry rows m j := by
        have := hSe k j
        simp only [if_true] at this
        exact this
      rw [this]
    show ((List.mapIdx _ _).getD i []).getD j 0 = _
    rw [getD_mapIdx_rows, getD_set_rows]
    simp only [List.length_set, hS.1, hi, hk, and_true, if_true]
    by_cases hik : i = k
    · subst hik
      simp only [if_true, lt_irrefl, if_false]
      exact hP j
    · have hki : ¬ k = i := fun e => hik e.symm
      simp only [hki, hik, if_false]
      by_cases hlt2 : k < i
      · simp only [hlt2, if_true]
        rw [getD_eliminateRow _ _ _ _ (by rw [hS.2 i hi]; exact hj)]
        have e1 : ∀ j, ((swapRows rows k m).getD i []).getD j 0 =
            entry rows (if i = m then k else i) j := by
          intro j
          have := hSe i j
          simp only [hik, if_false] at this
          exact this
        rw [e1 j, e1 k, hP j]
        by_cases hkj : k ≤ j
        · simp only [hkj, if_true]
        · simp only [hkj, if_false]
      · simp only [hlt2, if_false]
        have := hSe i j
        have him : ¬ i = m := by omega
        simp only [hik, him, if_false] at this
        exact this

theorem solves_iff_residual (rows : List (List K)) (h : ℕ → K) (c : K) :
    Solves rows h c ↔ ∀ i, i < 8 → rowResidual rows h c i = 0 := by
  unfold Solves rowResidual
  constructor
  · intro hs i hi; rw [hs i hi]; ring
  · intro hs i hi; exact sub_eq_zero.mp (hs i hi)

theorem eliminateStep_invariant {rows rows' : List (List K)} {k : ℕ} (hw : WellFormed rows)
    (hred : Reduced k rows) (hk : k < 8) (h : eliminateStep rows k = some rows') :
    WellFormed rows' ∧ Reduced (k + 1) rows' ∧
      ∀ (x : ℕ → K) (c : K), Solves rows x c ↔ Solves rows' x c := by
  obtain ⟨m, hm1, hm2, hp, hw', he⟩ := eliminateStep_spec hw hk h
  have hp0 : entry rows m k ≠ 0 := by
    intro h0
    rw [h0, abs_zero] at hp
    exact absurd hp (not_le.mpr EPS_pos)
  have hmz : ∀ j, j < k → entry rows m j = 0 := fun j hj =>
    hred.2 m j hm2 hj (lt_of_lt_of_le hj hm1)
  -- uniform formulas for the new rows
  have hrowk : ∀ j, j < 9 → entry rows' k j = entry rows m j * (1 / entry rows m k) := by
    intro j hj
    rw [he k j hk hj]
    simp only [if_true]
    split_ifs with h1
    · rfl
    · rw [hmz j (not_le.mp h1)]; ring
  have hrowi : ∀ i j, i < 8 → j < 9 → k < i → entry rows' i j =
      entry rows (if i = m then k else i) j - entry rows (if i = m then k else i) k *
        (entry rows m j * (1 / entry rows m k)) := by
    intro i j hi hj hki
    rw [he i j hi hj]
    have hik : ¬ i = k := by omega
    simp only [hik, hki, if_false, if_true]
    by_cases h1 : k ≤ j
    · rw [if_pos h1]
    · rw [if_neg h1, hmz j (not_le.mp h1)]; ring
  have hrowlt : ∀ i j, i < 8 → j < 9 → i < k → entry rows' i j = entry rows i j := by
    intro i j hi hj hik
    rw [he i j hi hj]
    have h1 : ¬ i = k := by omega
    have h2 : ¬ k < i := by omega
    simp only [h1, h2, if_false]
  refine ⟨hw', ⟨?_, ?_⟩, ?_⟩
  · -- unit diagonal
    intro j hj hj8
    by_cases hjk : j = k
    · subst hjk
      rw [hrowk j (by omega)]
      field_simp
    · have hjk2 : j < k := by omega
      rw [hrowlt j j hj8 (by omega) hjk2]
      exact hred.1 j hjk2 hj8
  · -- zeros below the diagonal
    intro i j hi hj hji
    have hj9 : j < 9 := by omega
    by_cases hik : i = k
    · subst hik
      rw [hrowk j hj9, hmz j hji]; ring
    · by_cases hki : k < i
      · rw [hrowi i j hi hj9 hki]
        by_cases hjk : j = k
        · subst hjk
          field_simp
        · have hjk2 : j < k := by omega
          have hs : (if i = m then k else i) < 8 := by split_ifs <;> omega
          have hs2 : j < (if i = m then k else i) := by split_ifs <;> omega
          rw [hred.2 _ j hs hjk2 hs2, hmz j hjk2]; ring
      · have hik2 : i < k := by omega
        rw [hrowlt i j hi hj9 hik2]
        exact hred.2 i j hi (by omega) hji
  · -- the solution set is unchanged
    intro x c
    have hresk : rowResidual rows' x c k = rowResidual rows x c m * (1 / entry rows m k) := by
      unfold rowResidual
      simp only [Finset.sum_range_succ, Finset.sum_range_zero]
      rw [hrowk 0 (by omega), hrowk 1 (by omega), hrowk 2 (by omega), hrowk 3 (by omega),
        hrowk 4 (by omega), hrowk 5 (by omega), hrowk 6 (by omega), hrowk 7 (by omega),
        hrowk 8 (by omega)]
      ring
    have hresi : ∀ i, i < 8 → k < i → rowResidual rows' x c i =
        rowResidual rows x c (if i = m then k else i) -
          entry rows (if i = m then k else i) k *
            (rowResidual rows x c m * (1 / entry rows m k)) := by
      intro i hi hki
      unfold rowResidual
      simp only [Finset.sum_range_succ, Finset.sum_range_zero]
      rw [hrowi i 0 hi (by omega) hki, hrowi i 1 hi (by omega) hki,
        hrowi i 2 hi (by omega) hki, hrowi i 3 hi (by omega) hki,
        hrowi i 4 hi (by omega) hki, hrowi i 5 hi (by omega) hki,
        hrowi i 6 hi (by omega) hki, hrowi i 7 hi (by omega) hki,
        hrowi i 8 hi (by omega) hki]
      ring
    have hreslt : ∀ i, i < 8 → i < k → rowResidual rows' x c i = rowResidual rows x c i := by
      intro i hi hik
      unfold rowResidual
      simp only [Finset.sum_range_succ, Finset.sum_range_zero]
      rw [hrowlt i 0 hi (by omega) hik, hrowlt i 1 hi (by omega) hik,
        hrowlt i 2 hi (by omega) hik, hrowlt i 3 hi (by omega) hik,
        hrowlt i 4 hi (by omega) hik, hrowlt i 5 hi (by omega) hik,
        hrowlt i 6 hi (by omega) hik, hrowlt i 7 hi (by omega) hik,
        hrowlt i 8 hi (by omega) hik]
    rw [solves_iff_residual, solves_iff_residual]
    constructor
    · intro hs i hi
      rcases lt_trichotomy i k with hik | hik | hik
      · rw [hreslt i hi hik]; exact hs i hi
      · subst hik
        rw [hresk, hs m hm2]; ring
      · rw [hresi i hi hik, hs m hm2, hs _ (by split_ifs <;> omega)]; ring
    · intro hs
      have hm0 : rowResidual rows x c m = 0 := by
        have := hs k hk
        rw [hresk] at this
        rcases mul_eq_zero.mp this with h1 | h1
        · exact h1
        · exact absurd h1 (one_div_ne_zero hp0)
      have hgt : ∀ i, i < 8 → k < i → rowResidual rows x c (if i = m then k else i) = 0 := by
        intro i hi hki
        have := hs i hi
        rw [hresi i hi hki, hm0] at this
        simpa using this
      intro i hi
      rcases lt_trichotomy i k with hik | hik | hik
      · rw [← hreslt i hi hik]; exact hs i hi
      · subst hik
        by_cases hmk : m = i
        · rw [← hmk]; exact hm0
        · have := hgt m hm2 (by omega)
          simpa using this
      · by_cases him : i = m
        · rw [him]; exact hm0
        · have := hgt i hi hik
          simpa [him] using this

theorem eliminate_prefix_invariant {rows : List (List K)} (hw : WellFormed rows) :
    ∀ n, n ≤ 8 → ∀ R, (List.range n).foldlM eliminateStep rows = some R →
      WellFormed R ∧ Reduced n R ∧ ∀ (x : ℕ → K) (c : K), Solves rows x c ↔ Solves R x c := by
  intro n
  induction n with
  | zero =>
    intro _ R h
    simp only [List.range_zero, List.foldlM_nil, Option.pure_def, Option.some.injEq] at h
    subst h
    refine ⟨hw, ⟨fun j hj => absurd hj (Nat.not_lt_zero j),
      fun i j _ hj => absurd hj (Nat.not_lt_zero j)⟩, fun x c => Iff.rfl⟩
  | succ n ih =>
    intro hn R h
    rw [List.range_succ, List.foldlM_append] at h
    cases h1 : (List.range n).foldlM eliminateStep rows with
    | none => rw [h1] at h; simp at h
    | some R1 =>
      rw [h1] at h
      simp only [Option.bind_eq_bind, Option.some_bind, List.foldlM_cons, List.foldlM_nil,
        Option.pure_def, Option.bind_some] at h
      obtain ⟨hw1, hr1, hs1⟩ := ih (by omega) R1 h1
      obtain ⟨hw2, hr2, hs2⟩ := eliminateStep_invariant hw1 hr1 (by omega) h
      exact ⟨hw2, hr2, fun x c => (hs1 x c).trans (hs2 x c)⟩

theorem eliminate_invariant {rows R : List (List K)} (hw : WellFormed rows)
    (h : eliminate rows = some R) :
    WellFormed R ∧ Reduced 8 R ∧ ∀ (x : ℕ → K) (c : K), Solves rows x c ↔ Solves R x c :=
  eliminate_prefix_invariant hw 8 (le_refl 8) R h

/-- A reduced system has only the trivial homogeneous solution. -/
theorem reduced_homogeneous_zero {R : List (List K)} (hred : Reduced 8 R) {x : ℕ → K}
    (hx : Solves R x 0) : ∀ j, j < 8 → x j = 0 := by
  have key : ∀ n, n ≤ 8 → ∀ j, 8 - n ≤ j → j < 8 → x j = 0 := by
    intro n
    induction n with
    | zero => intro _ j h1 h2; omega
    | succ n ih =>
      intro hn j h1 h2
      by_cases hj : 8 - n ≤ j
      · exact ih (by omega) j hj h2
      · have hje : j = 8 - (n + 1) := by omega
        have hrow := hx j h2
        rw [zero_mul] at hrow
        have hterm : ∀ t ∈ Finset.range 8, t ≠ j → entry R j t * x t = 0 := by
          intro t ht htj
          rw [Finset.mem_range] at ht
          rcases lt_or_gt_of_ne htj with h3 | h3
          · rw [hred.2 j t h2 ht h3, zero_mul]
          · rw [ih (by omega) t (by omega) ht, mul_zero]
        rw [Finset.sum_eq_single_of_mem j (Finset.mem_range.mpr h2) hterm, hred.1 j h2 h2,
          one_mul] at hrow
        exact hrow
  intro j hj
  exact key 8 (le_refl 8) j (by omega) hj

theorem foldl_range'_sum (f : ℕ → K) (n : ℕ) : ∀ (a : ℕ) (s0 : K),
    (List.range' a n).foldl (fun s j => s + f j) s0 =
      s0 + ∑ j in Finset.range n, f (a + j) := by
  induction n with
  | zero => intro a s0; simp
  | succ n ih =>
    intro a s0
    rw [List.range'_succ, List.foldl_cons, ih, Finset.sum_range_succ']
    have : ∀ j, f (a + 1 + j) = f (a + (j + 1)) := fun j => by
      rw [add_assoc, add_comm 1 j]
    simp only [this, add_zero]
    ring

theorem backStep_spec {R : List (List K)} (hred : Reduced 8 R) {xs xs' : List K} {i : ℕ}
    (hi : i < 8) (hlen : xs.length = 8) (h : backStep R xs i = some xs') :
    xs'.length = 8 ∧ (∀ j, j ≠ i → xs'.getD j 0 = xs.getD j 0) ∧
      rowResidual R (fun j => xs'.getD j 0) 1 i = 0 := by
  have hdiag : (R.getD i []).getD i 0 = 1 := hred.1 i hi hi
  unfold backStep at h
  simp only [hdiag, abs_one, div_one] at h
  have hE : ¬ ((1 : K) < EPS) := by
    unfold EPS; norm_num
  rw [if_neg hE, Option.some.injEq, foldl_range'_sum, zero_add] at h
  subst h
  have hget : ∀ j, (xs.set i ((R.getD i []).getD 8 0 -
      ∑ j in Finset.range (8 - (i + 1)),
        (R.getD i []).getD (i + 1 + j) 0 * xs.getD (i + 1 + j) 0)).getD j 0 =
      if j = i then (R.getD i []).getD 8 0 -
        ∑ j in Finset.range (8 - (i + 1)),
          (R.getD i []).getD (i + 1 + j) 0 * xs.getD (i + 1 + j) 0
      else xs.getD j 0 := by
    intro j
    simp only [List.getD_eq_getElem?_getD, List.getElem?_set]
    by_cases hji : j = i
    · subst hji
      simp [hlen, hi]
    · have : ¬ i = j := fun e => hji e.symm
      simp [hji, this]
  refine ⟨by simp [hlen], fun j hj => ?_, ?_⟩
  · rw [hget, if_neg hj]
  · unfold rowResidual
    simp only [hget]
    have h8 : 8 = (i + 1) + (8 - (i + 1)) := by omega
    have hsplit : ∀ g : ℕ → K, ∑ j in Finset.range 8, g j =
        ∑ j in Finset.range i, g j + g i +
          ∑ j in Finset.range (8 - (i + 1)), g (i + 1 + j) := by
      intro g
      conv_lhs => rw [h8]
      rw [Finset.sum_range_add, Finset.sum_range_succ]
    rw [hsplit]
    have hlow : ∑ j in Finset.range i, entry R i j *
        (if j = i then (R.getD i []).getD 8 0 -
          ∑ j in Finset.range (8 - (i + 1)),
            (R.getD i []).getD (i + 1 + j) 0 * xs.getD (i + 1 + j) 0
          else xs.getD j 0) = 0 := by
      apply Finset.sum_eq_zero
      intro t ht
      rw [Finset.mem_range] at ht
      rw [hred.2 i t hi (by omega) ht, zero_mul]
    have hhigh : ∑ j in Finset.range (8 - (i + 1)), entry R i (i + 1 + j) *
        (if i + 1 + j = i then (R.getD i []).getD 8 0 -
          ∑ j in Finset.range (8 - (i + 1)),
            (R.getD i []).getD (i + 1 + j) 0 * xs.getD (i + 1 + j) 0
          else xs.getD (i + 1 + j) 0) =
        ∑ j in Finset.range (8 - (i + 1)),
          (R.getD i []).getD (i + 1 + j) 0 * xs.getD (i + 1 + j) 0 := by
      apply Finset.sum_congr rfl
      intro t _
      have : ¬ i + 1 + t = i := by omega
      rw [if_neg this]
      rfl
    rw [hlow, hhigh]
    simp only [if_true]
    have hd : entry R i i = 1 := hdiag
    rw [hd]
    unfold entry
    ring

theorem backSubstitute_prefix {R : List (List K)} (hred : Reduced 8 R) :
    ∀ n, n ≤ 8 → ∀ xs : List K, xs.length = 8 →
      (∀ r, n ≤ r → r < 8 → rowResidual R (fun j => xs.getD j 0) 1 r = 0) →
      ∀ xs', (List.range n).reverse.foldlM (backStep R) xs = some xs' →
        xs'.length = 8 ∧ ∀ r, r < 8 → rowResidual R (fun j => xs'.getD j 0) 1 r = 0 := by
  intro n
  induction n with
  | zero =>
    intro _ xs hlen hres xs' h
    simp only [List.range_zero, List.reverse_nil, List.foldlM_nil, Option.pure_def,
      Option.some.injEq] at h
    subst h
    exact ⟨hlen, fun r hr => hres r (Nat.zero_le r) hr⟩
  | succ n ih =>
    intro hn xs hlen hres xs' h
    rw [List.range_succ, List.reverse_append, List.reverse_singleton, List.singleton_append,
      List.foldlM_cons] at h
    cases h1 : backStep R xs n with
    | none => rw [h1] at h; simp at h
    | some xs1 =>
      rw [h1] at h
      simp only [Option.bind_eq_bind, Option.some_bind] at h
      obtain ⟨hlen1, hsame, hrow⟩ := backStep_spec hred (by omega) hlen h1
      apply ih (by omega) xs1 hlen1 _ xs' h
      intro r hnr hr
      by_cases hrn : r = n
      · rw [hrn]; exact hrow
      · have hlt : n < r := by omega
        have e : rowResidual R (fun j => xs1.getD j 0) 1 r =
            rowResidual R (fun j => xs.getD j 0) 1 r := by
          unfold rowResidual
          congr 1
          apply Finset.sum_congr rfl
          intro t _
          by_cases htn : t = n
          · rw [htn, hred.2 r n hr (by omega) hlt, zero_mul, zero_mul]
          · simp only [hsame t htn]
        rw [e]
        exact hres r (by omega) hr

theorem backSubstitute_solves {R : List (List K)} (hred : Reduced 8 R) {xs : List K}
    (h : backSubstitute R = some xs) :
    xs.length = 8 ∧ Solves R (fun j => xs.getD j 0) 1 := by
  have hl : ([7, 6, 5, 4, 3, 2, 1, 0] : List ℕ) = (List.range 8).reverse := by decide
  unfold backSubstitute at h
  rw [hl] at h
  obtain ⟨h1, h2⟩ := backSubstitute_prefix hred 8 (le_refl 8) (List.replicate 8 0)
    (by simp) (fun r h1 h2 => by omega) xs h
  exact ⟨h1, (solves_iff_residual R _ 1).mpr h2⟩

/-- The augmented system written out row by row. -/
theorem buildSystem_eq (src dst : Fin 4 → Float2 K) :
    buildSystem src dst =
      [[(src 0).x, (src 0).y, 1, 0, 0, 0, -(src 0).x * (dst 0).x, -(src 0).y * (dst 0).x,
          (dst 0).x],
        [0, 0, 0, (src 0).x, (src 0).y, 1, -(src 0).x * (dst 0).y, -(src 0).y * (dst 0).y,
          (dst 0).y],
        [(src 1).x, (src 1).y, 1, 0, 0, 0, -(src 1).x * (dst 1).x, -(src 1).y * (dst 1).x,
          (dst 1).x],
        [0, 0, 0, (src 1).x, (src 1).y, 1, -(src 1).x * (dst 1).y, -(src 1).y * (dst 1).y,
          (dst 1).y],
        [(src 2).x, (src 2).y, 1, 0, 0, 0, -(src 2).x * (dst 2).x, -(src 2).y * (dst 2).x,
          (dst 2).x],
        [0, 0, 0, (src 2).x, (src 2).y, 1, -(src 2).x * (dst 2).y, -(src 2).y * (dst 2).y,
          (dst 2).y],
        [(src 3).x, (src 3).y, 1, 0, 0, 0, -(src 3).x * (dst 3).x, -(src 3).y * (dst 3).x,
          (dst 3).x],
        [0, 0, 0, (src 3).x, (src 3).y, 1, -(src 3).x * (dst 3).y, -(src 3).y * (dst 3).y,
          (dst 3).y]] := by
  rfl

theorem buildSystem_wellFormed (src dst : Fin 4 → Float2 K) :
    WellFormed (buildSystem src dst) := by
  rw [buildSystem_eq]
  refine ⟨rfl, fun i hi => ?_⟩
  interval_cases i <;> rfl

/-- The row equations of the system are the eight homography equations. -/
theorem solves_buildSystem_iff (src dst : Fin 4 → Float2 K) (x : ℕ → K) (c : K) :
    Solves (buildSystem src dst) x c ↔
      ∀ i : Fin 4,
        (src i).x * x 0 + (src i).y * x 1 + x 2 - (src i).x * (dst i).x * x 6 -
            (src i).y * (dst i).x * x 7 = c * (dst i).x ∧
        (src i).x * x 3 + (src i).y * x 4 + x 5 - (src i).x * (dst i).y * x 6 -
            (src i).y * (dst i).y * x 7 = c * (dst i).y := by
  rw [buildSystem_eq]
  unfold Solves
  constructor
  · intro h
    have k0 := h 0 (by norm_num)
    have k1 := h 1 (by norm_num)
    have k2 := h 2 (by norm_num)
    have k3 := h 3 (by norm_num)
    have k4 := h 4 (by norm_num)
    have k5 := h 5 (by norm_num)
    have k6 := h 6 (by norm_num)
    have k7 := h 7 (by norm_num)
    simp [entry, Finset.sum_range_succ] at k0 k1 k2 k3 k4 k5 k6 k7
    have p0 : (src 0).x * x 0 + (src 0).y * x 1 + x 2 - (src 0).x * (dst 0).x * x 6 -
          (src 0).y * (dst 0).x * x 7 = c * (dst 0).x ∧
        (src 0).x * x 3 + (src 0).y * x 4 + x 5 - (src 0).x * (dst 0).y * x 6 -
          (src 0).y * (dst 0).y * x 7 = c * (dst 0).y :=
      ⟨by linear_combination k0, by linear_combination k1⟩
    have p1 : (src 1).x * x 0 + (src 1).y * x 1 + x 2 - (src 1).x * (dst 1).x * x 6 -
          (src 1).y * (dst 1).x * x 7 = c * (dst 1).x ∧
        (src 1).x * x 3 + (src 1).y * x 4 + x 5 - (src 1).x * (dst 1).y * x 6 -
          (src 1).y * (dst 1).y * x 7 = c * (dst 1).y :=
      ⟨by linear_combination k2, by linear_combination k3⟩
    have p2 : (src 2).x * x 0 + (src 2).y * x 1 + x 2 - (src 2).x * (dst 2).x * x 6 -
          (src 2).y * (dst 2).x * x 7 = c * (dst 2).x ∧
        (src 2).x * x 3 + (src 2).y * x 4 + x 5 - (src 2).x * (dst 2).y * x 6 -
          (src 2).y * (dst 2).y * x 7 = c * (dst 2).y :=
      ⟨by linear_combination k4, by linear_combination k5⟩
    have p3 : (src 3).x * x 0 + (src 3).y * x 1 + x 2 - (src 3).x * (dst 3).x * x 6 -
          (src 3).y * (dst 3).x * x 7 = c * (dst 3).x ∧
        (src 3).x * x 3 + (src 3).y * x 4 + x 5 - (src 3).x * (dst 3).y * x 6 -
          (src 3).y * (dst 3).y * x 7 = c * (dst 3).y :=
      ⟨by linear_combination k6, by linear_combination k7⟩
    intro i
    fin_cases i
    · exact p0
    · exact p1
    · exact p2
    · exact p3
  · intro h i hi
    have e0 := h 0
    have e1 := h 1
    have e2 := h 2
    have e3 := h 3
    interval_cases i <;> simp [entry, Finset.sum_range_succ]
    · linear_combination e0.1
    · linear_combination e0.2
    · linear_combination e1.1
    · linear_combination e1.2
    · linear_combination e2.1
    · linear_combination e2.2
    · linear_combination e3.1
    · linear_combination e3.2

/-! ## General solver: claim C3 -/

theorem solveSystem_solves {src dst : Fin 4 → Float2 K} {xs : List K}
    (h : solveSystem src dst = some xs) :
    xs.length = 8 ∧ Solves (buildSystem src dst) (fun j => xs.getD j 0) 1 := by
  unfold solveSystem at h
  cases h1 : eliminate (buildSystem src dst) with
  | none => rw [h1] at h; simp at h
  | some R =>
    rw [h1] at h
    simp only [Option.some_bind] at h
    obtain ⟨_, hred, hs⟩ := eliminate_invariant (buildSystem_wellFormed src dst) h1
    obtain ⟨hl, hsol⟩ := backSubstitute_solves hred h
    exact ⟨hl, (hs _ 1).mpr hsol⟩

/-- C3: whenever `CalculateHomography` takes neither identity fallback, the entries it writes
solve the eight equations of the linear system, two per correspondence `(u,v) -> (x,y)`; so
each source point is carried projectively onto its destination point. -/
theorem C3_general_solver_solves (src dst : Fin 4 → Float2 K)
    (hno : solveSystem src dst ≠ none) :
    let M := CalculateHomography src dst
    ∀ i : Fin 4,
      ((src i).x * M.c0x + (src i).y * M.c1x + M.c2x - (src i).x * (dst i).x * M.c0z -
          (src i).y * (dst i).x * M.c1z = (dst i).x ∧
        (src i).x * M.c0y + (src i).y * M.c1y + M.c2y - (src i).x * (dst i).y * M.c0z -
          (src i).y * (dst i).y * M.c1z = (dst i).y) ∧
      applyH M (src i).x (src i).y =
        ((M.c0z * (src i).x + M.c1z * (src i).y + M.c2z) * (dst i).x,
          (M.c0z * (src i).x + M.c1z * (src i).y + M.c2z) * (dst i).y,
          M.c0z * (src i).x + M.c1z * (src i).y + M.c2z) := by
  intro M i
  cases h : solveSystem src dst with
  | none => exact absurd h hno
  | some xs =>
    have hM : M = packResult xs := by
      show CalculateHomography src dst = _
      unfold CalculateHomography
      rw [h]
    obtain ⟨_, hs⟩ := solveSystem_solves h
    have he := (solves_buildSystem_iff src dst _ 1).mp hs i
    simp only [one_mul] at he
    obtain ⟨h1, h2⟩ := he
    rw [hM]
    simp only [packResult, applyH]
    refine ⟨⟨by linear_combination h1, by linear_combination h2⟩, ?_⟩
    refine Prod.ext ?_ (Prod.ext ?_ rfl)
    · simp only; linear_combination h1
    · simp only; linear_combination h2

/-- Witness of C3: a 2x1 source rectangle sent to a quadrilateral that is not a
parallelogram; the solver takes no fallback and corner 2 satisfies its `x` equation. -/
theorem C3_general_solver_solves_witness :
    solveSystem rectSrc skewQuad ≠ none ∧
    (rectSrc 2).x * (CalculateHomography rectSrc skewQuad).c0x +
        (rectSrc 2).y * (CalculateHomography rectSrc skewQuad).c1x +
        (CalculateHomography rectSrc skewQuad).c2x -
        (rectSrc 2).x * (skewQuad 2).x * (CalculateHomography rectSrc skewQuad).c0z -
        (rectSrc 2).y * (skewQuad 2).x * (CalculateHomography rectSrc skewQuad).c1z =
      (skewQuad 2).x :=
  have hno : solveSystem rectSrc skewQuad ≠ none := by decide!
  ⟨hno, (C3_general_solver_solves rectSrc skewQuad hno 2).1.1⟩

/-! ## Agreement of the two solvers: claim C1 -/

theorem solves_sub {rows : List (List K)} {x y : ℕ → K} {c : K} (hx : Solves rows x c)
    (hy : Solves rows y c) : Solves rows (fun j => x j - y j) 0 := by
  intro i hi
  have h1 := hx i hi
  have h2 := hy i hi
  simp only [mul_sub, Finset.sum_sub_distrib, h1, h2]
  ring

/-- The solution returned by the general solver is the only solution of the system. -/
theorem solveSystem_unique {src dst : Fin 4 → Float2 K} {xs : List K}
    (h : solveSystem src dst = some xs) {y : ℕ → K}
    (hy : Solves (buildSystem src dst) y 1) : ∀ j, j < 8 → xs.getD j 0 = y j := by
  obtain ⟨_, hx⟩ := solveSystem_solves h
  have hd := solves_sub hx hy
  cases h1 : eliminate (buildSystem src dst) with
  | none => unfold solveSystem at h; rw [h1] at h; simp at h
  | some R =>
    obtain ⟨_, hred, hs⟩ := eliminate_invariant (buildSystem_wellFormed src dst) h1
    intro j hj
    exact sub_eq_zero.mp (reduced_homogeneous_zero hred ((hs _ 0).mp hd) j hj)

theorem normalizePoints_scaleToScreen (screenW screenH : K) (hW : screenW ≠ 0)
    (hH : screenH ≠ 0) (dst : Fin 4 → Float2 K) :
    normalizePoints screenW screenH (scaleToScreen screenW screenH dst) = dst := by
  funext i
  apply Float2.ext
  · simp only [normalizePoints, scaleToScreen]
    field_simp
  · simp only [normalizePoints, scaleToScreen]
    field_simp

/-- The coefficients of the closed-form solver solve the system of the general solver. -/
theorem closedForm_solves (dst : Fin 4 → Float2 K) (a b : K)
    (hrx : a * ((dst 1).x - (dst 2).x) + b * ((dst 3).x - (dst 2).x) =
      (dst 0).x - (dst 1).x + (dst 2).x - (dst 3).x)
    (hry : a * ((dst 1).y - (dst 2).y) + b * ((dst 3).y - (dst 2).y) =
      (dst 0).y - (dst 1).y + (dst 2).y - (dst 3).y) :
    Solves (buildSystem unitSquare dst)
      (fun j => [(closedFormMatrix dst a b).c0x, (closedFormMatrix dst a b).c1x,
        (closedFormMatrix dst a b).c2x, (closedFormMatrix dst a b).c0y,
        (closedFormMatrix dst a b).c1y, (closedFormMatrix dst a b).c2y, a, b].getD j 0) 1 := by
  rw [solves_buildSystem_iff]
  intro i
  fin_cases i <;> simp [unitSquare, closedFormMatrix] <;> constructor <;>
    first
      | ring1
      | linear_combination hrx
      | linear_combination hry

/-- C1 fails as stated: for a square of side `1e-10` (no three corners collinear) on a
1920x1080 screen the general solver meets a pivot below `EPS` and writes the identity, while
the closed-form solver takes its affine branch and writes `c0x = 1e-10`; the entries `c0x`
differ by `1 - 1e-10 > 1e-4`. -/
theorem C1_counterexample :
    NoThreeCollinear tinySquare ∧ (1920 : ℚ) ≠ 0 ∧ (1080 : ℚ) ≠ 0 ∧
    CalculateHomography unitSquare tinySquare = identity4x4 ∧
    (ComputeTransformMatrix 1920 1080 (scaleToScreen 1920 1080 tinySquare)).c0x = 1e-10 ∧
    ¬ entriesWithin 1e-4 (CalculateHomography unitSquare tinySquare)
      (ComputeTransformMatrix 1920 1080 (scaleToScreen 1920 1080 tinySquare)) := by
  refine ⟨?_, by norm_num, by norm_num, by decide!,
    by decide!, fun h => absurd h.1 (by decide!)⟩
  unfold NoThreeCollinear
  decide!

/-- C1, amended: with the unit square as source, whenever `CalculateHomography` takes neither
identity fallback and the closed-form solver takes its projective branch (`|den| ≥ 1e-9` on
the destination points), the matrices written by `CalculateHomography (unitSquare, dst)` and
by `ComputeTransformMatrix (screenW, screenH, raw)` with `raw_i = (dst_i.x * screenW,
dst_i.y * screenH)` are equal, so all 16 entries agree within `1e-4`. -/
theorem C1_solvers_agree (screenW screenH : K) (dst : Fin 4 → Float2 K) (hW : screenW ≠ 0)
    (hH : screenH ≠ 0) (hno : solveSystem unitSquare dst ≠ none)
    (hden : EPS ≤ |quadDen dst|) :
    CalculateHomography unitSquare dst =
      ComputeTransformMatrix screenW screenH (scaleToScreen screenW screenH dst) ∧
    entriesWithin 1e-4 (CalculateHomography unitSquare dst)
      (ComputeTransformMatrix screenW screenH (scaleToScreen screenW screenH dst)) := by
  have heq : CalculateHomography unitSquare dst =
      ComputeTransformMatrix screenW screenH (scaleToScreen screenW screenH dst) := by
    rw [ComputeTransformMatrix_eq_closedForm, normalizePoints_scaleToScreen _ _ hW hH]
    obtain ⟨hrx, hry⟩ := perspectiveTerms_relations hden
    have hy := closedForm_solves dst _ _ hrx hry
    cases h : solveSystem unitSquare dst with
    | none => exact absurd h hno
    | some xs =>
      have hu := solveSystem_unique h hy
      unfold CalculateHomography
      rw [h]
      simp only
      have u0 := hu 0 (by norm_num)
      have u1 := hu 1 (by norm_num)
      have u2 := hu 2 (by norm_num)
      have u3 := hu 3 (by norm_num)
      have u4 := hu 4 (by norm_num)
      have u5 := hu 5 (by norm_num)
      have u6 := hu 6 (by norm_num)
      have u7 := hu 7 (by norm_num)
      simp only [List.getD_cons_zero, List.getD_cons_succ] at u0 u1 u2 u3 u4 u5 u6 u7
      apply Float4x4.ext <;> simp only [packResult, u0, u1, u2, u3, u4, u5, u6, u7] <;> rfl
  refine ⟨heq, ?_⟩
  rw [heq]
  have htol : (0 : K) ≤ 1e-4 := by norm_num
  simp only [entriesWithin, sub_self, abs_zero, htol, and_self]

/-- Witness of C1 (amended): the perspective quadrilateral `(0,0), (1,0), (3/4,3/4), (0,1)`
on a 1920x1080 screen. -/
theorem C1_solvers_agree_witness :
    (solveSystem unitSquare perspectiveDst ≠ none ∧ EPS ≤ |quadDen perspectiveDst|) ∧
    CalculateHomography unitSquare perspectiveDst =
      ComputeTransformMatrix 1920 1080 (scaleToScreen 1920 1080 perspectiveDst) :=
  have hno : solveSystem unitSquare perspectiveDst ≠ none := by decide!
  have hden : EPS ≤ |quadDen perspectiveDst| := by decide!
  ⟨⟨hno, hden⟩, (C1_solvers_agree 1920 1080 perspectiveDst (by norm_num) (by norm_num)
    hno hden).1⟩

/-! ## Totality and normalisation of the closed-form solver: claims C11, C12 -/

/-- C12: the screen size enters `ComputeTransformMatrix` only through the normalised points:
two inputs with non-zero screen sizes and equal quotients `raw_i.x / screenW`,
`raw_i.y / screenH` give the same matrix; in particular scaling the screen size and all raw
points by the same `k ≠ 0` changes nothing. -/
theorem C12_normalization_only (screenW screenH : K) (raw : Fin 4 → Float2 K)
    (_hW : screenW ≠ 0) (_hH : screenH ≠ 0) :
    (∀ (screenW2 screenH2 : K) (raw2 : Fin 4 → Float2 K), screenW2 ≠ 0 → screenH2 ≠ 0 →
      (∀ i, (raw i).x / screenW = (raw2 i).x / screenW2) →
      (∀ i, (raw i).y / screenH = (raw2 i).y / screenH2) →
      ComputeTransformMatrix screenW screenH raw =
        ComputeTransformMatrix screenW2 screenH2 raw2) ∧
    (∀ k : K, k ≠ 0 →
      ComputeTransformMatrix (k * screenW) (k * screenH) (scalePoints k raw) =
        ComputeTransformMatrix screenW screenH raw) := by
  have key : ∀ (screenW2 screenH2 : K) (raw2 : Fin 4 → Float2 K),
      (∀ i, (raw i).x / screenW = (raw2 i).x / screenW2) →
      (∀ i, (raw i).y / screenH = (raw2 i).y / screenH2) →
      ComputeTransformMatrix screenW screenH raw =
        ComputeTransformMatrix screenW2 screenH2 raw2 := by
    intro screenW2 screenH2 raw2 hx hy
    have e : normalizePoints screenW screenH raw = normalizePoints screenW2 screenH2 raw2 := by
      rw [normalizePoints_eq_spec, normalizePoints_eq_spec]
      funext i
      exact Float2.ext (hx i) (hy i)
    rw [ComputeTransformMatrix_eq_closedForm, ComputeTransformMatrix_eq_closedForm, e]
  refine ⟨fun screenW2 screenH2 raw2 _ _ hx hy => key screenW2 screenH2 raw2 hx hy,
    fun k hk => ?_⟩
  symm
  apply key
  · intro i
    simp only [scalePoints]
    rw [mul_div_mul_left _ _ hk]
  · intro i
    simp only [scalePoints]
    rw [mul_div_mul_left _ _ hk]

/-- Witness of C12: the centred rectangle on a 1920x1080 screen and the same picture at
half the resolution. -/
theorem C12_normalization_only_witness :
    ComputeTransformMatrix ((1 / 2 : ℚ) * 1920) ((1 / 2 : ℚ) * 1080)
        (scalePoints (1 / 2) centredRect) =
      ComputeTransformMatrix 1920 1080 centredRect :=
  (C12_normalization_only (1920 : ℚ) 1080 centredRect (by norm_num) (by norm_num)).2 (1 / 2)
    (by norm_num)

/-! ## Clamp: claim C14 -/

/-- C14: `Clamp01 v = max 0 (min 1 v)`; hence `0 ≤ Clamp01 v ≤ 1`, `Clamp01 v = v` whenever
`0 ≤ v ≤ 1`, and `Clamp01` is idempotent. -/
theorem C14_clamp01 (v : K) :
    Clamp01 v = max 0 (min 1 v) ∧ (0 ≤ Clamp01 v ∧ Clamp01 v ≤ 1) ∧
    (0 ≤ v → v ≤ 1 → Clamp01 v = v) ∧ Clamp01 (Clamp01 v) = Clamp01 v := by
  have hfix : ∀ w : K, 0 ≤ w → w ≤ 1 → Clamp01 w = w := by
    intro w h0 h1
    unfold Clamp01
    rw [if_neg (not_lt.mpr h0), if_neg (not_lt.mpr h1)]
  exact ⟨Clamp01_eq_max_min v, ⟨Clamp01_nonneg v, Clamp01_le_one v⟩, hfix v,
    hfix _ (Clamp01_nonneg v) (Clamp01_le_one v)⟩

/-- Witness of C14 at `v = 1/2`, a fixed point of the clamp. -/
theorem C14_clamp01_witness : Clamp01 (1 / 2 : ℚ) = 1 / 2 :=
  (C14_clamp01 (1 / 2 : ℚ)).2.2.1 (by norm_num) (by norm_num)

/-! ## Stability classifier: claims C18, C19 -/

theorem angleDeg_eq_acosArgument (acos : K → K) (curRot lastRot : Float4 K) :
    angleDeg acos curRot lastRot = 2 * acos (acosArgument curRot lastRot) * RAD_TO_DEG :=
  rfl

theorem acosArgument_eq_min_abs (curRot lastRot : Float4 K) :
    acosArgument curRot lastRot =
      min 1 |curRot.x * lastRot.x + curRot.y * lastRot.y + curRot.z * lastRot.z +
        curRot.w * lastRot.w| := by
  unfold acosArgument
  simp only
  have habs : ∀ d : K, (if d < 0 then -d else d) = |d| := by
    intro d
    split_ifs with h
    · exact (abs_of_neg h).symm
    · exact (abs_of_nonneg (not_lt.mp h)).symm
  rw [habs]
  split_ifs with h
  · exact (min_eq_left h.le).symm
  · exact (min_eq_right (not_lt.mp h)).symm

theorem acosArgument_negQuat_left (curRot lastRot : Float4 K) :
    acosArgument (negQuat curRot) lastRot = acosArgument curRot lastRot := by
  rw [acosArgument_eq_min_abs, acosArgument_eq_min_abs]
  have e : (negQuat curRot).x * lastRot.x + (negQuat curRot).y * lastRot.y +
      (negQuat curRot).z * lastRot.z + (negQuat curRot).w * lastRot.w =
      -(curRot.x * lastRot.x + curRot.y * lastRot.y + curRot.z * lastRot.z +
        curRot.w * lastRot.w) := by
    simp only [negQuat]; ring
  rw [e, abs_neg]

theorem acosArgument_negQuat_right (curRot lastRot : Float4 K) :
    acosArgument curRot (negQuat lastRot) = acosArgument curRot lastRot := by
  rw [acosArgument_eq_min_abs, acosArgument_eq_min_abs]
  have e : curRot.x * (negQuat lastRot).x + curRot.y * (negQuat lastRot).y +
      curRot.z * (negQuat lastRot).z + curRot.w * (negQuat lastRot).w =
      -(curRot.x * lastRot.x + curRot.y * lastRot.y + curRot.z * lastRot.z +
        curRot.w * lastRot.w) := by
    simp only [negQuat]; ring
  rw [e, abs_neg]

/-- C18: negating all four components of `curRot`, of `lastRot`, or of both leaves the
result of `CheckStability` unchanged. -/
theorem C18_negated_orientation (acos : K → K) (curPos : Float3 K) (curRot : Float4 K)
    (lastPos : Float3 K) (lastRot : Float4 K) (dt maxMoveSpeed maxRotSpeed : K) :
    CheckStability acos curPos (negQuat curRot) lastPos lastRot dt maxMoveSpeed maxRotSpeed =
      CheckStability acos curPos curRot lastPos lastRot dt maxMoveSpeed maxRotSpeed ∧
    CheckStability acos curPos curRot lastPos (negQuat lastRot) dt maxMoveSpeed maxRotSpeed =
      CheckStability acos curPos curRot lastPos lastRot dt maxMoveSpeed maxRotSpeed ∧
    CheckStability acos curPos (negQuat curRot) lastPos (negQuat lastRot) dt maxMoveSpeed
        maxRotSpeed =
      CheckStability acos curPos curRot lastPos lastRot dt maxMoveSpeed maxRotSpeed := by
  unfold CheckStability
  simp only [angleDeg_eq_acosArgument, acosArgument_negQuat_left, acosArgument_negQuat_right,
    and_self]

theorem acosArgument_mem (curRot lastRot : Float4 K) :
    0 ≤ acosArgument curRot lastRot ∧ acosArgument curRot lastRot ≤ 1 := by
  rw [acosArgument_eq_min_abs]
  exact ⟨le_min zero_le_one (abs_nonneg _), min_le_left _ _⟩

theorem flooredDt_gt (dt : K) : 1e-5 < flooredDt dt := by
  unfold flooredDt
  split_ifs with h
  · norm_num
  · exact not_le.mp h

/-- C19: for every input the value passed to `acos` lies in `[0, 1]`, so over the reals the
angle `2 * arccos _ * RAD_TO_DEG` lies in `[0, 180]`; the time step used as divisor after the
floor is strictly greater than `1e-5`, so the guarded division never fails and a definite
boolean is returned. -/
theorem C19_stability_total (acos : K → K) (curPos : Float3 K) (curRot : Float4 K)
    (lastPos : Float3 K) (lastRot : Float4 K) (dt maxMoveSpeed maxRotSpeed : K) :
    (0 ≤ acosArgument curRot lastRot ∧ acosArgument curRot lastRot ≤ 1) ∧
    angleDeg acos curRot lastRot = 2 * acos (acosArgument curRot lastRot) * RAD_TO_DEG ∧
    (∀ q1 q2 : Float4 ℝ,
      0 ≤ angleDeg Real.arccos q1 q2 ∧ angleDeg Real.arccos q1 q2 ≤ 180) ∧
    1e-5 < flooredDt dt ∧
    CheckStabilityChecked acos curPos curRot lastPos lastRot dt maxMoveSpeed maxRotSpeed =
      some (CheckStability acos curPos curRot lastPos lastRot dt maxMoveSpeed
        maxRotSpeed) := by
  refine ⟨acosArgument_mem curRot lastRot, rfl, ?_, flooredDt_gt dt, ?_⟩
  · intro q1 q2
    rw [angleDeg_eq_acosArgument]
    have h0 := Real.arccos_nonneg (acosArgument q1 q2)
    have h1 : Real.arccos (acosArgument q1 q2) ≤ Real.pi / 2 :=
      Real.arccos_le_pi_div_two.mpr (acosArgument_mem q1 q2).1
    have hpi := Real.pi_lt_d20
    unfold RAD_TO_DEG
    constructor
    · exact mul_nonneg (mul_nonneg (by norm_num) h0) (by norm_num)
    · have h2 : 2 * Real.arccos (acosArgument q1 q2) * 57.29577951308232 ≤
          Real.pi * 57.29577951308232 := by
        have : 2 * Real.arccos (acosArgument q1 q2) ≤ Real.pi := by linarith
        exact mul_le_mul_of_nonneg_right this (by norm_num)
      have h3 : Real.pi * 57.29577951308232 ≤ 180 := by
        have : Real.pi * 57.29577951308232 ≤ 3.14159265358979323847 * 57.29577951308232 :=
          mul_le_mul_of_nonneg_right hpi.le (by norm_num)
        refine le_trans this ?_
        norm_num
      exact le_trans h2 h3
  · unfold CheckStabilityChecked CheckStability
    have hne : flooredDt dt ≠ 0 := (flooredDt_pos dt).ne'
    simp [safeDiv, hne]

/-! ## Quality scorer: claim C20 -/

theorem Clamp01_mono {a b : K} (h : a ≤ b) : Clamp01 a ≤ Clamp01 b := by
  rw [Clamp01_eq_max_min, Clamp01_eq_max_min]
  exact max_le_max le_rfl (min_le_min le_rfl h)

theorem Clamp01_zero : Clamp01 (0 : K) = 0 := by
  unfold Clamp01
  rw [if_neg (lt_irrefl 0), if_neg (not_lt.mpr zero_le_one)]

theorem screenCenter_eq (screenWidth screenHeight : K) :
    ({ x := screenWidth * 0.5, y := screenHeight * 0.5 } : Float2 K) =
      { x := screenWidth / 2, y := screenHeight / 2 } := by
  apply Float2.ext <;> simp only <;> norm_num <;> ring

/-- C20: with `screenHeight ≠ 0` and two visible positions `p`, `p2` (non-negative
coordinates), if `p` is at least as close to the screen centre `(screenWidth / 2,
screenHeight / 2)` as `p2` then the score at `p` is at least the score at `p2`; and once the
squared distance to the centre reaches `(screenHeight / 2)^2` the centre term contributes 0,
leaving `0.6 * angleScore`. -/
theorem C20_centre_deviation (camPos camFwd imgPos imgUp : Float3 K) (p p2 : Float2 K)
    (screenWidth screenHeight : K) (hH : screenHeight ≠ 0)
    (hp : 0 ≤ p.x ∧ 0 ≤ p.y) (hp2 : 0 ≤ p2.x ∧ 0 ≤ p2.y) :
    (DistSq2 p { x := screenWidth / 2, y := screenHeight / 2 } ≤
        DistSq2 p2 { x := screenWidth / 2, y := screenHeight / 2 } →
      CalculateQuality camPos camFwd imgPos imgUp p2 screenWidth screenHeight ≤
        CalculateQuality camPos camFwd imgPos imgUp p screenWidth screenHeight) ∧
    ((screenHeight / 2) ^ 2 ≤ DistSq2 p { x := screenWidth / 2, y := screenHeight / 2 } →
      CalculateQuality camPos camFwd imgPos imgUp p screenWidth screenHeight =
        0.6 * Clamp01 (Dot imgUp { x := -camFwd.x, y := -camFwd.y, z := -camFwd.z })) := by
  have hv : ¬ (p.x < 0 ∨ p.y < 0) := by
    push_neg; exact hp
  have hv2 : ¬ (p2.x < 0 ∨ p2.y < 0) := by
    push_neg; exact hp2
  have hs : 0 < screenHeight * 0.5 * (screenHeight * 0.5) := by
    have : screenHeight * (0.5 : K) ≠ 0 := mul_ne_zero hH (by norm_num)
    exact mul_self_pos.mpr this
  have hsq : screenHeight * 0.5 * (screenHeight * 0.5) = (screenHeight / 2) ^ 2 := by
    norm_num; ring
  have hdist : (0 : K) ≤ 0.4 * (if DistSq3 camPos imgPos < 0.04 ∨ DistSq3 camPos imgPos > 1
      then (0.5 : K) else 1) := by
    split_ifs <;> norm_num
  unfold CalculateQuality
  simp only [hv, hv2, if_false, screenCenter_eq]
  constructor
  · intro hd
    have h1 : 1 - DistSq2 p2 { x := screenWidth / 2, y := screenHeight / 2 } /
          (screenHeight * 0.5 * (screenHeight * 0.5)) ≤
        1 - DistSq2 p { x := screenWidth / 2, y := screenHeight / 2 } /
          (screenHeight * 0.5 * (screenHeight * 0.5)) :=
      sub_le_sub_left (div_le_div_of_nonneg_right hd hs.le) 1
    have h2 := mul_le_mul_of_nonneg_right (Clamp01_mono h1) hdist
    linarith
  · intro hd
    have h1 : 1 - DistSq2 p { x := screenWidth / 2, y := screenHeight / 2 } /
        (screenHeight * 0.5 * (screenHeight * 0.5)) ≤ 0 := by
      rw [sub_nonpos, le_div_iff₀ hs, one_mul, hsq]
      exact hd
    have h2 : Clamp01 (1 - DistSq2 p { x := screenWidth / 2, y := screenHeight / 2 } /
        (screenHeight * 0.5 * (screenHeight * 0.5))) = 0 :=
      le_antisymm (le_trans (Clamp01_mono h1) Clamp01_zero.le) (Clamp01_nonneg _)
    rw [h2]
    ring

/-- Witness of C20 on a 1920x1080 screen: the centre `(960, 540)` scores at least as much as
the point `(960, 0)` on the upper edge, where the centre term has dropped to 0. -/
theorem C20_centre_deviation_witness :
    CalculateQuality (K := ℚ) ⟨0, 0, 0⟩ ⟨0, 0, -1⟩ ⟨0, 0, 1 / 2⟩ ⟨0, 0, 1⟩ ⟨960, 0⟩
        1920 1080 ≤
      CalculateQuality (K := ℚ) ⟨0, 0, 0⟩ ⟨0, 0, -1⟩ ⟨0, 0, 1 / 2⟩ ⟨0, 0, 1⟩ ⟨960, 540⟩
        1920 1080 ∧
    CalculateQuality (K := ℚ) ⟨0, 0, 0⟩ ⟨0, 0, -1⟩ ⟨0, 0, 1 / 2⟩ ⟨0, 0, 1⟩ ⟨960, 0⟩
        1920 1080 =
      0.6 * Clamp01 (Dot (⟨0, 0, 1⟩ : Float3 ℚ) ⟨-0, -0, - -1⟩) :=
  ⟨(C20_centre_deviation (K := ℚ) ⟨0, 0, 0⟩ ⟨0, 0, -1⟩ ⟨0, 0, 1 / 2⟩ ⟨0, 0, 1⟩ ⟨960, 540⟩
      ⟨960, 0⟩ 1920 1080 (by norm_num) ⟨by norm_num, by norm_num⟩
      ⟨by norm_num, by norm_num⟩).1 (by decide!),
    (C20_centre_deviation (K := ℚ) ⟨0, 0, 0⟩ ⟨0, 0, -1⟩ ⟨0, 0, 1 / 2⟩ ⟨0, 0, 1⟩ ⟨960, 0⟩
      ⟨960, 540⟩ 1920 1080 (by norm_num) ⟨by norm_num, by norm_num⟩
      ⟨by norm_num, by norm_num⟩).2 (by decide!)⟩

/-! ## Obfuscated database root: claim C21 -/

/-- C21 (the code departs from the claim): on the first call `GetDBRoot` leaves in its
buffer a 60-byte string that differs from the documented URL at 20 positions (`o`, `l`, `k`,
`i`, `d`, `n`, `m` are stored with a wrong byte) and ends with the extra byte `0x99`, because
the stored terminator `0x00` is XORed too. -/
theorem C21_stored_url_differs :
    cString (GetDBRoot initialDbRootBuffer) =
      [104, 116, 116, 112, 115, 58, 47, 47, 97, 114, 99, 127, 124, 127, 114, 98, 127, 127,
        123, 45, 118, 97, 124, 121, 68, 97, 116, 121, 127, 126, 45, 68, 101, 102, 97, 117,
        124, 116, 45, 114, 116, 68, 98, 46, 102, 121, 114, 101, 98, 97, 115, 101, 121, 127,
        46, 99, 127, 125, 47, 153] ∧
    documentedUrl =
      [104, 116, 116, 112, 115, 58, 47, 47, 97, 114, 99, 111, 108, 111, 114, 98, 111, 111,
        107, 45, 118, 97, 108, 105, 100, 97, 116, 105, 111, 110, 45, 100, 101, 102, 97, 117,
        108, 116, 45, 114, 116, 100, 98, 46, 102, 105, 114, 101, 98, 97, 115, 101, 105, 111,
        46, 99, 111, 109, 47] ∧
    cString (GetDBRoot initialDbRootBuffer) ≠ documentedUrl := by
  refine ⟨by decide!, by decide!, by decide!⟩

/-! ## Invoice hash: claim C22 -/

theorem hashLoop_append_nul (signedChar : Bool) (s rest : List ℕ) (hs : ∀ b ∈ s, b ≠ 0) :
    ∀ hash, hashLoop signedChar hash (s ++ 0 :: rest) = s.foldl (hashStep signedChar) hash := by
  induction s with
  | nil => intro hash; simp [hashLoop]
  | cons b t ih =>
    intro hash
    have hb : b ≠ 0 := hs b (List.mem_cons_self _ _)
    rw [List.cons_append, hashLoop, if_neg hb, List.foldl_cons]
    exact ih (fun c hc => hs c (List.mem_cons_of_mem _ hc)) _

theorem hashStep_eq_djb2 (signedChar : Bool) (hash b : ℕ)
    (hb : signedChar = false ∨ b < 128) :
    hashStep signedChar hash b = (33 * hash + b) % 2 ^ 64 := by
  have hc : ¬ (signedChar = true ∧ 128 ≤ b) := by
    rintro ⟨h1, h2⟩
    rcases hb with h | h
    · rw [h] at h1; exact Bool.false_ne_true h1
    · omega
  unfold hashStep charToInt
  rw [if_neg hc, Nat.shiftLeft_eq]
  have e : ((b : ℤ) % 2 ^ 64).toNat = b % 2 ^ 64 := by
    have : ((b : ℤ) % 2 ^ 64) = ((b % 2 ^ 64 : ℕ) : ℤ) := by push_cast; rfl
    rw [this, Int.toNat_natCast]
  rw [e]
  norm_num
  omega

theorem foldl_hashStep_eq_djb2 (signedChar : Bool) (l : List ℕ)
    (hl : ∀ b ∈ l, signedChar = false ∨ b < 128) :
    ∀ hash, l.foldl (hashStep signedChar) hash =
      l.foldl (fun h c => (33 * h + c) % 2 ^ 64) hash := by
  induction l with
  | nil => intro hash; rfl
  | cons b t ih =>
    intro hash
    rw [List.foldl_cons, List.foldl_cons,
      hashStep_eq_djb2 signedChar hash b (hl b (List.mem_cons_self _ _))]
    exact ih (fun c hc => hl c (List.mem_cons_of_mem _ hc)) _

theorem saltBytes_nonzero : ∀ b ∈ saltBytes, b ≠ 0 := by decide

theorem saltBytes_ascii : ∀ b ∈ saltBytes, b < 128 := by decide

theorem HashInvoice_salt (stray : ℕ) :
    ((List.range 20).map fun i => (encSalt.getD i stray ^^^ 0x99) % 256) =
      saltBytes ++ 0 :: [(stray ^^^ 0x99) % 256] := by
  have e : List.range 20 =
      [0, 1, 2, 3, 4, 5, 6, 7, 8, 9, 10, 11, 12, 13, 14, 15, 16, 17, 18, 19] := by decide
  have e2 : saltBytes = [70, 69, 76, 73, 78, 65, 95, 50, 48, 50, 53, 95, 83, 69, 67, 85, 82,
      69] := by decide
  rw [e, e2]
  simp only [List.map, encSalt, List.getD_cons_zero, List.getD_cons_succ, List.getD_nil,
    List.cons_append, List.nil_append]
  rfl

theorem GenerateHashInternal_salt (junk : ℕ) :
    (((List.range encSalt.length).map fun i => (encSalt.getD i 0 ^^^ 0x99) % 256) ++ [junk]) =
      saltBytes ++ 0 :: [junk] := by
  rfl

/-- Both hash functions fold the hash step over the invoice bytes and then over the 18 salt
bytes. -/
theorem HashInvoice_eq_foldl (signedChar : Bool) (stray : ℕ) (s rest : List ℕ)
    (hs : ∀ b ∈ s, b ≠ 0) :
    HashInvoice signedChar stray (s ++ 0 :: rest) =
      (s ++ saltBytes).foldl (hashStep signedChar) 5381 := by
  unfold HashInvoice
  simp only
  rw [HashInvoice_salt, hashLoop_append_nul signedChar s rest hs,
    hashLoop_append_nul signedChar saltBytes _ saltBytes_nonzero, List.foldl_append]

theorem GenerateHashInternal_eq_foldl (signedChar : Bool) (junk : ℕ) (s rest : List ℕ)
    (hs : ∀ b ∈ s, b ≠ 0) :
    GenerateHashInternal signedChar junk (s ++ 0 :: rest) =
      (s ++ saltBytes).foldl (hashStep signedChar) 5381 := by
  unfold GenerateHashInternal
  simp only
  rw [GenerateHashInternal_salt, hashLoop_append_nul signedChar s rest hs,
    hashLoop_append_nul signedChar saltBytes _ saltBytes_nonzero, List.foldl_append]

/-- C22 fails as stated: where `char` is signed, the two-byte invoice `C3 A9` (the UTF-8
encoding of an accented letter) is hashed with sign-extended values `c = -61` and `c = -87`,
so `HashInvoice` differs from the DJB2 hash of the bytes followed by the salt. -/
theorem C22_counterexample :
    (∀ b ∈ [195, 169], b ≠ 0 ∧ b < 256) ∧
    HashInvoice true 0 ([195, 169] ++ 0 :: []) ≠ djb2 ([195, 169] ++ saltBytes) := by
  refine ⟨by decide, by decide!⟩

/-- C22, amended: for every NUL-terminated invoice string `s`, `HashInvoice` and
`GenerateHashInternal` return the same value (whatever lies after the terminator, beyond
`encSalt` or in the unwritten `salt[19]`); and when `char` is unsigned, or every byte of `s`
is below `0x80`, that value is the DJB2 hash modulo `2 ^ 64`, from seed 5381 by
`h <- 33 * h + c`, of the bytes of `s` followed by the 18 bytes of `FELINA_2025_SECURE`. -/
theorem C22_salted_djb2 (signedChar : Bool) (stray junk : ℕ) (s rest : List ℕ)
    (hs : ∀ b ∈ s, b ≠ 0 ∧ b < 256) :
    HashInvoice signedChar stray (s ++ 0 :: rest) =
      GenerateHashInternal signedChar junk (s ++ 0 :: rest) ∧
    ((signedChar = false ∨ ∀ b ∈ s, b < 128) →
      HashInvoice signedChar stray (s ++ 0 :: rest) = djb2 (s ++ saltBytes)) := by
  have hs0 : ∀ b ∈ s, b ≠ 0 := fun b hb => (hs b hb).1
  refine ⟨?_, fun h => ?_⟩
  · rw [HashInvoice_eq_foldl signedChar stray s rest hs0,
      GenerateHashInternal_eq_foldl signedChar junk s rest hs0]
  · rw [HashInvoice_eq_foldl signedChar stray s rest hs0]
    unfold djb2
    apply foldl_hashStep_eq_djb2
    intro b hb
    rcases List.mem_append.mp hb with h1 | h1
    · rcases h with h | h
      · exact Or.inl h
      · exact Or.inr (h b h1)
    · exact Or.inr (saltBytes_ascii b h1)

/-- Witness of C22 (amended): the invoice `INV-2025-001` on a platform with signed `char`. -/
theorem C22_salted_djb2_witness :
    HashInvoice true 0 (sampleInvoice ++ 0 :: []) =
      GenerateHashInternal true 0 (sampleInvoice ++ 0 :: []) ∧
    HashInvoice true 0 (sampleInvoice ++ 0 :: []) = djb2 (sampleInvoice ++ saltBytes) :=
  have h := C22_salted_djb2 true 0 0 sampleInvoice [] (by decide)
  ⟨h.1, h.2 (Or.inr (by decide))⟩

/-! ## Speed limits of the stability classifier: claims C23, C24 -/

/-- C23: `CheckStability` depends on `maxMoveSpeed` only through its square, so a negative
move-speed limit is accepted as if it were its absolute value. -/
theorem C23_move_limit_sign_ignored (acos : K → K) (curPos : Float3 K) (curRot : Float4 K)
    (lastPos : Float3 K) (lastRot : Float4 K) (dt maxMoveSpeed maxRotSpeed : K) :
    CheckStability acos curPos curRot lastPos lastRot dt maxMoveSpeed maxRotSpeed =
      CheckStability acos curPos curRot lastPos lastRot dt (-maxMoveSpeed) maxRotSpeed := by
  unfold CheckStability
  simp only [neg_mul_neg]

/-- C24: if `CheckStability` returns `true` with limits `(m, r)`, `m ≥ 0`, then it returns
`true` with every `(m2, r2)` such that `m2 ≥ m` and `r2 ≥ r`. -/
theorem C24_monotone_in_limits (acos : K → K) (curPos : Float3 K) (curRot : Float4 K)
    (lastPos : Float3 K) (lastRot : Float4 K) (dt m r m2 r2 : K) (hm : 0 ≤ m)
    (hm2 : m ≤ m2) (hr2 : r ≤ r2)
    (h : CheckStability acos curPos curRot lastPos lastRot dt m r = true) :
    CheckStability acos curPos curRot lastPos lastRot dt m2 r2 = true := by
  unfold CheckStability at h ⊢
  simp only [Bool.and_eq_true, decide_eq_true_eq] at h ⊢
  obtain ⟨h1, h2⟩ := h
  refine ⟨le_trans h1 (mul_le_mul hm2 hm2 hm (le_trans hm hm2)),
    le_trans h2 (mul_le_mul_of_nonneg_right hr2 (flooredDt_pos dt).le)⟩

theorem sample_pose_stable :
    CheckStability (K := ℝ) Real.arccos ⟨1, 2, 3⟩ ⟨0, 0, 0, 1⟩ ⟨1, 2, 3⟩ ⟨0, 0, 0, 1⟩
      (1 / 60) 1 90 = true := by
  have ha : angleDeg Real.arccos (⟨0, 0, 0, 1⟩ : Float4 ℝ) ⟨0, 0, 0, 1⟩ = 0 :=
    angleDeg_of_one_le_dot Real.arccos Real.arccos_one _ _ (by norm_num)
  unfold CheckStability
  simp only [ha, sub_self, mul_zero, zero_mul, add_zero, Bool.and_eq_true, decide_eq_true_eq]
  exact ⟨by norm_num, mul_nonneg (by norm_num) (flooredDt_pos _).le⟩

/-- Witness of C24 over the reals: a pose pair that is stable under the limits `(1, 90)`
is stable under `(2, 180)`. -/
theorem C24_monotone_in_limits_witness :
    CheckStability (K := ℝ) Real.arccos ⟨1, 2, 3⟩ ⟨0, 0, 0, 1⟩ ⟨1, 2, 3⟩ ⟨0, 0, 0, 1⟩
      (1 / 60) 2 180 = true :=
  C24_monotone_in_limits Real.arccos ⟨1, 2, 3⟩ ⟨0, 0, 0, 1⟩ ⟨1, 2, 3⟩ ⟨0, 0, 0, 1⟩ (1 / 60)
    1 90 2 180 (by norm_num) (by norm_num) (by norm_num)
    sample_pose_stable

/-! ## Binary32: rounding -/

namespace F32

theorem log2Fuel_spec : ∀ (fuel n : ℕ), 0 < n → n ≤ fuel →
    2 ^ log2Fuel fuel n ≤ n ∧ n < 2 ^ (log2Fuel fuel n + 1) := by
  intro fuel
  induction fuel with
  | zero => intro n h1 h2; omega
  | succ f ih =>
    intro n h1 h2
    unfold log2Fuel
    split_ifs with h
    · have : n = 1 := by omega
      subst this; simp
    · have h3 : 0 < n / 2 := Nat.div_pos (by omega) (by norm_num)
      have h4 : n / 2 ≤ f := by omega
      obtain ⟨a, b⟩ := ih (n / 2) h3 h4
      rw [pow_succ, pow_succ]
      generalize 2 ^ log2Fuel f (n / 2) = p at a b
      rw [pow_succ] at b
      constructor <;> omega

theorem two_zpow_pos (e : ℤ) : (0 : ℚ) < 2 ^ e := zpow_pos (by norm_num) e

theorem two_zpow_succ (e : ℤ) : (2 : ℚ) ^ (e + 1) = 2 * 2 ^ e := by
  rw [zpow_add_one₀ (by norm_num)]; ring

theorem two_zpow_mono {a b : ℤ} (h : a ≤ b) : (2 : ℚ) ^ a ≤ 2 ^ b :=
  zpow_le_zpow_right₀ (by norm_num) h

theorem exponent_spec {m : ℚ} (hm : 0 < m) :
    -126 ≤ exponent m ∧ ((2 : ℚ) ^ exponent m ≤ m ∨ exponent m = -126) ∧
      m < (2 : ℚ) ^ (exponent m + 1) := by
  have hnum : 0 < m.num := Rat.num_pos.mpr hm
  have ha0 : 0 < m.num.natAbs := Int.natAbs_pos.mpr hnum.ne'
  have hb0 : 0 < m.den := m.den_pos
  have hm_eq : m = (m.num.natAbs : ℚ) / (m.den : ℚ) := by
    have h2 : ((m.num.natAbs : ℕ) : ℚ) = (m.num : ℚ) := by
      rw [← Int.cast_natCast, Int.natAbs_of_nonneg hnum.le]
    rw [h2]; exact (Rat.num_div_den m).symm
  obtain ⟨la1, la2⟩ := log2Fuel_spec _ _ ha0 le_rfl
  obtain ⟨lb1, lb2⟩ := log2Fuel_spec _ _ hb0 le_rfl
  unfold exponent
  simp only []
  generalize log2Fuel m.num.natAbs m.num.natAbs = la at la1 la2 ⊢
  generalize log2Fuel m.den m.den = lb at lb1 lb2 ⊢
  have A1 : (2 : ℚ) ^ la ≤ (m.num.natAbs : ℚ) := by exact_mod_cast la1
  have A2 : (m.num.natAbs : ℚ) < 2 ^ (la + 1) := by exact_mod_cast la2
  have B1 : (2 : ℚ) ^ lb ≤ (m.den : ℚ) := by exact_mod_cast lb1
  have B2 : (m.den : ℚ) < 2 ^ (lb + 1) := by exact_mod_cast lb2
  have hbq : (0 : ℚ) < (m.den : ℚ) := by exact_mod_cast hb0
  have e1 : (2 : ℚ) ^ ((la : ℤ) - (lb : ℤ)) * 2 ^ lb = 2 ^ la := by
    rw [← zpow_natCast, ← zpow_natCast, ← zpow_add₀ (by norm_num)]; congr 1; ring
  have up : m < (2 : ℚ) ^ ((la : ℤ) - (lb : ℤ) + 1) := by
    rw [two_zpow_succ, hm_eq, div_lt_iff₀ hbq]
    have h3 : (2 : ℚ) ^ ((la : ℤ) - (lb : ℤ)) * 2 ^ lb ≤ 2 ^ ((la : ℤ) - (lb : ℤ)) * m.den :=
      mul_le_mul_of_nonneg_left B1 (two_zpow_pos _).le
    rw [pow_succ] at A2
    nlinarith
  have lo : (2 : ℚ) ^ ((la : ℤ) - (lb : ℤ)) < 2 * m := by
    rw [hm_eq, mul_div_assoc', lt_div_iff₀ hbq]
    have h3 : (2 : ℚ) ^ ((la : ℤ) - (lb : ℤ)) * m.den < 2 ^ ((la : ℤ) - (lb : ℤ)) * 2 ^ (lb + 1) :=
      mul_lt_mul_of_pos_left B2 (two_zpow_pos _)
    rw [pow_succ, ← mul_assoc, e1] at h3
    nlinarith
  generalize (la : ℤ) - (lb : ℤ) = e0 at up lo ⊢
  have key : ∀ e : ℤ, (2 : ℚ) ^ e ≤ m → m < 2 ^ (e + 1) →
      -126 ≤ max e (-126) ∧ ((2 : ℚ) ^ max e (-126) ≤ m ∨ max e (-126) = -126) ∧
      m < (2 : ℚ) ^ (max e (-126) + 1) := by
    intro e h1 h2
    refine ⟨le_max_right _ _, ?_, ?_⟩
    · rcases le_total e (-126) with h | h
      · right; exact max_eq_right h
      · left; rw [max_eq_left h]; exact h1
    · exact lt_of_lt_of_le h2 (two_zpow_mono (by have := le_max_left e (-126); omega))
  split_ifs with h
  · exact key e0 h up
  · refine key (e0 - 1) ?_ ?_
    · have := two_zpow_succ (e0 - 1)
      rw [sub_add_cancel] at this
      rw [this] at lo; linarith
    · rw [sub_add_cancel]; exact lt_of_not_le h

theorem exponent_unique {v : ℚ} {k : ℤ} (hv : 0 < v) (hk : -126 ≤ k)
    (h1 : (2 : ℚ) ^ k ≤ v ∨ k = -126) (h2 : v < (2 : ℚ) ^ (k + 1)) : exponent v = k := by
  obtain ⟨s1, s2, s3⟩ := exponent_spec hv
  rcases lt_trichotomy (exponent v) k with h | h | h
  · exfalso
    have h4 : v < (2 : ℚ) ^ k := lt_of_lt_of_le s3 (two_zpow_mono (by omega))
    rcases h1 with h1 | h1
    · exact absurd h1 (not_le.mpr h4)
    · omega
  · exact h
  · exfalso
    have h4 : (2 : ℚ) ^ (k + 1) ≤ 2 ^ exponent v := two_zpow_mono (by omega)
    rcases s2 with s2 | s2
    · exact absurd (lt_of_lt_of_le h2 (h4.trans s2)) (lt_irrefl _)
    · omega

theorem roundHalfEven_natCast (n : ℕ) : roundHalfEven (n : ℚ) = n := by
  unfold roundHalfEven
  simp

theorem roundHalfEven_le {x : ℚ} (hx : 0 ≤ x) : (roundHalfEven x : ℚ) ≤ x + 1 / 2 := by
  have h1 := Nat.floor_le hx
  have h2 := Nat.lt_floor_add_one x
  unfold roundHalfEven
  simp only []
  split_ifs <;> push_cast <;> linarith

theorem le_roundHalfEven {x : ℚ} (hx : 0 ≤ x) : x - 1 / 2 ≤ (roundHalfEven x : ℚ) := by
  have h1 := Nat.floor_le hx
  have h2 := Nat.lt_floor_add_one x
  unfold roundHalfEven
  simp only []
  split_ifs <;> push_cast <;> linarith

theorem roundHalfEven_of_nonpos {x : ℚ} (hx : x ≤ 0) : roundHalfEven x = 0 := by
  unfold roundHalfEven
  have h : ⌊x⌋₊ = 0 := Nat.floor_of_nonpos hx
  simp only [h]
  have : x - ((0 : ℕ) : ℚ) < 1 / 2 := by push_cast; linarith
  rw [if_pos this]

theorem natCast_le_roundHalfEven {x : ℚ} {a : ℕ} (hx : 0 ≤ x) (h : (a : ℚ) ≤ x) :
    a ≤ roundHalfEven x := by
  have h1 := le_roundHalfEven hx
  have h2 : (a : ℚ) < (roundHalfEven x : ℚ) + 1 := by linarith
  have h3 : a < roundHalfEven x + 1 := by exact_mod_cast h2
  omega

theorem roundHalfEven_le_natCast {x : ℚ} {b : ℕ} (hx : 0 ≤ x) (h : x ≤ (b : ℚ)) :
    roundHalfEven x ≤ b := by
  have h1 := roundHalfEven_le hx
  have h2 : (roundHalfEven x : ℚ) < (b : ℚ) + 1 := by linarith
  have h3 : roundHalfEven x < b + 1 := by exact_mod_cast h2
  omega

theorem roundMag_nonneg {m v : ℚ} (h : roundMag m = some v) : 0 ≤ v := by
  unfold roundMag at h
  simp only [] at h
  split_ifs at h
  injection h with h
  rw [← h]
  exact mul_nonneg (Nat.cast_nonneg _) (two_zpow_pos _).le

theorem roundMag_of_nonpos {m : ℚ} (hm : m ≤ 0) : roundMag m = some 0 := by
  unfold roundMag
  simp only []
  have : m / 2 ^ (exponent m - 23) ≤ 0 := div_nonpos_of_nonpos_of_nonneg hm (two_zpow_pos _).le
  rw [roundHalfEven_of_nonpos this]
  simp [two_zpow_pos]

/-- A magnitude `n * 2 ^ (e - 23)` with `n < 2 ^ 24`, normalised or at the lowest exponent,
is representable: rounding returns it. -/
theorem roundMag_repr {n : ℕ} {e : ℤ} (hn0 : 0 < n) (hn : n < 2 ^ 24) (he : -126 ≤ e)
    (hne : 2 ^ 23 ≤ n ∨ e = -126) (hv : (n : ℚ) * 2 ^ (e - 23) < 2 ^ (128 : ℤ)) :
    roundMag ((n : ℚ) * 2 ^ (e - 23)) = some ((n : ℚ) * 2 ^ (e - 23)) := by
  have hu := two_zpow_pos (e - 23)
  have hnq : (0 : ℚ) < n := by exact_mod_cast hn0
  have hpos : (0 : ℚ) < (n : ℚ) * 2 ^ (e - 23) := mul_pos hnq hu
  have e23 : (2 : ℚ) ^ e = 2 ^ 23 * 2 ^ (e - 23) := by
    rw [← zpow_natCast, ← zpow_add₀ (by norm_num)]; congr 1; ring
  have e24 : (2 : ℚ) ^ (e + 1) = 2 ^ 24 * 2 ^ (e - 23) := by
    rw [← zpow_natCast, ← zpow_add₀ (by norm_num)]; congr 1; ring
  have hexp : exponent ((n : ℚ) * 2 ^ (e - 23)) = e := by
    apply exponent_unique hpos he
    · rcases hne with h | h
      · left
        rw [e23]
        have : ((2 ^ 23 : ℕ) : ℚ) ≤ n := by exact_mod_cast h
        push_cast at this
        exact mul_le_mul_of_nonneg_right this hu.le
      · right; exact h
    · rw [e24]
      have : (n : ℚ) < ((2 ^ 24 : ℕ) : ℚ) := by exact_mod_cast hn
      push_cast at this
      exact mul_lt_mul_of_pos_right this hu
  unfold roundMag
  simp only [hexp]
  rw [mul_div_assoc, div_self hu.ne', mul_one, roundHalfEven_natCast, if_pos hv]

theorem roundMag_zero : roundMag 0 = some 0 := roundMag_of_nonpos le_rfl

/-- The result of rounding is representable: rounding is idempotent. -/
theorem roundMag_idem {m v : ℚ} (h : roundMag m = some v) : roundMag v = some v := by
  rcases le_or_lt m 0 with hm | hm
  · rw [roundMag_of_nonpos hm] at h
    injection h with h
    rw [← h]; exact roundMag_zero
  obtain ⟨s1, s2, s3⟩ := exponent_spec hm
  unfold roundMag at h
  simp only [] at h
  split_ifs at h with hlt
  injection h with h
  have hu := two_zpow_pos (exponent m - 23)
  have hx0 : 0 ≤ m / 2 ^ (exponent m - 23) := (div_pos hm hu).le
  have e24 : (2 : ℚ) ^ (exponent m + 1) = 2 ^ 24 * 2 ^ (exponent m - 23) := by
    rw [← zpow_natCast, ← zpow_add₀ (by norm_num)]; congr 1; ring
  have e23 : (2 : ℚ) ^ exponent m = 2 ^ 23 * 2 ^ (exponent m - 23) := by
    rw [← zpow_natCast, ← zpow_add₀ (by norm_num)]; congr 1; ring
  have hub : roundHalfEven (m / 2 ^ (exponent m - 23)) ≤ 2 ^ 24 := by
    apply roundHalfEven_le_natCast hx0
    rw [div_le_iff₀ hu]
    push_cast
    norm_num at e24
    rw [← e24]; exact s3.le
  have hlb : (2 : ℚ) ^ exponent m ≤ m → 2 ^ 23 ≤ roundHalfEven (m / 2 ^ (exponent m - 23)) := by
    intro h4
    apply natCast_le_roundHalfEven hx0
    rw [le_div_iff₀ hu]
    push_cast
    norm_num at e23
    rw [← e23]; exact h4
  subst h
  generalize roundHalfEven (m / 2 ^ (exponent m - 23)) = n at hub hlt hlb ⊢
  rcases Nat.eq_zero_or_pos n with hn0 | hn0
  · subst hn0; simp [roundMag_zero]
  rcases Nat.lt_or_ge n (2 ^ 24) with hn | hn
  · refine roundMag_repr hn0 hn s1 ?_ hlt
    rcases s2 with s2 | s2
    · left; exact hlb s2
    · right; exact s2
  · have hn' : n = 2 ^ 24 := le_antisymm hub hn
    subst hn'
    have e' : (((2 ^ 24 : ℕ) : ℚ)) * 2 ^ (exponent m - 23)
        = ((2 ^ 23 : ℕ) : ℚ) * 2 ^ ((exponent m + 1) - 23) := by
      have : (2 : ℚ) ^ ((exponent m + 1) - 23) = 2 * 2 ^ (exponent m - 23) := by
        rw [← two_zpow_succ]; congr 1; ring
      rw [this]; push_cast; ring
    rw [e'] at hlt ⊢
    exact roundMag_repr (by norm_num) (by norm_num) (by omega) (Or.inl le_rfl) hlt

end F32

namespace F32

/-- Rounding moves a magnitude by at most half a unit in the last place; in particular the
result is at most `2 * m + 2 ^ (-149)`. -/
theorem roundMag_le {m v : ℚ} (hm : 0 ≤ m) (h : roundMag m = some v) :
    v ≤ 2 * m + 2 ^ (-149 : ℤ) := by
  rcases hm.eq_or_lt with hm0 | hm
  · rw [← hm0, roundMag_zero] at h
    injection h with h
    rw [← h, ← hm0]; norm_num
  obtain ⟨s1, s2, s3⟩ := exponent_spec hm
  unfold roundMag at h
  simp only [] at h
  split_ifs at h with hlt
  injection h with h
  have hu := two_zpow_pos (exponent m - 23)
  have hx0 : 0 ≤ m / 2 ^ (exponent m - 23) := (div_pos hm hu).le
  have h1 := roundHalfEven_le hx0
  have h2 : v ≤ m + 2 ^ (exponent m - 23) / 2 := by
    rw [← h]
    calc (roundHalfEven (m / 2 ^ (exponent m - 23)) : ℚ) * 2 ^ (exponent m - 23)
        ≤ (m / 2 ^ (exponent m - 23) + 1 / 2) * 2 ^ (exponent m - 23) :=
          mul_le_mul_of_nonneg_right h1 hu.le
      _ = m + 2 ^ (exponent m - 23) / 2 := by field_simp; ring
  rcases s2 with s2 | s2
  · have : (2 : ℚ) ^ (exponent m - 23) ≤ 2 ^ exponent m := two_zpow_mono (by omega)
    have h3 : (0 : ℚ) < 2 ^ (-149 : ℤ) := two_zpow_pos _
    linarith
  · rw [s2] at h2
    have : (2 : ℚ) ^ (-126 - 23 : ℤ) = 2 ^ (-149 : ℤ) := by norm_num
    rw [this] at h2
    have h3 : (0 : ℚ) < 2 ^ (-149 : ℤ) := two_zpow_pos _
    generalize (2 : ℚ) ^ (-149 : ℤ) = a at h2 h3 ⊢
    linarith

/-- Magnitudes below `2 ^ 127` do not overflow. -/
theorem roundMag_isSome {m : ℚ} (hm : m < 2 ^ (127 : ℤ)) : ∃ v, roundMag m = some v := by
  rcases le_or_lt m 0 with h0 | h0
  · exact ⟨0, roundMag_of_nonpos h0⟩
  obtain ⟨s1, s2, s3⟩ := exponent_spec h0
  have hu := two_zpow_pos (exponent m - 23)
  have hx0 : 0 ≤ m / 2 ^ (exponent m - 23) := (div_pos h0 hu).le
  have h1 := roundHalfEven_le hx0
  have he : exponent m ≤ 126 := by
    rcases s2 with s2 | s2
    · have : (2 : ℚ) ^ exponent m < 2 ^ (127 : ℤ) := lt_of_le_of_lt s2 hm
      have := (zpow_lt_zpow_iff_right₀ (by norm_num : (1 : ℚ) < 2)).mp this
      omega
    · omega
  have h2 : (roundHalfEven (m / 2 ^ (exponent m - 23)) : ℚ) * 2 ^ (exponent m - 23)
      ≤ m + 2 ^ (exponent m - 23) / 2 := by
    calc (roundHalfEven (m / 2 ^ (exponent m - 23)) : ℚ) * 2 ^ (exponent m - 23)
        ≤ (m / 2 ^ (exponent m - 23) + 1 / 2) * 2 ^ (exponent m - 23) :=
          mul_le_mul_of_nonneg_right h1 hu.le
      _ = m + 2 ^ (exponent m - 23) / 2 := by field_simp; ring
  have h3 : (2 : ℚ) ^ (exponent m - 23) ≤ 2 ^ (103 : ℤ) := two_zpow_mono (by omega)
  have h4 : (2 : ℚ) ^ (127 : ℤ) + 2 ^ (103 : ℤ) / 2 < 2 ^ (128 : ℤ) := by norm_num
  have hlt : (roundHalfEven (m / 2 ^ (exponent m - 23)) : ℚ) * 2 ^ (exponent m - 23)
      < 2 ^ (128 : ℤ) := by linarith
  exact ⟨_, by unfold roundMag; simp only []; rw [if_pos hlt]⟩

end F32
/-! ## Binary32: operations -/

namespace F32

theorem add_def (x y : F32) : x + y = add x y := rfl
theorem sub_def (x y : F32) : x - y = add x (neg y) := rfl
theorem mul_def (x y : F32) : x * y = mul x y := rfl
theorem div_def (x y : F32) : x / y = div x y := rfl
theorem neg_def (x : F32) : -x = neg x := rfl
theorem zero_def : (0 : F32) = fin false 0 := rfl
theorem one_def : (1 : F32) = fin false 1 := rfl
theorem two_def : (2 : F32) = fin false 2 := rfl

theorem round_zero (s : Bool) : round s 0 = fin s 0 := by
  unfold round; rw [roundMag_zero]

theorem roundMag_one : roundMag 1 = some 1 := by decide!

theorem round_of_isFloat {s : Bool} {m : ℚ} (h : (fin s m).isFloat = true) :
    round s m = fin s m := by
  simp only [isFloat, Bool.and_eq_true, decide_eq_true_eq] at h
  unfold round; rw [h.2]

theorem isFloat_round (s : Bool) (m : ℚ) : (round s m).isFloat = true := by
  unfold round
  cases h : roundMag m with
  | none => rfl
  | some v =>
    simp only [isFloat, Bool.and_eq_true, decide_eq_true_eq]
    exact ⟨roundMag_nonneg h, roundMag_idem h⟩

theorem isFloat_zero (s : Bool) : (fin s 0).isFloat = true := by
  simp [isFloat, roundMag_zero]

theorem isFloat_add (x y : F32) : (x + y).isFloat = true := by
  rw [add_def]
  cases x <;> cases y <;> simp only [add] <;> try rfl
  · split_ifs
    · exact isFloat_zero _
    · exact isFloat_round _ _
  · split_ifs <;> rfl

theorem isFloat_neg {x : F32} (h : x.isFloat = true) : (-x).isFloat = true := by
  rw [neg_def]
  cases x with
  | fin s m => exact h
  | inf s => rfl
  | nan => rfl

theorem isFloat_sub (x y : F32) : (x - y).isFloat = true := by
  rw [sub_def, ← add_def]; exact isFloat_add _ _

theorem isFloat_mul (x y : F32) : (x * y).isFloat = true := by
  rw [mul_def]
  cases x <;> cases y <;> simp only [mul] <;> try rfl
  · exact isFloat_round _ _
  · split_ifs <;> rfl
  · split_ifs <;> rfl

theorem isFloat_div (x y : F32) : (x / y).isFloat = true := by
  rw [div_def]
  cases x <;> cases y <;> simp only [div] <;> try rfl
  · split_ifs
    · rfl
    · rfl
    · exact isFloat_round _ _
  · exact isFloat_zero _

theorem mul_one_float {x : F32} (h : x.isFloat = true) : x * 1 = x := by
  rw [mul_def, one_def]
  cases x with
  | fin s m => simp only [mul, Bool.xor_false, mul_one]; exact round_of_isFloat h
  | inf s => simp [mul]
  | nan => rfl

end F32

namespace Float32

theorem ComputeUVs_values :
    (ComputeUVs 0).x = 0 ∧ (ComputeUVs 0).y = 0 ∧ (ComputeUVs 1).x = 1 ∧ (ComputeUVs 1).y = 0 ∧
    (ComputeUVs 2).x = 1 ∧ (ComputeUVs 2).y = 1 ∧ (ComputeUVs 3).x = 0 ∧ (ComputeUVs 3).y = 1 := by
  decide!

theorem ComputeTransformMatrix_entries (screenW screenH : F32) (raw : Fin 4 → Float2 F32) :
    ComputeTransformMatrix screenW screenH raw =
      { c0x := coeffH00 (normalizePoints screenW screenH raw) * 1,
        c0y := coeffH10 (normalizePoints screenW screenH raw) * 1,
        c0z := (perspectiveTerms (normalizePoints screenW screenH raw)).1 * 1,
        c0w := 0,
        c1x := coeffH01 (normalizePoints screenW screenH raw) * 1,
        c1y := coeffH11 (normalizePoints screenW screenH raw) * 1,
        c1z := (perspectiveTerms (normalizePoints screenW screenH raw)).2 * 1,
        c1w := 0,
        c2x := -coeffH00 (normalizePoints screenW screenH raw) * 0
          - coeffH01 (normalizePoints screenW screenH raw) * 0
          + (normalizePoints screenW screenH raw 0).x,
        c2y := -coeffH10 (normalizePoints screenW screenH raw) * 0
          - coeffH11 (normalizePoints screenW screenH raw) * 0
          + (normalizePoints screenW screenH raw 0).y,
        c2z := -(perspectiveTerms (normalizePoints screenW screenH raw)).1 * 0
          - (perspectiveTerms (normalizePoints screenW screenH raw)).2 * 0 + 1,
        c2w := 0, c3x := 0, c3y := 0, c3z := 0, c3w := 1 } := by
  obtain ⟨h0x, h0y, h1x, -, -, -, -, h3y⟩ := ComputeUVs_values
  have e1 : (1 : F32) - 0 = 1 := by decide!
  have e2 : F32.beq 1 0 = false := by decide!
  have e3 : (1 : F32) / 1 = 1 := by decide!
  have e4 : (0 : F32) * 1 = 0 := by decide!
  unfold ComputeTransformMatrix coeffH00 coeffH01 coeffH10 coeffH11
  simp only [h0x, h0y, h1x, h3y, e1, e2, e3, e4, Bool.or_self, Bool.false_eq_true, if_false]

end Float32

namespace F32

theorem isFinite_add {a b : F32} (h : (a + b).isFinite = true) :
    a.isFinite = true ∧ b.isFinite = true := by
  rw [add_def] at h
  cases a <;> cases b <;> simp_all [add, isFinite]
  split_ifs at h

theorem isFinite_neg (a : F32) : (-a).isFinite = a.isFinite := by
  rw [neg_def]; cases a <;> rfl

theorem isFinite_sub {a b : F32} (h : (a - b).isFinite = true) :
    a.isFinite = true ∧ b.isFinite = true := by
  rw [sub_def, ← neg_def, ← add_def] at h
  have := isFinite_add h
  rwa [isFinite_neg] at this

/-- The value `-a * 0 - b * 0` of the source is a zero when `a` and `b` are finite. -/
theorem neg_mul_zero_sub {a b : F32} (ha : a.isFinite = true) (hb : b.isFinite = true) :
    ∃ s, -a * 0 - b * 0 = fin s 0 := by
  cases a with
  | fin s x =>
    cases b with
    | fin t y =>
      refine ⟨!s && !t, ?_⟩
      simp [sub_def, mul_def, neg_def, zero_def, neg, mul, add, round_zero, signed]
    | inf t => simp [isFinite] at hb
    | nan => simp [isFinite] at hb
  | inf s => simp [isFinite] at ha
  | nan => simp [isFinite] at ha

/-- The value `-a * 0 - b * 0 + c` of the source is NaN when `a` or `b` is not finite. -/
theorem neg_mul_zero_sub_nan {a b : F32} (h : a.isFinite = false ∨ b.isFinite = false)
    (c : F32) : -a * 0 - b * 0 + c = nan := by
  cases a <;> cases b <;> cases c <;>
    simp_all [sub_def, mul_def, neg_def, add_def, zero_def, neg, mul, add, round_zero, isFinite]

theorem zero_add_one (s : Bool) : fin s 0 + 1 = 1 := by
  rw [add_def, one_def]
  have e : signed s 0 + signed false 1 = 1 := by cases s <;> simp [signed]
  simp only [add, e]
  rw [if_neg one_ne_zero]
  have h : decide ((1 : ℚ) < 0) = false := by simp
  rw [h, abs_one]
  unfold round
  rw [roundMag_one]

theorem zero_add_beq (s : Bool) {x : F32} (hx : x.isFloat = true) (hf : x.isFinite = true) :
    beq (fin s 0 + x) x = true := by
  cases x with
  | fin w c =>
    have hw := round_of_isFloat hx
    simp only [isFloat, Bool.and_eq_true, decide_eq_true_eq] at hx
    rw [add_def]
    simp only [add]
    have e : signed s 0 + signed w c = signed w c := by simp [signed]
    rw [e]
    split_ifs with h0
    · simp [beq, signed, h0]
      simpa [signed] using h0.symm
    · have hc : c ≠ 0 := by
        intro hc; apply h0; simp [signed, hc]
      have hcpos : 0 < c := lt_of_le_of_ne hx.1 (Ne.symm hc)
      cases w with
      | true =>
        have : signed true c = -c := by simp [signed]
        rw [this]
        have h1 : decide (-c < 0) = true := by simpa using hcpos
        rw [h1, abs_neg, abs_of_pos hcpos, hw]
        simp [beq]
      | false =>
        have : signed false c = c := by simp [signed]
        rw [this]
        have h1 : decide (c < 0) = false := by simpa using hcpos.le
        rw [h1, abs_of_pos hcpos, hw]
        simp [beq]
  | inf w => simp [isFinite] at hf
  | nan => simp [isFinite] at hf

end F32

namespace Float32

theorem isFloat_perspectiveTerms (dst : Fin 4 → Float2 F32) :
    (perspectiveTerms dst).1.isFloat = true ∧ (perspectiveTerms dst).2.isFloat = true := by
  unfold perspectiveTerms
  simp only []
  split_ifs
  · exact ⟨F32.isFloat_zero _, F32.isFloat_zero _⟩
  · exact ⟨F32.isFloat_div _ _, F32.isFloat_div _ _⟩

theorem isFloat_normalizePoints (screenW screenH : F32) (raw : Fin 4 → Float2 F32) (i : Fin 4) :
    (normalizePoints screenW screenH raw i).x.isFloat = true ∧
    (normalizePoints screenW screenH raw i).y.isFloat = true :=
  ⟨F32.isFloat_mul _ _, F32.isFloat_mul _ _⟩

/-- The entries of columns `c0`, `c1`, the last row and the last column written by
`ComputeTransformMatrix`. -/
theorem ComputeTransformMatrix_columns (screenW screenH : F32) (raw : Fin 4 → Float2 F32) :
    let M := ComputeTransformMatrix screenW screenH raw
    let p := normalizePoints screenW screenH raw
    (M.c0x = coeffH00 p ∧ M.c0y = coeffH10 p ∧ M.c0z = (perspectiveTerms p).1 ∧ M.c0w = 0) ∧
    (M.c1x = coeffH01 p ∧ M.c1y = coeffH11 p ∧ M.c1z = (perspectiveTerms p).2 ∧ M.c1w = 0) ∧
    M.c2w = 0 ∧ M.c3x = 0 ∧ M.c3y = 0 ∧ M.c3z = 0 ∧ M.c3w = 1 := by
  intro M p
  have hM : M = _ := ComputeTransformMatrix_entries screenW screenH raw
  obtain ⟨f1, f2⟩ := isFloat_perspectiveTerms p
  refine ⟨⟨?_, ?_, ?_, ?_⟩, ⟨?_, ?_, ?_, ?_⟩, ?_, ?_, ?_, ?_, ?_⟩ <;> rw [hM] <;>
    first
      | rfl
      | exact F32.mul_one_float (F32.isFloat_add _ _)
      | exact F32.mul_one_float f1
      | exact F32.mul_one_float f2

/-- The entry `c2z` written by `ComputeTransformMatrix` is `1` when both perspective
coefficients are finite and NaN otherwise. -/
theorem ComputeTransformMatrix_c2z (screenW screenH : F32) (raw : Fin 4 → Float2 F32) :
    let M := ComputeTransformMatrix screenW screenH raw
    let p := normalizePoints screenW screenH raw
    ((perspectiveTerms p).1.isFinite = true → (perspectiveTerms p).2.isFinite = true →
      M.c2z = 1) ∧
    ((perspectiveTerms p).1.isFinite = false ∨ (perspectiveTerms p).2.isFinite = false →
      M.c2z = F32.nan) := by
  intro M p
  have hM : M = _ := ComputeTransformMatrix_entries screenW screenH raw
  constructor
  · intro h1 h2
    obtain ⟨s, hs⟩ := F32.neg_mul_zero_sub h1 h2
    rw [hM]
    show -(perspectiveTerms p).1 * 0 - (perspectiveTerms p).2 * 0 + 1 = 1
    rw [hs, F32.zero_add_one]
  · intro h
    rw [hM]
    exact F32.neg_mul_zero_sub_nan h 1

end Float32

/-! ## Identity completion and the constant source rectangle in binary32: claims C13, C25 -/

/-- C13, counterexample to the claim as stated (`c2z = 1` for every input): on a screen of
height 0 with the corners `(480,270), (1440,270), (1440,810), (480,810)` the code computes
`invH = +inf`, `den = NaN`, and `ComputeTransformMatrix` writes `c2z = NaN`. -/
theorem C13_counterexample :
    (Float32.ComputeTransformMatrix (F32.ofRat 1920) 0 centredRect32).c2z = F32.nan ∧
    (Float32.ComputeTransformMatrix (F32.ofRat 1920) 0 centredRect32).c2z ≠ 1 := by
  decide!

/-- C13 (amended), in binary32 arithmetic: on every branch both solvers write
`c0w = c1w = c2w = 0` and `c3 = (0,0,0,1)` and pack their coefficients column-major.  The
general solver writes the identity on a fallback and `xsol[0..7]` as `c0 = (h00,h10,h20,0)`,
`c1 = (h01,h11,h21,0)`, `c2 = (h02,h12,1,0)` otherwise, so its `c2z` is always `1`.  The
closed-form solver writes `c0 = (h00,h10,h20,0)`, `c1 = (h01,h11,h21,0)`; its `c2z` is the
computed value `-h20 * 0 - h21 * 0 + 1`, which is `1` exactly when both perspective
coefficients are finite and NaN otherwise. -/
theorem C13_identity_completion (src dst : Fin 4 → Float2 F32) (screenW screenH : F32)
    (raw : Fin 4 → Float2 F32) :
    let G := Float32.CalculateHomography src dst
    let M := Float32.ComputeTransformMatrix screenW screenH raw
    let p := Float32.normalizePoints screenW screenH raw
    (Float32.identityCompletion G ∧ G.c2z = 1) ∧
    ((Float32.solveSystem src dst = none ∧ G = Float32.packColumnMajor 1 0 0 0 1 0 0 0) ∨
      ∃ xsol, Float32.solveSystem src dst = some xsol ∧
        G = Float32.packColumnMajor (xsol.getD 0 0) (xsol.getD 1 0) (xsol.getD 2 0)
          (xsol.getD 3 0) (xsol.getD 4 0) (xsol.getD 5 0) (xsol.getD 6 0) (xsol.getD 7 0)) ∧
    Float32.identityCompletion M ∧
    (M.c0x = Float32.coeffH00 p ∧ M.c0y = Float32.coeffH10 p ∧
      M.c0z = (Float32.perspectiveTerms p).1) ∧
    (M.c1x = Float32.coeffH01 p ∧ M.c1y = Float32.coeffH11 p ∧
      M.c1z = (Float32.perspectiveTerms p).2) ∧
    (M.c2z = 1 ↔ ((Float32.perspectiveTerms p).1.isFinite = true ∧
      (Float32.perspectiveTerms p).2.isFinite = true)) ∧
    (M.c2z = 1 ∨ M.c2z = F32.nan) := by
  intro G M p
  have hG : (Float32.solveSystem src dst = none ∧
        G = Float32.packColumnMajor 1 0 0 0 1 0 0 0) ∨
      ∃ xsol, Float32.solveSystem src dst = some xsol ∧
        G = Float32.packColumnMajor (xsol.getD 0 0) (xsol.getD 1 0) (xsol.getD 2 0)
          (xsol.getD 3 0) (xsol.getD 4 0) (xsol.getD 5 0) (xsol.getD 6 0) (xsol.getD 7 0) := by
    show (_ ∧ Float32.CalculateHomography src dst = _) ∨
      ∃ xsol, _ ∧ Float32.CalculateHomography src dst = _
    unfold Float32.CalculateHomography
    cases h : Float32.solveSystem src dst with
    | none => exact Or.inl ⟨rfl, rfl⟩
    | some xsol => exact Or.inr ⟨xsol, rfl, rfl⟩
  obtain ⟨⟨a1, a2, a3, a4⟩, ⟨b1, b2, b3, b4⟩, c1, c2, c3, c4, c5⟩ :=
    Float32.ComputeTransformMatrix_columns screenW screenH raw
  obtain ⟨z1, z2⟩ := Float32.ComputeTransformMatrix_c2z screenW screenH raw
  refine ⟨?_, hG, ⟨a4, b4, c1, c2, c3, c4, c5⟩, ⟨a1, a2, a3⟩, ⟨b1, b2, b3⟩, ?_, ?_⟩
  · rcases hG with ⟨_, h⟩ | ⟨xsol, _, h⟩ <;> rw [h] <;>
      exact ⟨⟨rfl, rfl, rfl, rfl, rfl, rfl, rfl⟩, rfl⟩
  · constructor
    · intro h1
      by_contra hcon
      have h2 : (Float32.perspectiveTerms p).1.isFinite = false ∨
          (Float32.perspectiveTerms p).2.isFinite = false := by
        by_cases hA : (Float32.perspectiveTerms p).1.isFinite = true
        · right
          by_cases hB : (Float32.perspectiveTerms p).2.isFinite = true
          · exact absurd ⟨hA, hB⟩ hcon
          · simpa using hB
        · left; simpa using hA
      have h3 := z2 h2
      rw [h3] at h1
      exact absurd h1 (by decide)
    · rintro ⟨h1, h2⟩
      exact z1 h1 h2
  · by_cases hA : (Float32.perspectiveTerms p).1.isFinite = true
    · by_cases hB : (Float32.perspectiveTerms p).2.isFinite = true
      · exact Or.inl (z1 hA hB)
      · exact Or.inr (z2 (Or.inr (by simpa using hB)))
    · exact Or.inr (z2 (Or.inl (by simpa using hA)))

/-- Witness of C13 on a 1920x1080 screen with the corners `(480,270), (1440,270),
(1440,810), (480,810)`: both perspective coefficients are finite and `c2z = 1`. -/
theorem C13_identity_completion_witness :
    (Float32.ComputeTransformMatrix (F32.ofRat 1920) (F32.ofRat 1080) centredRect32).c2z = 1 :=
  (C13_identity_completion Float32.unitSquare Float32.unitSquare (F32.ofRat 1920)
    (F32.ofRat 1080) centredRect32).2.2.2.2.2.1.mpr ⟨by decide!, by decide!⟩

/-- C25, counterexample to the claim as stated (`c2 = (p0.x, p0.y, 1, 0)` for every input):
on a screen of height 0 the normalised corner has `p0.x = 0.25`, but the code writes
`c2 = (NaN, NaN, NaN, 0)`. -/
theorem C25_counterexample :
    (Float32.normalizePoints (F32.ofRat 1920) 0 centredRect32 0).x = F32.ofRat 0.25 ∧
    (Float32.ComputeTransformMatrix (F32.ofRat 1920) 0 centredRect32).c2x = F32.nan ∧
    (Float32.ComputeTransformMatrix (F32.ofRat 1920) 0 centredRect32).c2y = F32.nan ∧
    (Float32.ComputeTransformMatrix (F32.ofRat 1920) 0 centredRect32).c2z = F32.nan ∧
    (Float32.ComputeTransformMatrix (F32.ofRat 1920) 0 centredRect32).c2w = 0 := by
  decide!

/-- C25 (amended), in binary32 arithmetic: `ComputeUVs` always yields the unit square
`(0,0), (1,0), (1,1), (0,1)`, so `uMin = vMin = 0`, `uScale = vScale = 1` and the
degenerate-source test `uScale == 0 || vScale == 0` is false; `ComputeTransformMatrix` writes
`c0 = (h00,h10,h20,0)`, `c1 = (h01,h11,h21,0)`, `c2w = 0`, `c3 = (0,0,0,1)`, and in each row
of `c2` the value computed from the two coefficients of that row: when they are finite,
`c2x == p0.x`, `c2y == p0.y` (equal as floats, the sign of a zero aside) and `c2z = 1`; when
one of them is not, the entry is NaN. -/
theorem C25_source_is_unit_square (screenW screenH : F32) (raw : Fin 4 → Float2 F32) :
    let M := Float32.ComputeTransformMatrix screenW screenH raw
    let p := Float32.normalizePoints screenW screenH raw
    Float32.ComputeUVs = Float32.unitSquare ∧
    ((Float32.ComputeUVs 0).x = 0 ∧ (Float32.ComputeUVs 0).y = 0 ∧
      (Float32.ComputeUVs 1).x - (Float32.ComputeUVs 0).x = 1 ∧
      (Float32.ComputeUVs 3).y - (Float32.ComputeUVs 0).y = 1) ∧
    (F32.beq ((Float32.ComputeUVs 1).x - (Float32.ComputeUVs 0).x) 0
      || F32.beq ((Float32.ComputeUVs 3).y - (Float32.ComputeUVs 0).y) 0) = false ∧
    (M.c0x = Float32.coeffH00 p ∧ M.c0y = Float32.coeffH10 p ∧
      M.c0z = (Float32.perspectiveTerms p).1 ∧ M.c0w = 0) ∧
    (M.c1x = Float32.coeffH01 p ∧ M.c1y = Float32.coeffH11 p ∧
      M.c1z = (Float32.perspectiveTerms p).2 ∧ M.c1w = 0) ∧
    (M.c2w = 0 ∧ M.c3x = 0 ∧ M.c3y = 0 ∧ M.c3z = 0 ∧ M.c3w = 1) ∧
    (M.c0x.isFinite = true → M.c1x.isFinite = true → F32.beq M.c2x (p 0).x = true) ∧
    (M.c0y.isFinite = true → M.c1y.isFinite = true → F32.beq M.c2y (p 0).y = true) ∧
    (M.c0z.isFinite = true → M.c1z.isFinite = true → M.c2z = 1) ∧
    (M.c0x.isFinite = false ∨ M.c1x.isFinite = false → M.c2x = F32.nan) ∧
    (M.c0y.isFinite = false ∨ M.c1y.isFinite = false → M.c2y = F32.nan) ∧
    (M.c0z.isFinite = false ∨ M.c1z.isFinite = false → M.c2z = F32.nan) := by
  intro M p
  obtain ⟨⟨a1, a2, a3, a4⟩, ⟨b1, b2, b3, b4⟩, c⟩ :=
    Float32.ComputeTransformMatrix_columns screenW screenH raw
  obtain ⟨z1, z2⟩ := Float32.ComputeTransformMatrix_c2z screenW screenH raw
  have hM : M = _ := Float32.ComputeTransformMatrix_entries screenW screenH raw
  have hsq : Float32.ComputeUVs = Float32.unitSquare := by
    funext i
    fin_cases i <;> apply Float2.ext <;> decide!
  refine ⟨hsq, by decide!, by decide!, ⟨a1, a2, a3, a4⟩, ⟨b1, b2, b3, b4⟩, c, ?_, ?_, ?_,
    ?_, ?_, ?_⟩
  · intro h1 h2
    rw [a1] at h1; rw [b1] at h2
    obtain ⟨s, hs⟩ := F32.neg_mul_zero_sub h1 h2
    have hx : (p 0).x.isFinite = true := (F32.isFinite_sub (F32.isFinite_add h1).1).2
    have e : M.c2x = F32.fin s 0 + (p 0).x := by
      rw [hM]
      show -Float32.coeffH00 p * 0 - Float32.coeffH01 p * 0 + (p 0).x = _
      rw [hs]
    rw [e]
    exact F32.zero_add_beq s (Float32.isFloat_normalizePoints screenW screenH raw 0).1 hx
  · intro h1 h2
    rw [a2] at h1; rw [b2] at h2
    obtain ⟨s, hs⟩ := F32.neg_mul_zero_sub h1 h2
    have hy : (p 0).y.isFinite = true := (F32.isFinite_sub (F32.isFinite_add h1).1).2
    have e : M.c2y = F32.fin s 0 + (p 0).y := by
      rw [hM]
      show -Float32.coeffH10 p * 0 - Float32.coeffH11 p * 0 + (p 0).y = _
      rw [hs]
    rw [e]
    exact F32.zero_add_beq s (Float32.isFloat_normalizePoints screenW screenH raw 0).2 hy
  · intro h1 h2
    rw [a3] at h1; rw [b3] at h2
    exact z1 h1 h2
  · intro h
    rw [a1, b1] at h
    rw [hM]
    exact F32.neg_mul_zero_sub_nan h _
  · intro h
    rw [a2, b2] at h
    rw [hM]
    exact F32.neg_mul_zero_sub_nan h _
  · intro h
    rw [a3, b3] at h
    exact z2 h

/-- Witness of C25 on a 1920x1080 screen with the corners `(480,270), (1440,270),
(1440,810), (480,810)`: the coefficients of the first row are finite and `c2x == p0.x`. -/
theorem C25_source_is_unit_square_witness :
    F32.beq (Float32.ComputeTransformMatrix (F32.ofRat 1920) (F32.ofRat 1080) centredRect32).c2x
      (Float32.normalizePoints (F32.ofRat 1920) (F32.ofRat 1080) centredRect32 0).x = true :=
  (C25_source_is_unit_square (F32.ofRat 1920) (F32.ofRat 1080) centredRect32).2.2.2.2.2.2.1
    (by decide!) (by decide!)

/-! ## The affine fallback in binary32: claim C15 -/

namespace F32

theorem zero_mul_finite {x : F32} (hx : x.isFinite = true) : ∃ s, 0 * x = fin s 0 := by
  cases x with
  | fin s a => exact ⟨s, by simp [mul_def, zero_def, mul, round_zero]⟩
  | inf s => simp [isFinite] at hx
  | nan => simp [isFinite] at hx

theorem add_zero_beq (s : Bool) {x : F32} (hx : x.isFloat = true) (hf : x.isFinite = true) :
    beq (x + fin s 0) x = true := by
  cases x with
  | fin w c =>
    have hw := round_of_isFloat hx
    simp only [isFloat, Bool.and_eq_true, decide_eq_true_eq] at hx
    rw [add_def]
    simp only [add]
    have e : signed w c + signed s 0 = signed w c := by simp [signed]
    rw [e]
    split_ifs with h0
    · simp [beq, signed, h0]
      simpa [signed] using h0.symm
    · have hc : c ≠ 0 := by
        intro hc; apply h0; simp [signed, hc]
      have hcpos : 0 < c := lt_of_le_of_ne hx.1 (Ne.symm hc)
      cases w with
      | true =>
        have : signed true c = -c := by simp [signed]
        rw [this]
        have h1 : decide (-c < 0) = true := by simpa using hcpos
        rw [h1, abs_neg, abs_of_pos hcpos, hw]
        simp [beq]
      | false =>
        have : signed false c = c := by simp [signed]
        rw [this]
        have h1 : decide (c < 0) = false := by simpa using hcpos.le
        rw [h1, abs_of_pos hcpos, hw]
        simp [beq]
  | inf w => simp [isFinite] at hf
  | nan => simp [isFinite] at hf

/-- Floats that compare equal to a finite float are finite and have the same value. -/
theorem toRat_eq_of_beq {a b : F32} (h : beq a b = true) (hb : b.isFinite = true) :
    a.isFinite = true ∧ a.toRat = b.toRat := by
  cases a <;> cases b <;> simp_all [beq, isFinite, toRat]

theorem beq_of_eq {a b : F32} (h : a = b) (hb : b.isFinite = true) : beq a b = true := by
  subst h
  cases a <;> simp_all [beq, isFinite]

end F32

namespace Float32

theorem perspectiveTerms_of_small_den {dst : Fin 4 → Float2 F32}
    (h : F32.lt (F32.abs (quadDen dst)) EPS = true) : perspectiveTerms dst = (0, 0) := by
  have h2 : F32.lt (F32.abs (((dst 1).x - (dst 2).x) * ((dst 3).y - (dst 2).y) -
      ((dst 1).y - (dst 2).y) * ((dst 3).x - (dst 2).x))) EPS = true := h
  unfold perspectiveTerms
  simp only
  rw [if_pos h2]

/-- With zero perspective terms a coefficient `d + 0 * x` compares equal to the difference
`d`. -/
theorem affine_coefficient {a b : F32} (h : (a - b).isFinite = true) :
    F32.beq (a - b + 0 * a) (a - b) = true := by
  obtain ⟨s, hs⟩ := F32.zero_mul_finite (F32.isFinite_sub h).1
  rw [hs]
  exact F32.add_zero_beq s (F32.isFloat_sub a b) h

end Float32

/-- C15, counterexample to the claim as stated (threshold `1e-9`): on a 1x1 screen the
points `(2e-9f, 2), (1e-9f, 0), (0, 0), (0, 1)` give, with every operation exact,
`den = 1e-9f = 9007199 / 2 ^ 53`, which is below `1e-9`; the code compares with the float
constant `1e-9f`, takes the projective branch and writes `c0z = c1z = 1`. -/
theorem C15_counterexample :
    Float32.quadDen (Float32.normalizePoints 1 1 sliverQuad) = F32.ofRat 1e-9 ∧
    |quadDen (fun i => exact2 (Float32.normalizePoints 1 1 sliverQuad i))| < (1e-9 : ℚ) ∧
    |(Float32.quadDen (Float32.normalizePoints 1 1 sliverQuad)).toRat| < (1e-9 : ℚ) ∧
    (Float32.ComputeTransformMatrix 1 1 sliverQuad).c0z = 1 ∧
    (Float32.ComputeTransformMatrix 1 1 sliverQuad).c1z = 1 := by
  decide!

/-- C15 (amended), in binary32 arithmetic: when the float denominator computed from the
normalised points satisfies `fabsf(den) < 1e-9f` (the float constant) and the four differences
`p1 - p0`, `p3 - p0` are finite, `ComputeTransformMatrix` writes `c0z = c1z = 0` and the
affine matrix `c0 = (p1.x - p0.x, p1.y - p0.y, 0, 0)`, `c1 = (p3.x - p0.x, p3.y - p0.y, 0, 0)`,
`c2 = (p0.x, p0.y, 1, 0)` (entries equal as floats, differences rounded).  When the four
differences are exact, this matrix sends the unit-square corners `(0,0)`, `(1,0)`, `(0,1)` to
`p0`, `p1`, `p3` and the corner `(1,1)` to `p1 + p3 - p0`, so it reproduces `p2` if and only
if `p0 - p1 + p2 - p3 = 0`. -/
theorem C15_affine_fallback (screenW screenH : F32) (raw : Fin 4 → Float2 F32)
    (hden : F32.lt (F32.abs (Float32.quadDen (Float32.normalizePoints screenW screenH raw)))
      Float32.EPS = true)
    (hx1 : ((Float32.normalizePoints screenW screenH raw 1).x
      - (Float32.normalizePoints screenW screenH raw 0).x).isFinite = true)
    (hy1 : ((Float32.normalizePoints screenW screenH raw 1).y
      - (Float32.normalizePoints screenW screenH raw 0).y).isFinite = true)
    (hx3 : ((Float32.normalizePoints screenW screenH raw 3).x
      - (Float32.normalizePoints screenW screenH raw 0).x).isFinite = true)
    (hy3 : ((Float32.normalizePoints screenW screenH raw 3).y
      - (Float32.normalizePoints screenW screenH raw 0).y).isFinite = true) :
    let p := Float32.normalizePoints screenW screenH raw
    let M := Float32.ComputeTransformMatrix screenW screenH raw
    let q := fun i => exact2 (p i)
    (M.c0z = 0 ∧ M.c1z = 0) ∧
    (F32.beq M.c0x ((p 1).x - (p 0).x) = true ∧ F32.beq M.c0y ((p 1).y - (p 0).y) = true ∧
      M.c0w = 0) ∧
    (F32.beq M.c1x ((p 3).x - (p 0).x) = true ∧ F32.beq M.c1y ((p 3).y - (p 0).y) = true ∧
      M.c1w = 0) ∧
    (F32.beq M.c2x (p 0).x = true ∧ F32.beq M.c2y (p 0).y = true ∧ M.c2z = 1 ∧ M.c2w = 0) ∧
    (((p 1).x - (p 0).x).toRat = (q 1).x - (q 0).x →
      ((p 1).y - (p 0).y).toRat = (q 1).y - (q 0).y →
      ((p 3).x - (p 0).x).toRat = (q 3).x - (q 0).x →
      ((p 3).y - (p 0).y).toRat = (q 3).y - (q 0).y →
      applyH (exactMatrix M) 0 0 = ((q 0).x, (q 0).y, 1) ∧
      applyH (exactMatrix M) 1 0 = ((q 1).x, (q 1).y, 1) ∧
      applyH (exactMatrix M) 0 1 = ((q 3).x, (q 3).y, 1) ∧
      applyH (exactMatrix M) 1 1 = ((q 1).x + (q 3).x - (q 0).x, (q 1).y + (q 3).y - (q 0).y, 1) ∧
      (applyH (exactMatrix M) 1 1 = ((q 2).x, (q 2).y, 1) ↔
        (q 0).x - (q 1).x + (q 2).x - (q 3).x = 0 ∧
          (q 0).y - (q 1).y + (q 2).y - (q 3).y = 0)) := by
  intro p M q
  obtain ⟨⟨a1, a2, a3, a4⟩, ⟨b1, b2, b3, b4⟩, c1, -⟩ :=
    Float32.ComputeTransformMatrix_columns screenW screenH raw
  obtain ⟨z1, -⟩ := Float32.ComputeTransformMatrix_c2z screenW screenH raw
  have hM : M = _ := Float32.ComputeTransformMatrix_entries screenW screenH raw
  have hpt : Float32.perspectiveTerms p = (0, 0) := Float32.perspectiveTerms_of_small_den hden
  have h00 : F32.beq (Float32.coeffH00 p) ((p 1).x - (p 0).x) = true := by
    unfold Float32.coeffH00; rw [hpt]; exact Float32.affine_coefficient hx1
  have h10 : F32.beq (Float32.coeffH10 p) ((p 1).y - (p 0).y) = true := by
    unfold Float32.coeffH10; rw [hpt]; exact Float32.affine_coefficient hy1
  have h01 : F32.beq (Float32.coeffH01 p) ((p 3).x - (p 0).x) = true := by
    unfold Float32.coeffH01; rw [hpt]; exact Float32.affine_coefficient hx3
  have h11 : F32.beq (Float32.coeffH11 p) ((p 3).y - (p 0).y) = true := by
    unfold Float32.coeffH11; rw [hpt]; exact Float32.affine_coefficient hy3
  have f00 := F32.toRat_eq_of_beq h00 hx1
  have f10 := F32.toRat_eq_of_beq h10 hy1
  have f01 := F32.toRat_eq_of_beq h01 hx3
  have f11 := F32.toRat_eq_of_beq h11 hy3
  have hz0 : M.c0z = 0 := by rw [a3, hpt]
  have hz1 : M.c1z = 0 := by rw [b3, hpt]
  have hfx : (p 0).x.isFinite = true := (F32.isFinite_sub hx1).2
  have hfy : (p 0).y.isFinite = true := (F32.isFinite_sub hy1).2
  have hc2x : F32.beq M.c2x (p 0).x = true := by
    obtain ⟨s, hs⟩ := F32.neg_mul_zero_sub f00.1 f01.1
    have e : M.c2x = F32.fin s 0 + (p 0).x := by
      rw [hM]
      show -Float32.coeffH00 p * 0 - Float32.coeffH01 p * 0 + (p 0).x = _
      rw [hs]
    rw [e]
    exact F32.zero_add_beq s (Float32.isFloat_normalizePoints screenW screenH raw 0).1 hfx
  have hc2y : F32.beq M.c2y (p 0).y = true := by
    obtain ⟨s, hs⟩ := F32.neg_mul_zero_sub f10.1 f11.1
    have e : M.c2y = F32.fin s 0 + (p 0).y := by
      rw [hM]
      show -Float32.coeffH10 p * 0 - Float32.coeffH11 p * 0 + (p 0).y = _
      rw [hs]
    rw [e]
    exact F32.zero_add_beq s (Float32.isFloat_normalizePoints screenW screenH raw 0).2 hfy
  have hc2z : M.c2z = 1 := z1 (by rw [hpt]; rfl) (by rw [hpt]; rfl)
  refine ⟨⟨hz0, hz1⟩, ⟨by rw [a1]; exact h00, by rw [a2]; exact h10, a4⟩,
    ⟨by rw [b1]; exact h01, by rw [b2]; exact h11, b4⟩, ⟨hc2x, hc2y, hc2z, c1⟩, ?_⟩
  intro e1 e2 e3 e4
  have v0x : (exactMatrix M).c0x = (q 1).x - (q 0).x := by
    show M.c0x.toRat = _; rw [a1, f00.2, e1]
  have v0y : (exactMatrix M).c0y = (q 1).y - (q 0).y := by
    show M.c0y.toRat = _; rw [a2, f10.2, e2]
  have v1x : (exactMatrix M).c1x = (q 3).x - (q 0).x := by
    show M.c1x.toRat = _; rw [b1, f01.2, e3]
  have v1y : (exactMatrix M).c1y = (q 3).y - (q 0).y := by
    show M.c1y.toRat = _; rw [b2, f11.2, e4]
  have v0z : (exactMatrix M).c0z = 0 := by
    show M.c0z.toRat = _; rw [hz0]; rfl
  have v1z : (exactMatrix M).c1z = 0 := by
    show M.c1z.toRat = _; rw [hz1]; rfl
  have v2x : (exactMatrix M).c2x = (q 0).x := by
    show M.c2x.toRat = _; exact (F32.toRat_eq_of_beq hc2x hfx).2
  have v2y : (exactMatrix M).c2y = (q 0).y := by
    show M.c2y.toRat = _; exact (F32.toRat_eq_of_beq hc2y hfy).2
  have v2z : (exactMatrix M).c2z = 1 := by
    show M.c2z.toRat = _; rw [hc2z]; rfl
  have h11' : applyH (exactMatrix M) 1 1 =
      ((q 1).x + (q 3).x - (q 0).x, (q 1).y + (q 3).y - (q 0).y, 1) := by
    refine Prod.ext ?_ (Prod.ext ?_ ?_) <;>
      simp [applyH, v0x, v0y, v0z, v1x, v1y, v1z, v2x, v2y, v2z] <;> ring
  refine ⟨?_, ?_, ?_, h11', ?_⟩
  · refine Prod.ext ?_ (Prod.ext ?_ ?_) <;>
      simp [applyH, v0x, v0y, v0z, v1x, v1y, v1z, v2x, v2y, v2z]
  · refine Prod.ext ?_ (Prod.ext ?_ ?_) <;>
      simp [applyH, v0x, v0y, v0z, v1x, v1y, v1z, v2x, v2y, v2z]
  · refine Prod.ext ?_ (Prod.ext ?_ ?_) <;>
      simp [applyH, v0x, v0y, v0z, v1x, v1y, v1z, v2x, v2y, v2z]
  · rw [h11']
    simp only [Prod.mk.injEq, and_true]
    constructor
    · rintro ⟨hx, hy⟩
      exact ⟨by linear_combination -hx, by linear_combination -hy⟩
    · rintro ⟨hx, hy⟩
      exact ⟨by linear_combination -hx, by linear_combination -hy⟩

/-- Witness of C15 on a 1920x1080 screen with corners 1 and 2 coinciding (`den = 0`): the
code writes `c0z = c1z = 0`, `c2z = 1` and `c2x == p0.x`. -/
theorem C15_affine_fallback_witness :
    F32.lt (F32.abs (Float32.quadDen
      (Float32.normalizePoints (F32.ofRat 1920) (F32.ofRat 1080) foldedQuad32)))
      Float32.EPS = true ∧
    (Float32.ComputeTransformMatrix (F32.ofRat 1920) (F32.ofRat 1080) foldedQuad32).c0z = 0 ∧
    (Float32.ComputeTransformMatrix (F32.ofRat 1920) (F32.ofRat 1080) foldedQuad32).c1z = 0 :=
  have hden : F32.lt (F32.abs (Float32.quadDen
      (Float32.normalizePoints (F32.ofRat 1920) (F32.ofRat 1080) foldedQuad32)))
      Float32.EPS = true := by decide!
  ⟨hden, (C15_affine_fallback (F32.ofRat 1920) (F32.ofRat 1080) foldedQuad32 hden
    (by decide!) (by decide!) (by decide!) (by decide!)).1⟩

/-! ## The stability classifier in binary32: claims C9, C10, C17 -/

namespace F32

theorem sub_self_finite {x : F32} (h : x.isFinite = true) : x - x = 0 := by
  cases x with
  | fin s m =>
    rw [sub_def, zero_def]
    have e : signed s m + signed (!s) m = 0 := by cases s <;> simp [signed]
    simp only [neg, add, e, if_true]
    cases s <;> rfl
  | inf s => simp [isFinite] at h
  | nan => simp [isFinite] at h

/-- A zero of either sign is at most every float that is at least `0`. -/
theorem zero_le_of_nonneg (s : Bool) {y : F32} (h : le 0 y = true) : le (fin s 0) y = true := by
  cases y with
  | fin t b =>
    simp only [zero_def, le, decide_eq_true_eq] at h ⊢
    have : signed s 0 = 0 := by cases s <;> simp [signed]
    rw [this]
    simpa [signed] using h
  | inf t => simpa [zero_def, le] using h
  | nan => simp [zero_def, le] at h

/-- The square of a float that is at least `0` is at least `0`. -/
theorem zero_le_mul_self {m : F32} (h : le 0 m = true) : le 0 (m * m) = true := by
  cases m with
  | fin s a =>
    rw [mul_def, zero_def]
    simp only [mul, Bool.xor_self]
    unfold round
    cases hr : roundMag (a * a) with
    | none => rfl
    | some v =>
      have := roundMag_nonneg hr
      simp [le, signed, this]
  | inf s =>
    cases s with
    | true => simp [zero_def, le] at h
    | false => rfl
  | nan => simp [zero_def, le] at h

/-- The product of a float that is at least `0` with a positive finite float is at least
`0`. -/
theorem zero_le_mul_pos {r : F32} {b : ℚ} (h : le 0 r = true) (hb : 0 < b) :
    le 0 (r * fin false b) = true := by
  cases r with
  | fin s a =>
    rw [mul_def, zero_def]
    simp only [mul, Bool.xor_false]
    simp only [zero_def, le, decide_eq_true_eq] at h
    cases s with
    | false =>
      unfold round
      cases hr : roundMag (a * b) with
      | none => rfl
      | some v =>
        have := roundMag_nonneg hr
        simp [le, signed, this]
    | true =>
      have ha : a ≤ 0 := by simpa [signed] using h
      have hab : a * b ≤ 0 := mul_nonpos_of_nonpos_of_nonneg ha hb.le
      unfold round
      rw [roundMag_of_nonpos hab]
      simp [le, signed]
  | inf s =>
    cases s with
    | true => simp [zero_def, le] at h
    | false =>
      rw [mul_def]
      simp [mul, hb.ne', zero_def, le]
  | nan => simp [zero_def, le] at h

/-- The quotient `1 / b` and its square are finite for a float magnitude `b > 2 ^ (-17)`. -/
theorem inv_sq_finite {b : ℚ} (hb : (2 : ℚ) ^ (-17 : ℤ) < b) :
    ∃ w, (1 / fin false b) * (1 / fin false b) = fin false w := by
  have hb0 : 0 < b := lt_trans (two_zpow_pos _) hb
  have h1 : 1 / b < 2 ^ (17 : ℤ) := by
    rw [div_lt_iff₀ hb0]
    have : (2 : ℚ) ^ (17 : ℤ) * 2 ^ (-17 : ℤ) = 1 := by norm_num
    nlinarith [two_zpow_pos (17 : ℤ)]
  have h2 : (1 : ℚ) / b < 2 ^ (127 : ℤ) := lt_trans h1 (by norm_num)
  obtain ⟨v, hv⟩ := roundMag_isSome h2
  have hv1 := roundMag_le (by positivity) hv
  have hv0 := roundMag_nonneg hv
  have hvb : v < 2 ^ (19 : ℤ) := by
    have : (2 : ℚ) * 2 ^ (17 : ℤ) + 2 ^ (-149 : ℤ) < 2 ^ (19 : ℤ) := by norm_num
    linarith
  have h3 : v * v < 2 ^ (127 : ℤ) := by
    have : v * v ≤ 2 ^ (19 : ℤ) * 2 ^ (19 : ℤ) :=
      mul_le_mul hvb.le hvb.le hv0 (two_zpow_pos _).le
    have h4 : (2 : ℚ) ^ (19 : ℤ) * 2 ^ (19 : ℤ) < 2 ^ (127 : ℤ) := by norm_num
    linarith
  obtain ⟨w, hw⟩ := roundMag_isSome h3
  refine ⟨w, ?_⟩
  have e1 : (1 : F32) / fin false b = fin false v := by
    rw [div_def, one_def]
    simp only [div, hb0.ne', if_false, Bool.xor_false]
    unfold round
    rw [hv]
  rw [e1, mul_def]
  simp only [mul, Bool.xor_self]
  unfold round
  rw [hw]

theorem zero_mul_fin (w : ℚ) : (0 : F32) * fin false w = 0 := by
  rw [mul_def, zero_def]
  simp [mul, round_zero]

end F32

namespace Float32

theorem CheckStability_eq (acos : F32 → F32) (curPos : Float3 F32) (curRot : Float4 F32)
    (lastPos : Float3 F32) (lastRot : Float4 F32) (dt maxMoveSpeed maxRotSpeed : F32) :
    CheckStability acos curPos curRot lastPos lastRot dt maxMoveSpeed maxRotSpeed
      = (F32.le (moveSpeedSq curPos lastPos dt) (maxMoveSpeed * maxMoveSpeed)
        && F32.le (2 * acos (acosArgument curRot lastRot) * RAD_TO_DEG)
          (maxRotSpeed * flooredDt dt)) := rfl

/-- The time step after the floor is a positive finite float above `2 ^ (-17)`. -/
theorem flooredDt_spec {dt : F32} (hf : dt.isFinite = true) (hfl : dt.isFloat = true) :
    ∃ b, flooredDt dt = F32.fin false b ∧ (2 : ℚ) ^ (-17 : ℤ) < b := by
  unfold flooredDt
  split_ifs with h
  · exact ⟨8589935 / 536870912, by decide!, by norm_num⟩
  · cases dt with
    | fin s b =>
      have e5 : F32.ofRat 1e-5 = F32.fin false (2748779 / 274877906944) := by decide!
      rw [e5] at h
      simp only [F32.le, decide_eq_true_eq, not_le] at h
      simp only [F32.isFloat, Bool.and_eq_true, decide_eq_true_eq] at hfl
      cases s with
      | true =>
        exfalso
        have : F32.signed true b = -b := by simp [F32.signed]
        rw [this] at h
        have : F32.signed false (2748779 / 274877906944) = 2748779 / 274877906944 := by
          simp [F32.signed]
        rw [this] at h
        linarith [hfl.1]
      | false =>
        refine ⟨b, rfl, ?_⟩
        have e1 : F32.signed false b = b := by simp [F32.signed]
        have e2 : F32.signed false (2748779 / 274877906944) = 2748779 / 274877906944 := by
          simp [F32.signed]
        rw [e1, e2] at h
        have : (2 : ℚ) ^ (-17 : ℤ) < 2748779 / 274877906944 := by norm_num
        exact lt_trans this h
    | inf s => simp [F32.isFinite] at hf
    | nan => simp [F32.isFinite] at hf

/-- Identical finite positions have squared distance `+0`. -/
theorem DistSq3_self {p : Float3 F32} (hx : p.x.isFinite = true) (hy : p.y.isFinite = true)
    (hz : p.z.isFinite = true) : DistSq3 p p = 0 := by
  unfold DistSq3
  simp only [F32.sub_self_finite hx, F32.sub_self_finite hy, F32.sub_self_finite hz]
  decide!

/-- When the computed dot product is at least 1, the argument of `acosf` is exactly 1. -/
theorem acosArgument_of_one_le {q r : Float4 F32} (h : F32.le 1 (quatDot q r) = true) :
    acosArgument q r = 1 := by
  have hfl : (quatDot q r).isFloat = true := F32.isFloat_add _ _
  unfold acosArgument
  simp only []
  generalize quatDot q r = d at h hfl
  cases d with
  | fin s a =>
    simp only [F32.one_def, F32.le, decide_eq_true_eq] at h
    simp only [F32.isFloat, Bool.and_eq_true, decide_eq_true_eq] at hfl
    have e1 : F32.signed false 1 = 1 := by simp [F32.signed]
    rw [e1] at h
    cases s with
    | true =>
      exfalso
      have : F32.signed true a = -a := by simp [F32.signed]
      rw [this] at h
      linarith [hfl.1]
    | false =>
      have e2 : F32.signed false a = a := by simp [F32.signed]
      rw [e2] at h
      have h0 : F32.lt (F32.fin false a) 0 = false := by
        simp only [F32.zero_def, F32.lt, decide_eq_false_iff_not, not_lt]
        simp [F32.signed]; linarith
      rw [h0]
      simp only [Bool.false_eq_true, if_false]
      by_cases h1 : F32.lt 1 (F32.fin false a) = true
      · rw [if_pos h1]
      · rw [if_neg h1]
        simp only [F32.one_def, F32.lt, decide_eq_true_eq, not_lt] at h1
        rw [e1, e2] at h1
        have : a = 1 := le_antisymm h1 h
        rw [this]; rfl
  | inf s =>
    cases s with
    | true => simp [F32.one_def, F32.le] at h
    | false =>
      have h0 : F32.lt (F32.inf false) 0 = false := rfl
      have h1 : F32.lt 1 (F32.inf false) = true := rfl
      rw [h0]
      simp only [Bool.false_eq_true, if_false]
      rw [if_pos h1]
  | nan => simp [F32.one_def, F32.le] at h

/-- With `acosf(1) = 0` an orientation pair whose computed dot product is at least 1 passes
the rotation test for every non-negative limit and finite time step. -/
theorem rotation_test_passes (acos : F32 → F32) (hacos : acos 1 = 0) {q r : Float4 F32}
    (h : F32.le 1 (quatDot q r) = true) {dt maxRotSpeed : F32} (hf : dt.isFinite = true)
    (hfl : dt.isFloat = true) (hr : F32.le 0 maxRotSpeed = true) :
    F32.le (2 * acos (acosArgument q r) * RAD_TO_DEG) (maxRotSpeed * flooredDt dt) = true := by
  obtain ⟨b, hb, hb2⟩ := flooredDt_spec hf hfl
  have hb0 : 0 < b := lt_trans (F32.two_zpow_pos _) hb2
  rw [acosArgument_of_one_le h, hacos, hb]
  have e : (2 : F32) * 0 * RAD_TO_DEG = 0 := by decide!
  rw [e]
  exact F32.zero_le_mul_pos hr hb0

end Float32

/-- C9 (amended), in binary32 arithmetic with `acosf(1) = 0`: for every finite position `p`,
every orientation `q` whose dot product with itself, as the code computes it, is at least 1,
every finite time step and all limits `>= 0`, identical poses are stable. -/
theorem C9_identical_poses_stable (acos : F32 → F32) (hacos : acos 1 = 0) (p : Float3 F32)
    (q : Float4 F32) (dt maxMoveSpeed maxRotSpeed : F32)
    (hp : p.x.isFinite = true ∧ p.y.isFinite = true ∧ p.z.isFinite = true)
    (hq : F32.le 1 (Float32.quatDot q q) = true)
    (hdt : dt.isFinite = true ∧ dt.isFloat = true)
    (hm : F32.le 0 maxMoveSpeed = true) (hr : F32.le 0 maxRotSpeed = true) :
    Float32.CheckStability acos p q p q dt maxMoveSpeed maxRotSpeed = true := by
  rw [Float32.CheckStability_eq, Bool.and_eq_true]
  refine ⟨?_, Float32.rotation_test_passes acos hacos hq hdt.1 hdt.2 hr⟩
  obtain ⟨b, hb, hb2⟩ := Float32.flooredDt_spec hdt.1 hdt.2
  obtain ⟨w, hw⟩ := F32.inv_sq_finite hb2
  have e : Float32.moveSpeedSq p p dt = 0 := by
    unfold Float32.moveSpeedSq
    simp only []
    rw [Float32.DistSq3_self hp.1 hp.2.1 hp.2.2, hb, hw, F32.zero_mul_fin]
  rw [e]
  exact F32.zero_le_mul_self hm

/-- Witness of C9: the pose `((16, 0.005f, 0), (0, 0, 0, 1))` at `dt = 0.016f` with both
limits `0`. -/
theorem C9_identical_poses_stable_witness :
    F32.le 1 (Float32.quatDot unitQuat unitQuat) = true ∧
    Float32.CheckStability (fun _ => 0) offset16 unitQuat offset16 unitQuat (F32.ofRat 0.016)
      0 0 = true :=
  ⟨by decide!, C9_identical_poses_stable (fun _ => 0) rfl offset16 unitQuat (F32.ofRat 0.016)
    0 0 (by decide!) (by decide!) (by decide!) (by decide!) (by decide!)⟩

/-- C10, counterexample to the claim as stated ("true exactly when
`distSq3 <= (0.016 * maxMoveSpeed)^2`"): for `curPos = (16, 0.005f, 0)`, `lastPos = 0`,
identical unit orientations, `dt = 0` and `maxMoveSpeed = 1000` the exact squared distance
exceeds `(0.016 * 1000)^2 = 256` (and also the square of `0.016f * 1000`), yet the code
returns `true`: its float `moveSpeedSq` rounds to exactly `1000000`. -/
theorem C10_counterexample :
    ¬ (DistSq3 (exact3 offset16) (exact3 origin3) ≤ (0.016 * 1000) ^ 2) ∧
    ¬ (DistSq3 (exact3 offset16) (exact3 origin3) ≤ ((F32.ofRat 0.016).toRat * 1000) ^ 2) ∧
    Float32.moveSpeedSq offset16 origin3 0 = F32.ofRat 1000000 ∧
    ∀ acos : F32 → F32, acos 1 = 0 →
      Float32.CheckStability acos offset16 unitQuat origin3 unitQuat 0 (F32.ofRat 1000) 1
        = true := by
  refine ⟨by decide!, by decide!, by decide!, ?_⟩
  intro acos h
  have e : Float32.acosArgument unitQuat unitQuat = 1 := by decide!
  rw [Float32.CheckStability_eq, e, h]
  decide!

/-- C10 (amended), in binary32 arithmetic: for every float `dt <= 1e-5f` (zero and negative
included) the time step is replaced by `0.016f`, so `CheckStability` returns what it returns
at `dt = 0.016f`; and, with `acosf(1) = 0`, orientations whose computed dot product is at
least 1 and `maxRotSpeed >= 0`, it is true exactly when the float value
`distSq * (invDt * invDt)` with `invDt = 1 / 0.016f` is at most the float square
`maxMoveSpeed * maxMoveSpeed`. -/
theorem C10_time_step_floor (acos : F32 → F32) (curPos : Float3 F32) (curRot : Float4 F32)
    (lastPos : Float3 F32) (lastRot : Float4 F32) (dt maxMoveSpeed maxRotSpeed : F32)
    (hdt : F32.le dt (F32.ofRat 1e-5) = true) :
    Float32.flooredDt dt = F32.ofRat 0.016 ∧
    Float32.CheckStability acos curPos curRot lastPos lastRot dt maxMoveSpeed maxRotSpeed =
      Float32.CheckStability acos curPos curRot lastPos lastRot (F32.ofRat 0.016) maxMoveSpeed
        maxRotSpeed ∧
    (acos 1 = 0 → F32.le 1 (Float32.quatDot curRot lastRot) = true →
      F32.le 0 maxRotSpeed = true →
      (Float32.CheckStability acos curPos curRot lastPos lastRot dt maxMoveSpeed maxRotSpeed
          = true ↔
        F32.le (Float32.DistSq3 curPos lastPos * (1 / F32.ofRat 0.016 * (1 / F32.ofRat 0.016)))
          (maxMoveSpeed * maxMoveSpeed) = true)) := by
  have h1 : Float32.flooredDt dt = F32.ofRat 0.016 := by
    unfold Float32.flooredDt
    rw [if_pos hdt]
  have h2 : Float32.flooredDt (F32.ofRat 0.016) = F32.ofRat 0.016 := by decide!
  have h3 : Float32.CheckStability acos curPos curRot lastPos lastRot dt maxMoveSpeed
      maxRotSpeed = Float32.CheckStability acos curPos curRot lastPos lastRot (F32.ofRat 0.016)
        maxMoveSpeed maxRotSpeed := by
    rw [Float32.CheckStability_eq, Float32.CheckStability_eq]
    unfold Float32.moveSpeedSq
    rw [h1, h2]
  refine ⟨h1, h3, ?_⟩
  intro hacos hq hr
  have hrot : F32.le (2 * acos (Float32.acosArgument curRot lastRot) * Float32.RAD_TO_DEG)
      (maxRotSpeed * Float32.flooredDt (F32.ofRat 0.016)) = true :=
    Float32.rotation_test_passes acos hacos hq (by decide!) (by decide!) hr
  rw [h3, Float32.CheckStability_eq, hrot, Bool.and_true]
  unfold Float32.moveSpeedSq
  simp only []
  rw [h2]

/-- Witness of C10 at `dt = 0`, the pose `(16, 0.005f, 0)` against the origin and limit
`1000`: the result is the one at `dt = 0.016f`. -/
theorem C10_time_step_floor_witness :
    F32.le 0 (F32.ofRat 1e-5) = true ∧
    Float32.CheckStability (fun _ => 0) offset16 unitQuat origin3 unitQuat 0 (F32.ofRat 1000) 1
      = Float32.CheckStability (fun _ => 0) offset16 unitQuat origin3 unitQuat
        (F32.ofRat 0.016) (F32.ofRat 1000) 1 :=
  ⟨by decide!, (C10_time_step_floor (fun _ => 0) offset16 unitQuat origin3 unitQuat 0
    (F32.ofRat 1000) 1 (by decide!)).2.1⟩

namespace Float32

theorem Earlier.CheckStability_unfold (acos sqrt : F32 → F32) (curPos : Float3 F32)
    (curRot : Float4 F32) (lastPos : Float3 F32) (lastRot : Float4 F32)
    (dt maxMoveSpeed maxRotSpeed : F32) :
    Earlier.CheckStability acos sqrt curPos curRot lastPos lastRot dt maxMoveSpeed maxRotSpeed
      = (F32.le (sqrt (DistSq3 curPos lastPos) / flooredDt dt) maxMoveSpeed
        && F32.le (2 * acos (acosArgument curRot lastRot) * RAD_TO_DEG / flooredDt dt)
          maxRotSpeed) := rfl

end Float32

/-- C17 (the code departs from the claim): for a displacement of `2e20f` along `x`, identical
unit orientations, `dt = 1`, `maxMoveSpeed = 1e20f` and `maxRotSpeed = 1` the squared
distance and the squared limit both overflow to `+inf`, so the current revision tests
`inf <= inf` and returns `true`, while the earlier revision compares
`sqrtf(inf) / 1 = +inf` with `1e20f` and returns `false` (`acosf(1) = 0` and
`sqrtf(+inf) = +inf` as in IEEE 754 libm).  The speed `2e20` does exceed the limit. -/
theorem C17_overflow_divergence :
    (F32.ofRat 1e20).toRat < farPoint.x.toRat ∧
    Float32.DistSq3 farPoint origin3 = F32.inf false ∧
    F32.ofRat 1e20 * F32.ofRat 1e20 = F32.inf false ∧
    ∀ acos sqrt : F32 → F32, acos 1 = 0 → sqrt (F32.inf false) = F32.inf false →
      Float32.CheckStability acos farPoint unitQuat origin3 unitQuat 1 (F32.ofRat 1e20) 1
        = true ∧
      Float32.Earlier.CheckStability acos sqrt farPoint unitQuat origin3 unitQuat 1
        (F32.ofRat 1e20) 1 = false := by
  have hd : Float32.DistSq3 farPoint origin3 = F32.inf false := by decide!
  refine ⟨by decide!, hd, by decide!, ?_⟩
  intro acos sqrt h1 h2
  have e : Float32.acosArgument unitQuat unitQuat = 1 := by decide!
  constructor
  · rw [Float32.CheckStability_eq, e, h1]
    decide!
  · rw [Float32.Earlier.CheckStability_unfold, e, h1, hd, h2]
    decide!

/-! ## The quality scorer in binary32: claim C8 -/

namespace F32

theorem mul_comm_float (x y : F32) : x * y = y * x := by
  rw [mul_def, mul_def]
  cases x <;> cases y <;> simp [mul, Bool.xor_comm, mul_comm]

theorem div_two_eq_mul_half (x : F32) : x / 2 = x * ofRat 0.5 := by
  have e : ofRat 0.5 = fin false (1 / 2) := by decide!
  rw [e, div_def, mul_def, two_def]
  cases x with
  | fin s a =>
    simp only [div, mul, Bool.xor_false]
    rw [if_neg (by norm_num)]
    congr 1
    ring
  | inf s => simp [div, mul]
  | nan => rfl

/-- For floats that are not NaN, `x < y` is the negation of `y <= x`. -/
theorem lt_eq_not_le {x y : F32} (hx : x ≠ nan) (hy : y ≠ nan) : lt x y = !le y x := by
  cases x with
  | fin s a =>
    cases y with
    | fin t b =>
      simp only [lt, le]
      by_cases h : signed s a < signed t b
      · simp [h, not_le.mpr h]
      · simp [h, not_lt.mp h]
    | inf t => simp [lt, le]
    | nan => exact absurd rfl hy
  | inf s =>
    cases y with
    | fin t b => simp [lt, le]
    | inf t => cases s <;> cases t <;> rfl
    | nan => exact absurd rfl hy
  | nan => exact absurd rfl hx

theorem lt_zero_of_zero_le {x : F32} (h : le 0 x = true) : lt x 0 = false := by
  have hx : x ≠ nan := by rintro rfl; simp [zero_def, le] at h
  rw [lt_eq_not_le hx (by decide), h]; rfl

end F32

/-- C8, counterexample to the claim as stated (penalty bound `0.04` on the exact squared
distance): a camera at `(0.16f, 0.12f, 0)` facing a target at the origin seen at the screen
centre has exact squared distance below `0.04`, so the claimed value is
`0.6 + 0.4 * 0.5 = 0.8`; the code computes the float squared distance `0.04f`, applies no
penalty and returns `1`. -/
theorem C8_counterexample :
    DistSq3 (exact3 nearCam) (exact3 origin3) < (0.04 : ℚ) ∧
    qualitySpec (exact3 nearCam) (exact3 negAxisZ) (exact3 origin3) (exact3 axisZ)
      (exact2 centre1080) 1920 1080 = 4 / 5 ∧
    Float32.DistSq3 nearCam origin3 = F32.ofRat 0.04 ∧
    Float32.CalculateQuality nearCam negAxisZ origin3 axisZ centre1080 (F32.ofRat 1920)
      (F32.ofRat 1080) = 1 := by
  decide!

/-- C8 (amended), in binary32 arithmetic: for every input with `imgScreenPos.x >= 0`,
`imgScreenPos.y >= 0` whose computed squared distance `d = DistSq3(camPos, imgPos)` is not
NaN, `CalculateQuality` is the float value of
`0.6f * clamp01(dot(imgUp, -camFwd)) + 0.4f * clamp01(1 - distSq2(imgScreenPos, centre) /
(screenHeight / 2)^2) * p` with `p = 1` when `0.04f <= d <= 1` (both bounds inclusive, `0.04f`
the float constant) and `p = 0.5` otherwise. -/
theorem C8_quality_formula (camPos camFwd imgPos imgUp : Float3 F32) (imgScreenPos : Float2 F32)
    (screenWidth screenHeight : F32) (hx : F32.le 0 imgScreenPos.x = true)
    (hy : F32.le 0 imgScreenPos.y = true) (hd : Float32.DistSq3 camPos imgPos ≠ F32.nan) :
    Float32.CalculateQuality camPos camFwd imgPos imgUp imgScreenPos screenWidth screenHeight =
      Float32.qualitySpec camPos camFwd imgPos imgUp imgScreenPos screenWidth screenHeight ∧
    (Float32.distScore (Float32.DistSq3 camPos imgPos) = 1 ↔
      (F32.le (F32.ofRat 0.04) (Float32.DistSq3 camPos imgPos) = true ∧
        F32.le (Float32.DistSq3 camPos imgPos) 1 = true)) ∧
    (Float32.distScore (Float32.DistSq3 camPos imgPos) = 1 ∨
      Float32.distScore (Float32.DistSq3 camPos imgPos) = F32.ofRat 0.5) := by
  have h4 : F32.ofRat 0.04 ≠ F32.nan := by decide!
  have h1 : (1 : F32) ≠ F32.nan := by decide
  have hp : Float32.distScore (Float32.DistSq3 camPos imgPos) =
      if F32.le (F32.ofRat 0.04) (Float32.DistSq3 camPos imgPos)
        && F32.le (Float32.DistSq3 camPos imgPos) 1 then 1 else F32.ofRat 0.5 := by
    unfold Float32.distScore
    rw [F32.lt_eq_not_le hd h4, F32.lt_eq_not_le h1 hd]
    cases F32.le (F32.ofRat 0.04) (Float32.DistSq3 camPos imgPos) <;>
      cases F32.le (Float32.DistSq3 camPos imgPos) 1 <;> rfl
  have hne : F32.ofRat 0.5 ≠ (1 : F32) := by decide!
  refine ⟨?_, ?_, ?_⟩
  · unfold Float32.CalculateQuality Float32.qualitySpec
    simp only [F32.lt_zero_of_zero_le hx, F32.lt_zero_of_zero_le hy, Bool.or_self,
      Bool.false_eq_true, if_false]
    rw [hp, F32.div_two_eq_mul_half, F32.div_two_eq_mul_half]
    rw [F32.mul_comm_float (F32.ofRat 0.6), F32.mul_comm_float (F32.ofRat 0.4)]
  · rw [hp]
    cases F32.le (F32.ofRat 0.04) (Float32.DistSq3 camPos imgPos) <;>
      cases F32.le (Float32.DistSq3 camPos imgPos) 1 <;> simp [hne]
  · rw [hp]
    cases F32.le (F32.ofRat 0.04) (Float32.DistSq3 camPos imgPos) <;>
      cases F32.le (Float32.DistSq3 camPos imgPos) 1 <;> simp

/-- Witness of C8 at the boundary input: the float squared distance is `0.04f`, the penalty
is 1 and the score 1. -/
theorem C8_quality_formula_witness :
    Float32.DistSq3 nearCam origin3 ≠ F32.nan ∧
    Float32.CalculateQuality nearCam negAxisZ origin3 axisZ centre1080 (F32.ofRat 1920)
      (F32.ofRat 1080) =
    Float32.qualitySpec nearCam negAxisZ origin3 axisZ centre1080 (F32.ofRat 1920)
      (F32.ofRat 1080) :=
  have hd : Float32.DistSq3 nearCam origin3 ≠ F32.nan := by decide!
  ⟨hd, (C8_quality_formula nearCam negAxisZ origin3 axisZ centre1080 (F32.ofRat 1920)
    (F32.ofRat 1080) (by decide!) (by decide!) hd).1⟩

/-! ## The general solver in binary32: claims C4, C16 -/

namespace Float32

theorem findPivot_abs (rows : List (List F32)) (k : ℕ) :
    k ≤ (findPivot rows k).1 ∧
      (findPivot rows k).2 = F32.abs (entry rows (findPivot rows k).1 k) := by
  unfold findPivot
  have key : ∀ (l : List ℕ) (best : ℕ × F32), (∀ i ∈ l, k ≤ i) →
      (k ≤ best.1 ∧ best.2 = F32.abs (entry rows best.1 k)) →
      k ≤ (l.foldl (fun (best : ℕ × F32) i =>
          let v := F32.abs (entry rows i k)
          if F32.lt best.2 v then (i, v) else best) best).1 ∧
      (l.foldl (fun (best : ℕ × F32) i =>
          let v := F32.abs (entry rows i k)
          if F32.lt best.2 v then (i, v) else best) best).2 =
        F32.abs (entry rows (l.foldl (fun (best : ℕ × F32) i =>
          let v := F32.abs (entry rows i k)
          if F32.lt best.2 v then (i, v) else best) best).1 k) := by
    intro l
    induction l with
    | nil => intro best _ h; exact h
    | cons a t ih =>
      intro best hl hb
      rw [List.foldl_cons]
      apply ih
      · intro i hi; exact hl i (List.mem_cons_of_mem _ hi)
      · have ha := hl a (List.mem_cons_self _ _)
        simp only
        split_ifs
        · exact ⟨ha, rfl⟩
        · exact hb
  apply key
  · intro i hi
    rw [List.mem_range'_1] at hi
    omega
  · exact ⟨le_refl k, rfl⟩

/-- After the row-pointer swap the entry `row[k][k]` is the entry `row[maxRow][k]` found by
the search. -/
theorem entry_swapRows_pivot (rows : List (List F32)) {k m : ℕ} (hkm : k ≤ m) :
    entry (swapRows rows k m) k k = entry rows m k := by
  unfold swapRows entry
  by_cases h : m = k
  · subst h; simp
  · simp only [ne_eq, h, not_false_eq_true, if_true]
    have hne : ¬ m = k := h
    rw [List.getD_eq_getElem?_getD, List.getD_eq_getElem?_getD, List.getElem?_set]
    simp only [hne, if_false]
    rw [List.getElem?_set]
    simp only [if_true]
    by_cases hk : k < rows.length
    · simp [hk]
    · have hm : rows.length ≤ m := by omega
      simp [hk, List.getElem?_eq_none hm]

/-- A float whose magnitude is not below `1e-9f` is not a zero. -/
theorem beq_zero_of_not_small {x : F32} (h : F32.lt (F32.abs x) EPS = false) :
    F32.beq x 0 = false := by
  have e : EPS = F32.fin false (9007199 / 9007199254740992) := by decide!
  rw [e] at h
  cases x with
  | fin s a =>
    simp only [F32.abs, F32.lt, decide_eq_false_iff_not, not_lt] at h
    have h1 : F32.signed false (9007199 / 9007199254740992) = 9007199 / 9007199254740992 := by
      simp [F32.signed]
    have h2 : F32.signed false a = a := by simp [F32.signed]
    rw [h1, h2] at h
    have ha : 0 < a := lt_of_lt_of_le (by norm_num) h
    simp only [F32.zero_def, F32.beq, decide_eq_false_iff_not]
    cases s <;> simp [F32.signed] <;> linarith
  | inf s => rfl
  | nan => rfl

/-- The pivot inverted by an elimination step that does not fall back is not below `1e-9f` in
magnitude. -/
theorem pivotOf_not_small {rows : List (List F32)} {k : ℕ} (h : eliminateStep rows k ≠ none) :
    F32.lt (F32.abs (pivotOf rows k)) EPS = false := by
  obtain ⟨hm1, hm2⟩ := findPivot_abs rows k
  have hlt : F32.lt (findPivot rows k).2 EPS = false := by
    by_contra hlt
    apply h
    unfold eliminateStep
    simp only []
    rw [if_pos (by simpa using hlt)]
  unfold pivotOf
  rw [entry_swapRows_pivot rows hm1, ← hm2]
  exact hlt

/-- The elimination step that does not fall back divides `1` by the pivot and scales the
pivot row by the quotient. -/
theorem eliminateStep_eq {rows : List (List F32)} {k : ℕ} (h : eliminateStep rows k ≠ none) :
    eliminateStep rows k =
      some (((swapRows rows k (findPivot rows k).1).set k
          (normalizeRow k (1 / pivotOf rows k)
            ((swapRows rows k (findPivot rows k).1).getD k []))).mapIdx fun i ri =>
        if k < i then
          eliminateRow k (normalizeRow k (1 / pivotOf rows k)
            ((swapRows rows k (findPivot rows k).1).getD k [])) ri
        else ri) := by
  have hlt : ¬ (F32.lt (findPivot rows k).2 EPS = true) := by
    intro hlt
    apply h
    unfold eliminateStep
    simp only []
    rw [if_pos hlt]
  unfold eliminateStep pivotOf
  simp only []
  rw [if_neg hlt]

/-- A back-substitution step that does not fall back divides by a diagonal entry that is not
below `1e-9f` in magnitude. -/
theorem backStep_diag {rows : List (List F32)} {xs xs2 : List F32} {i : ℕ}
    (h : backStep rows xs i = some xs2) :
    F32.lt (F32.abs (entry rows i i)) EPS = false ∧
    xs2 = xs.set i (((rows.getD i []).getD 8 0 -
      (List.range' (i + 1) (8 - (i + 1))).foldl
        (fun s j => s + (rows.getD i []).getD j 0 * xs.getD j 0) 0) / entry rows i i) := by
  unfold backStep at h
  simp only [] at h
  split_ifs at h with hlt
  injection h with h
  exact ⟨by simpa [entry] using hlt, h.symm⟩

end Float32

/-! ## The general solver in binary32: the normalised diagonal -/

namespace F32

theorem roundMag_lt {m v : ℚ} (h : roundMag m = some v) : v < 2 ^ (128 : ℤ) := by
  unfold roundMag at h
  simp only [] at h
  split_ifs at h with hlt
  injection h with h
  rw [← h]; exact hlt

/-- Rounding a magnitude of at least `2 ^ (-148)` keeps at least half of it. -/
theorem roundMag_ge_half {m v : ℚ} (hm : (2 : ℚ) ^ (-148 : ℤ) ≤ m) (h : roundMag m = some v) :
    m / 2 ≤ v := by
  have hm0 : 0 < m := lt_of_lt_of_le (two_zpow_pos _) hm
  obtain ⟨s1, s2, s3⟩ := exponent_spec hm0
  unfold roundMag at h
  simp only [] at h
  split_ifs at h with hlt
  injection h with h
  have hu := two_zpow_pos (exponent m - 23)
  have hx0 : 0 ≤ m / 2 ^ (exponent m - 23) := (div_pos hm0 hu).le
  have h1 := le_roundHalfEven hx0
  have h2 : m - 2 ^ (exponent m - 23) / 2 ≤ v := by
    rw [← h]
    calc m - 2 ^ (exponent m - 23) / 2
        = (m / 2 ^ (exponent m - 23) - 1 / 2) * 2 ^ (exponent m - 23) := by
          field_simp; ring
      _ ≤ (roundHalfEven (m / 2 ^ (exponent m - 23)) : ℚ) * 2 ^ (exponent m - 23) :=
          mul_le_mul_of_nonneg_right h1 hu.le
  rcases s2 with s2 | s2
  · have : (2 : ℚ) ^ (exponent m - 23) ≤ 2 ^ exponent m := two_zpow_mono (by omega)
    linarith
  · rw [s2] at h2
    have e1 : (2 : ℚ) ^ (-126 - 23 : ℤ) = 2 ^ (-148 : ℤ) / 2 := by norm_num
    rw [e1] at h2
    generalize (2 : ℚ) ^ (-148 : ℤ) = a at h2 hm
    linarith

/-- A float that is not below `2 ^ (-30)` in magnitude, multiplied by its rounded reciprocal,
gives a float of magnitude at least `1 / 4`, an infinity or NaN. -/
theorem mul_inv_not_small {p : F32} {e : ℚ} (hp : p.isFloat = true) (he0 : 0 < e)
    (he1 : (2 : ℚ) ^ (-100 : ℤ) ≤ e) (he2 : e ≤ 1 / 4)
    (h : lt (abs p) (fin false e) = false) : lt (abs (p * (1 / p))) (fin false e) = false := by
  cases p with
  | fin s a =>
    simp only [isFloat, Bool.and_eq_true, decide_eq_true_eq] at hp
    simp only [abs, lt, decide_eq_false_iff_not, not_lt] at h
    have e1 : signed false e = e := by simp [signed]
    have e2 : signed false a = a := by simp [signed]
    rw [e1, e2] at h
    have ha0 : 0 < a := lt_of_lt_of_le he0 h
    have ha1 : a < 2 ^ (128 : ℤ) := roundMag_lt hp.2
    have hinv_lt : 1 / a < 2 ^ (127 : ℤ) := by
      rw [div_lt_iff₀ ha0]
      have h3 : (2 : ℚ) ^ (127 : ℤ) * 2 ^ (-100 : ℤ) ≤ 2 ^ (127 : ℤ) * a :=
        mul_le_mul_of_nonneg_left (he1.trans h) (two_zpow_pos _).le
      have h4 : (1 : ℚ) < 2 ^ (127 : ℤ) * 2 ^ (-100 : ℤ) := by norm_num
      linarith
    have hinv_ge : (2 : ℚ) ^ (-148 : ℤ) ≤ 1 / a := by
      rw [le_div_iff₀ ha0]
      have h3 : (2 : ℚ) ^ (-148 : ℤ) * a ≤ 2 ^ (-148 : ℤ) * 2 ^ (128 : ℤ) :=
        mul_le_mul_of_nonneg_left ha1.le (two_zpow_pos _).le
      have h4 : (2 : ℚ) ^ (-148 : ℤ) * 2 ^ (128 : ℤ) ≤ 1 := by norm_num
      linarith
    obtain ⟨v, hv⟩ := roundMag_isSome hinv_lt
    have hv2 := roundMag_ge_half hinv_ge hv
    have hq : (1 : F32) / fin s a = fin s v := by
      rw [div_def, one_def]
      simp only [div, ha0.ne', if_false, Bool.false_xor]
      unfold round
      rw [hv]
    have hav : 1 / 2 ≤ a * v := by
      have : a * (1 / a / 2) ≤ a * v := mul_le_mul_of_nonneg_left hv2 ha0.le
      have e3 : a * (1 / a / 2) = 1 / 2 := by field_simp
      linarith
    rw [hq, mul_def]
    simp only [mul, Bool.xor_self]
    unfold round
    cases hw : roundMag (a * v) with
    | none => rfl
    | some w =>
      have hw2 := roundMag_ge_half (le_trans (by norm_num) hav) hw
      simp only [abs, lt, decide_eq_false_iff_not, not_lt]
      have e4 : signed false w = w := by simp [signed]
      rw [e1, e4]
      linarith
  | inf s =>
    have : (1 : F32) / inf s = fin s 0 := by
      rw [div_def, one_def]; simp [div]
    rw [this, mul_def]
    simp [mul, abs, lt]
  | nan => rfl

end F32

namespace Float32

theorem getD_mapIdx_default {α : Type} (f : ℕ → α → α) (l : List α) (d : α) (j : ℕ) :
    (l.mapIdx f).getD j d = if j < l.length then f j (l.getD j d) else d := by
  simp only [List.getD_eq_getElem?_getD, List.getElem?_mapIdx]
  by_cases h : j < l.length
  · simp [h, List.getElem?_eq_getElem h]
  · simp [h, List.getElem?_eq_none (not_lt.mp h)]

theorem rowFloat_nil : rowFloat [] := by
  intro j
  rw [List.getD_nil]
  exact F32.isFloat_zero false

theorem rowFloat_normalizeRow (k : ℕ) (c : F32) {r : List F32} (h : rowFloat r) :
    rowFloat (normalizeRow k c r) := by
  intro j
  unfold normalizeRow
  rw [getD_mapIdx_default]
  split_ifs
  · exact F32.isFloat_mul _ _
  · exact h j
  · exact F32.isFloat_zero false

theorem rowFloat_eliminateRow (k : ℕ) (P : List F32) {r : List F32} (h : rowFloat r) :
    rowFloat (eliminateRow k P r) := by
  intro j
  unfold eliminateRow
  simp only []
  split_ifs
  · exact h j
  · rw [getD_mapIdx_default]
    split_ifs
    · exact F32.isFloat_sub _ _
    · exact h j
    · exact F32.isFloat_zero false

theorem AllFloat_swapRows {rows : List (List F32)} (h : AllFloat rows) (k m : ℕ) :
    AllFloat (swapRows rows k m) := by
  intro i
  unfold swapRows
  split_ifs
  · rw [getD_set_rows, getD_set_rows]
    split_ifs
    · exact h k
    · exact h m
    · exact h i
  · exact h i

theorem AllFloat_eliminateStep {rows rows2 : List (List F32)} {k : ℕ} (h : AllFloat rows)
    (hs : eliminateStep rows k = some rows2) : AllFloat rows2 := by
  have hne : eliminateStep rows k ≠ none := by rw [hs]; exact Option.some_ne_none _
  rw [eliminateStep_eq hne] at hs
  injection hs with hs
  subst hs
  have hS := AllFloat_swapRows h k (findPivot rows k).1
  have hP := rowFloat_normalizeRow k (1 / pivotOf rows k) (hS k)
  intro i
  rw [getD_mapIdx_rows, getD_set_rows]
  split_ifs <;> first
    | exact hP
    | exact hS i
    | exact rowFloat_nil
    | exact rowFloat_eliminateRow k _ hP
    | exact rowFloat_eliminateRow k _ (hS i)

/-- An entry that passes the guard exists: its indices are in range. -/
theorem entry_in_range {rows : List (List F32)} {i j : ℕ}
    (h : F32.lt (F32.abs (entry rows i j)) EPS = false) :
    i < rows.length ∧ j < (rows.getD i []).length := by
  have hz : F32.lt (F32.abs (0 : F32)) EPS = true := by decide!
  constructor
  · by_contra hi
    have : entry rows i j = 0 := by
      unfold entry
      rw [List.getD_eq_default _ _ (not_lt.mp hi)]
      rfl
    rw [this, hz] at h
    exact absurd h (by decide)
  · by_contra hj
    have : entry rows i j = 0 := by
      unfold entry
      rw [List.getD_eq_default _ _ (not_lt.mp hj)]
    rw [this, hz] at h
    exact absurd h (by decide)

theorem DiagGuarded_eliminateStep {rows rows2 : List (List F32)} {k : ℕ} (hf : AllFloat rows)
    (hd : DiagGuarded k rows) (hs : eliminateStep rows k = some rows2) :
    DiagGuarded (k + 1) rows2 := by
  have hne : eliminateStep rows k ≠ none := by rw [hs]; exact Option.some_ne_none _
  have hpiv := pivotOf_not_small hne
  obtain ⟨hm1, -⟩ := findPivot_abs rows k
  rw [eliminateStep_eq hne] at hs
  injection hs with hs
  subst hs
  have hS := AllFloat_swapRows hf k (findPivot rows k).1
  obtain ⟨r1, r2⟩ := entry_in_range hpiv
  intro j hj
  rcases Nat.lt_succ_iff_lt_or_eq.mp hj with hjk | hjk
  · have hold := hd j hjk
    have e : entry (((swapRows rows k (findPivot rows k).1).set k
          (normalizeRow k (1 / pivotOf rows k)
            ((swapRows rows k (findPivot rows k).1).getD k []))).mapIdx fun i ri =>
        if k < i then
          eliminateRow k (normalizeRow k (1 / pivotOf rows k)
            ((swapRows rows k (findPivot rows k).1).getD k [])) ri
        else ri) j j = entry rows j j := by
      obtain ⟨q1, -⟩ := entry_in_range hold
      unfold entry
      rw [getD_mapIdx_rows, getD_set_rows]
      have hkj : ¬ k = j := by omega
      have hkj2 : ¬ k < j := by omega
      simp only [hkj, false_and, if_false, hkj2]
      have hlen : j < ((swapRows rows k (findPivot rows k).1).set k
          (normalizeRow k (1 / pivotOf rows k)
            ((swapRows rows k (findPivot rows k).1).getD k []))).length := by
        unfold swapRows
        split_ifs <;> simpa using q1
      rw [if_pos hlen]
      unfold swapRows
      split_ifs with hmk
      · rw [getD_set_rows, getD_set_rows]
        have hmj : ¬ (findPivot rows k).1 = j := by omega
        simp [hmj, hkj]
      · rfl
    rw [e]; exact hold
  · subst hjk
    have e : entry (((swapRows rows j (findPivot rows j).1).set j
          (normalizeRow j (1 / pivotOf rows j)
            ((swapRows rows j (findPivot rows j).1).getD j []))).mapIdx fun i ri =>
        if j < i then
          eliminateRow j (normalizeRow j (1 / pivotOf rows j)
            ((swapRows rows j (findPivot rows j).1).getD j [])) ri
        else ri) j j = pivotOf rows j * (1 / pivotOf rows j) := by
      unfold entry
      rw [getD_mapIdx_rows, getD_set_rows]
      simp only [List.length_set, r1, and_self, if_true, lt_irrefl, if_false]
      unfold normalizeRow
      rw [getD_mapIdx_default, if_pos r2]
      simp only [le_refl, if_true]
      rfl
    rw [e]
    have hfl : (pivotOf rows j).isFloat = true := hS j j
    have hE : EPS = F32.fin false (9007199 / 9007199254740992) := by decide!
    rw [hE] at hpiv ⊢
    exact F32.mul_inv_not_small hfl (by norm_num) (by norm_num) (by norm_num) hpiv

theorem eliminate_prefix_guarded {rows : List (List F32)} (hf : AllFloat rows) :
    ∀ n, ∀ R, (List.range n).foldlM eliminateStep rows = some R →
      AllFloat R ∧ DiagGuarded n R := by
  intro n
  induction n with
  | zero =>
    intro R h
    simp only [List.range_zero, List.foldlM_nil, Option.pure_def, Option.some.injEq] at h
    subst h
    exact ⟨hf, fun j hj => absurd hj (Nat.not_lt_zero j)⟩
  | succ n ih =>
    intro R h
    rw [List.range_succ, List.foldlM_append] at h
    cases h1 : (List.range n).foldlM eliminateStep rows with
    | none => rw [h1] at h; simp at h
    | some R1 =>
      rw [h1] at h
      simp only [Option.bind_eq_bind, Option.some_bind, List.foldlM_cons, List.foldlM_nil,
        Option.pure_def, Option.bind_some] at h
      obtain ⟨hf1, hd1⟩ := ih R1 h1
      exact ⟨AllFloat_eliminateStep hf1 h, DiagGuarded_eliminateStep hf1 hd1 h⟩

theorem backStep_isSome_of_guarded {R : List (List F32)} (hd : DiagGuarded 8 R) (xs : List F32)
    {i : ℕ} (hi : i < 8) : ∃ xs2, backStep R xs i = some xs2 := by
  have h := hd i hi
  unfold entry at h
  unfold backStep
  simp only []
  rw [if_neg (by rw [h]; decide)]
  exact ⟨_, rfl⟩

theorem backSubstitute_isSome_of_guarded {R : List (List F32)} (hd : DiagGuarded 8 R) :
    ∃ xs, backSubstitute R = some xs := by
  have key : ∀ n, n ≤ 8 → ∀ xs : List F32,
      ∃ xs2, (List.range n).reverse.foldlM (backStep R) xs = some xs2 := by
    intro n
    induction n with
    | zero => intro _ xs; exact ⟨xs, rfl⟩
    | succ n ih =>
      intro hn xs
      obtain ⟨xs1, h1⟩ := backStep_isSome_of_guarded hd xs (show n < 8 by omega)
      obtain ⟨xs2, h2⟩ := ih (by omega) xs1
      refine ⟨xs2, ?_⟩
      rw [List.range_succ, List.reverse_append, List.reverse_singleton, List.singleton_append,
        List.foldlM_cons, h1]
      exact h2
  have hl : ([7, 6, 5, 4, 3, 2, 1, 0] : List ℕ) = (List.range 8).reverse := by decide
  unfold backSubstitute
  rw [hl]
  exact key 8 (le_refl 8) _

theorem AllFloat_buildSystem {src dst : Fin 4 → Float2 F32} (hs : pointsFloat src)
    (hd : pointsFloat dst) : AllFloat (buildSystem src dst) := by
  have h0 : (0 : F32).isFloat = true := F32.isFloat_zero _
  have h1 : (1 : F32).isFloat = true := by decide!
  have hrow : ∀ (a b c d e f g h i : F32), a.isFloat = true → b.isFloat = true →
      c.isFloat = true → d.isFloat = true → e.isFloat = true → f.isFloat = true →
      g.isFloat = true → h.isFloat = true → i.isFloat = true →
      rowFloat [a, b, c, d, e, f, g, h, i] := by
    intro a b c d e f g h i ha hb hc hd he hf hg hh hi j
    rcases j with _ | _ | _ | _ | _ | _ | _ | _ | _ | j
    all_goals assumption
  have hb : buildSystem src dst =
      [[(src 0).x, (src 0).y, 1, 0, 0, 0, -(src 0).x * (dst 0).x, -(src 0).y * (dst 0).x,
          (dst 0).x],
        [0, 0, 0, (src 0).x, (src 0).y, 1, -(src 0).x * (dst 0).y, -(src 0).y * (dst 0).y,
          (dst 0).y],
        [(src 1).x, (src 1).y, 1, 0, 0, 0, -(src 1).x * (dst 1).x, -(src 1).y * (dst 1).x,
          (dst 1).x],
        [0, 0, 0, (src 1).x, (src 1).y, 1, -(src 1).x * (dst 1).y, -(src 1).y * (dst 1).y,
          (dst 1).y],
        [(src 2).x, (src 2).y, 1, 0, 0, 0, -(src 2).x * (dst 2).x, -(src 2).y * (dst 2).x,
          (dst 2).x],
        [0, 0, 0, (src 2).x, (src 2).y, 1, -(src 2).x * (dst 2).y, -(src 2).y * (dst 2).y,
          (dst 2).y],
        [(src 3).x, (src 3).y, 1, 0, 0, 0, -(src 3).x * (dst 3).x, -(src 3).y * (dst 3).x,
          (dst 3).x],
        [0, 0, 0, (src 3).x, (src 3).y, 1, -(src 3).x * (dst 3).y, -(src 3).y * (dst 3).y,
          (dst 3).y]] := by
    unfold buildSystem
    rfl
  rw [hb]
  intro i
  rcases i with _ | _ | _ | _ | _ | _ | _ | _ | i
  all_goals first
    | exact rowFloat_nil
    | exact hrow _ _ _ _ _ _ _ _ _ (hs _).1 (hs _).2 h1 h0 h0 h0 (F32.isFloat_mul _ _)
        (F32.isFloat_mul _ _) (hd _).1
    | exact hrow _ _ _ _ _ _ _ _ _ h0 h0 h0 (hs _).1 (hs _).2 h1 (F32.isFloat_mul _ _)
        (F32.isFloat_mul _ _) (hd _).2

/-- For float inputs, back substitution never takes its identity fallback: the solver falls
back exactly when the elimination does. -/
theorem backSubstitute_never_falls_back {src dst : Fin 4 → Float2 F32} (hs : pointsFloat src)
    (hd : pointsFloat dst) {R : List (List F32)} (hR : eliminate (buildSystem src dst) = some R) :
    DiagGuarded 8 R ∧ backSubstitute R ≠ none := by
  obtain ⟨-, hg⟩ := eliminate_prefix_guarded (AllFloat_buildSystem hs hd) 8 R hR
  obtain ⟨xs, hxs⟩ := backSubstitute_isSome_of_guarded hg
  exact ⟨hg, by rw [hxs]; exact Option.some_ne_none _⟩

end Float32

/-- C4 (the code departs from the claim): the destination points `(0.3f, 0.3f)`,
`(0.6f, 0.6f)`, `(0.9f, 0.9f)`, `(1.2f, 1.2f)` lie exactly on the line `y = x`, but in float
arithmetic the elimination leaves a last pivot of magnitude `2 ^ (-25)`, about `2.98e-8`,
which is not below `1e-9f`: no fallback is taken and `CalculateHomography` writes a matrix
that is not the identity (`c0 = (0.29999986, 0.29999986, -2.4e-7, 0)`,
`c1 = (-1.5000001, -1.5000001, -2, 0)`). -/
theorem C4_collinear_not_identity :
    Collinear4 (fun i => exact2 (diagonalDst i)) ∧
    ((List.range 7).foldlM Float32.eliminateStep
        (Float32.buildSystem Float32.unitSquare diagonalDst)).map
      (fun rows => F32.abs (Float32.pivotOf rows 7)) = some (F32.fin false (1 / 2 ^ 25)) ∧
    Float32.solveSystem Float32.unitSquare diagonalDst ≠ none ∧
    Float32.CalculateHomography Float32.unitSquare diagonalDst ≠ Float32.identity4x4 ∧
    (Float32.CalculateHomography Float32.unitSquare diagonalDst).c0x
      = F32.fin false (10066325 / 33554432) ∧
    (Float32.CalculateHomography Float32.unitSquare diagonalDst).c0z
      = F32.fin true (1 / 4194304) ∧
    (Float32.CalculateHomography Float32.unitSquare diagonalDst).c1z = F32.fin true 2 := by
  refine ⟨⟨1, -1, 0, Or.inl one_ne_zero, ?_⟩, by decide!, by decide!, by decide!, by decide!,
    by decide!, by decide!⟩
  intro i
  fin_cases i <;> simp [diagonalDst, exact2]

/-- C16, counterexample to the claim as stated.  `|pivot| >= 1e-9`: for a source rectangle of
width `1e-9f` the first pivot is the float `1e-9f = 9007199 / 2 ^ 53`, below `1e-9`; the
code's test `maxVal < 1e-9f` is false, the pivot is inverted and the solver writes
`c0x = 1e9`.  Diagonal 1 and zeros below: for a source rectangle of width 41 the first pivot is
41, the normalised diagonal entry `41 * (1 / 41)` rounds to `1 - 2 ^ (-24)` and the entry
below it is left at `2 ^ (-18)`. -/
theorem C16_counterexample :
    (Float32.pivotOf (Float32.buildSystem narrowSrc Float32.unitSquare) 0 = F32.ofRat 1e-9 ∧
      |(Float32.pivotOf (Float32.buildSystem narrowSrc Float32.unitSquare) 0).toRat|
        < (1e-9 : ℚ) ∧
      Float32.eliminateStep (Float32.buildSystem narrowSrc Float32.unitSquare) 0 ≠ none ∧
      Float32.solveSystem narrowSrc Float32.unitSquare ≠ none ∧
      (Float32.CalculateHomography narrowSrc Float32.unitSquare).c0x = F32.ofRat 1e9) ∧
    (Float32.eliminate (Float32.buildSystem wideSrc Float32.unitSquare)).map
      (fun R => (Float32.entry R 0 0, Float32.entry R 1 0)) =
        some (F32.fin false (1 - 1 / 2 ^ 24), F32.fin false (1 / 2 ^ 18)) := by
  decide!

/-- C16 (amended), in binary32 arithmetic: the threshold is the float constant
`1e-9f = 9007199 / 2 ^ 53`; every pivot that `CalculateHomography` inverts is not below it in
magnitude (the test `maxVal < 1e-9f` was false), and every diagonal entry that back
substitution divides by is not below it in magnitude (the test `fabsf(diag) < 1e-9f` was
false); so neither is a zero and no division by zero occurs.  For float inputs, when back
substitution is reached every diagonal entry `row[i][i]` is the rounded product
`pivot * (1 / pivot)`, of magnitude at least `1 / 4` (or NaN), so back substitution never
takes its identity fallback: the solver falls back exactly when the elimination does. -/
theorem C16_general_solver_guarded (src dst : Fin 4 → Float2 F32) :
    Float32.EPS = F32.fin false (9007199 / 2 ^ 53) ∧
    (∀ (k : ℕ) (rows : List (List F32)), k < 8 →
      (List.range k).foldlM Float32.eliminateStep (Float32.buildSystem src dst) = some rows →
      Float32.eliminateStep rows k ≠ none →
        F32.lt (F32.abs (Float32.pivotOf rows k)) Float32.EPS = false ∧
        F32.beq (Float32.pivotOf rows k) 0 = false) ∧
    (∀ (R : List (List F32)) (xs xs2 : List F32) (i : ℕ),
      Float32.eliminate (Float32.buildSystem src dst) = some R →
      Float32.backStep R xs i = some xs2 →
        F32.lt (F32.abs (Float32.entry R i i)) Float32.EPS = false ∧
        F32.beq (Float32.entry R i i) 0 = false) ∧
    (Float32.pointsFloat src → Float32.pointsFloat dst →
      (∀ R, Float32.eliminate (Float32.buildSystem src dst) = some R →
        (∀ i, i < 8 → F32.lt (F32.abs (Float32.entry R i i)) Float32.EPS = false) ∧
          Float32.backSubstitute R ≠ none) ∧
      (Float32.solveSystem src dst = none ↔
        Float32.eliminate (Float32.buildSystem src dst) = none)) := by
  refine ⟨by decide!, ?_, ?_, ?_⟩
  · intro k rows _ _ hstep
    have h := Float32.pivotOf_not_small hstep
    exact ⟨h, Float32.beq_zero_of_not_small h⟩
  · intro R xs xs2 i _ hback
    have h := (Float32.backStep_diag hback).1
    exact ⟨h, Float32.beq_zero_of_not_small h⟩
  · intro hs hd
    have hback : ∀ R, Float32.eliminate (Float32.buildSystem src dst) = some R →
        (∀ i, i < 8 → F32.lt (F32.abs (Float32.entry R i i)) Float32.EPS = false) ∧
          Float32.backSubstitute R ≠ none :=
      fun R hR => Float32.backSubstitute_never_falls_back hs hd hR
    refine ⟨hback, ?_⟩
    unfold Float32.solveSystem
    cases hR : Float32.eliminate (Float32.buildSystem src dst) with
    | none => simp
    | some R =>
      simp only [Option.some_bind]
      constructor
      · intro h; exact absurd h (hback R hR).2
      · intro h; exact absurd h (Option.some_ne_none R)

/-- Witness of C16 on the source rectangle of width `1e-9f`: the first pivot, `1e-9f`, is not
below the threshold and not zero, and the solver does not fall back. -/
theorem C16_general_solver_guarded_witness :
    (F32.lt (F32.abs (Float32.pivotOf (Float32.buildSystem narrowSrc Float32.unitSquare) 0))
        Float32.EPS = false ∧
      F32.beq (Float32.pivotOf (Float32.buildSystem narrowSrc Float32.unitSquare) 0) 0
        = false) ∧
    (Float32.pointsFloat narrowSrc ∧ Float32.pointsFloat Float32.unitSquare) ∧
    Float32.solveSystem narrowSrc Float32.unitSquare ≠ none :=
  have h1 : Float32.pointsFloat narrowSrc := by
    intro i; fin_cases i <;> exact ⟨by decide!, by decide!⟩
  have h2 : Float32.pointsFloat Float32.unitSquare := by
    intro i; fin_cases i <;> exact ⟨by decide!, by decide!⟩
  ⟨(C16_general_solver_guarded narrowSrc Float32.unitSquare).2.1 0
      (Float32.buildSystem narrowSrc Float32.unitSquare) (by norm_num) rfl (by decide!),
    ⟨h1, h2⟩,
    fun h => absurd (((C16_general_solver_guarded narrowSrc Float32.unitSquare).2.2.2 h1
      h2).2.mp h) (by decide!)⟩

end Felina
